import Mathlib

/-!
Verification of the streaming secret redactor (`internal/redactor/redactor.go`).

The embedding models bytes as `Nat`, byte strings as `List Nat`, and the
destination sink by accumulating the byte sequences passed to `dst.Write`.
Go `int` values that can go negative (buffer coordinates, flush limits,
returned write counts) are modelled as `Int`.

Two renderings of the write/flush path are given, both direct translations
of the Go code:
* the pure functions (`Redactor.write`, `Redactor.flush`, …) specialise the
  sink to one that always succeeds, which is the setting of most claims;
* the `…E` functions (`Redactor.writeE`, …) thread a sink fault budget: the
  sink accepts `budget` write calls and then faults, which models the
  error-handling claims.
-/

namespace Redact

/-- A byte value (Go `byte`). -/
abbrev Byte := Nat

/-- A needle / byte string (Go `string`, indexed bytewise). -/
abbrev Needle := List Byte

/-- Go `partialMatch`: how far through one of the needles we have matched. -/
structure partialMatch where
  needle : Needle
  matched : Nat
deriving Repr, DecidableEq

/-- Go `subrange`: a contiguous range in a buffer, inclusive of `from`,
exclusive of `to`. (`from` is a Lean keyword, hence the field name `from'`.) -/
structure subrange where
  from' : Int
  to' : Int
deriving Repr, DecidableEq

/-- Go `subrange.sub`. -/
def subrange.sub (r : subrange) (x : Int) : subrange :=
  ⟨r.from' - x, r.to' - x⟩

/-- Go `subrange.contains`: reports if the range contains `x`. -/
def subrange.contains (r : subrange) (x : Int) : Bool :=
  decide (r.from' ≤ x) && decide (x < r.to')

/-- Go `subrange.overlap`: reports if the two ranges overlap in any way. -/
def subrange.overlap (r s : subrange) : Bool :=
  r.contains s.from' || s.contains r.from'

/-- Go `subrange.union`: a range containing both `r` and `s`. -/
def subrange.union (r s : subrange) : subrange :=
  ⟨if r.from' < s.from' then r.from' else s.from',
   if r.to' > s.to' then r.to' else s.to'⟩

/-- Go `mergeOverlaps`: combines overlapping ranges, assuming the ranges are
sorted by `to`.  The Go loop walks from the end backwards, merging each
`rs[i]` into the head `rs[j]` of the already-merged suffix when they overlap
and sliding it in front of that suffix otherwise; this is that loop as a
structural recursion (the in-place compaction toward the front is the
identity on the abstract list value). -/
def mergeOverlaps : List subrange → List subrange
  | [] => []
  | x :: xs =>
    match mergeOverlaps xs with
    | [] => [x]
    | y :: ys => if y.overlap x then y.union x :: ys else x :: y :: ys

/-- Go slice expression `buf[a:b]` (both bounds in range in every reachable
use; out-of-range values are clamped rather than panicking). -/
def slice (l : List Byte) (a b : Int) : List Byte :=
  (l.take b.toNat).drop a.toNat

/-- The first inner loop of `Redactor.Write` step 2: advance every current
partial match on byte `c` at absolute buffer index `bufidx`.  Returns the
partial matches that survive to the next byte and the completed ranges, in
the order Go appends them. -/
def advance (c : Byte) (bufidx : Nat) : List partialMatch →
    List partialMatch × List subrange
  | [] => ([], [])
  | s :: rest =>
    let acc := advance c bufidx rest
    if s.needle.getD s.matched 0 ≠ c then
      acc
    else if s.matched + 1 < s.needle.length then
      (⟨s.needle, s.matched + 1⟩ :: acc.1, acc.2)
    else
      (acc.1, ⟨(bufidx : Int) - s.needle.length + 1, (bufidx : Int) + 1⟩ :: acc.2)

/-- The second inner loop of `Redactor.Write` step 2: start matching every
needle whose first byte is the current byte (the bucket
`needlesByFirstByte[c]`), at absolute buffer index `bufidx`. -/
def starts (bufidx : Nat) : List Needle → List partialMatch × List subrange
  | [] => ([], [])
  | n :: rest =>
    let acc := starts bufidx rest
    if n.length = 1 then
      (acc.1, ⟨(bufidx : Int), (bufidx : Int) + 1⟩ :: acc.2)
    else
      (⟨n, 1⟩ :: acc.1, acc.2)

/-- The byte loop of `Redactor.Write` step 2 over the newly appended chunk:
`bufidx` is the absolute position of the next byte, `pms` the current partial
matches and `comp` the completed ranges accumulated so far. -/
def scan (index : Byte → List Needle) :
    List Byte → Nat → List partialMatch → List subrange →
    List partialMatch × List subrange
  | [], _, pms, comp => (pms, comp)
  | c :: rest, bufidx, pms, comp =>
    let a := advance c bufidx pms
    let st := starts bufidx (index c)
    scan index rest (bufidx + 1) (a.1 ++ st.1) (comp ++ a.2 ++ st.2)

/-- Step 4 of `Redactor.Write`: the flush limit, the buffer length reduced to
the smallest `len(buf) - matched` over the surviving partial matches. -/
def flushLimit (buflen : Int) (pms : List partialMatch) : Int :=
  pms.foldl
    (fun limit s =>
      if buflen - (s.matched : Int) < limit then buflen - (s.matched : Int)
      else limit)
    buflen

/-- Go `Redactor`.  The destination writer and the mutex are not part of the
state: the sink is modelled by the outputs the operations return, and every
operation here is the body that runs under the lock.  `nextMatches` is a Go
allocation-reuse artefact with no abstract content. -/
structure Redactor where
  subst : List Byte
  needlesByFirstByte : Byte → List Needle
  buf : List Byte
  partialMatches : List partialMatch
  completedMatches : List subrange

/-- Go `Redactor.Reset`: rebuild the needle index (the bucket of byte `c`
keeps the non-empty needles with first byte `c`, in their original order),
touching nothing else. -/
def Redactor.reset (r : Redactor) (needles : List Needle) : Redactor :=
  { r with needlesByFirstByte := fun c => needles.filter (fun s => s.head? = some c) }

/-- Go `New` (minus the preallocations, which carry no abstract content). -/
def Redactor.new (subst : List Byte) (needles : List Needle) : Redactor :=
  Redactor.reset
    { subst := subst
      needlesByFirstByte := fun _ => []
      buf := []
      partialMatches := []
      completedMatches := [] }
    needles

/-- The range loop of `Redactor.flushUpTo`, with the sink always succeeding:
walks the completed ranges until one starts at or after `limit`, emitting
pass-through slices and substitution markers and advancing the cursor
`bufidx`; returns the final cursor, the emitted bytes, and the unprocessed
ranges (Go's `completedMatches[done+1:]`). -/
def flushLoop (subst buf : List Byte) (limit : Int) :
    List subrange → Int → List Byte → Int × List Byte × List subrange
  | [], bufidx, out => (bufidx, out, [])
  | m :: ms, bufidx, out =>
    if m.from' ≥ limit then (bufidx, out, m :: ms)
    else if bufidx < m.from' then
      flushLoop subst buf limit ms m.to' (out ++ slice buf bufidx m.from' ++ subst)
    else if bufidx = m.from' then
      flushLoop subst buf limit ms m.to' (out ++ subst)
    else
      flushLoop subst buf limit ms m.to' out

/-- Go `Redactor.flushUpTo` with the sink always succeeding.  Returns the new
state and the bytes handed to the sink. -/
def Redactor.flushUpTo (r : Redactor) (limit : Int) : Redactor × List Byte :=
  if limit = 0 ∨ r.buf.isEmpty then (r, [])
  else
    let res := flushLoop r.subst r.buf limit r.completedMatches 0 []
    let step : Int × List Byte :=
      if res.1 < limit then (limit, res.2.1 ++ slice r.buf res.1 limit)
      else (res.1, res.2.1)
    if step.1 ≥ (r.buf.length : Int) then
      ({ r with buf := [], completedMatches := [] }, step.2)
    else
      ({ r with
          buf := r.buf.drop step.1.toNat
          completedMatches := res.2.2.map (fun m => m.sub step.1) }, step.2)

/-- Go `Redactor.Write` with the sink always succeeding: append the chunk,
scan it, merge the completed ranges, flush up to the flush limit.  Returns
the new state, the bytes handed to the sink, and the reported count (all of
`b` on success). -/
def Redactor.write (r : Redactor) (b : List Byte) : Redactor × List Byte × Nat :=
  if b.isEmpty then (r, [], 0)
  else
    let prevBufLen := r.buf.length
    let buf' := r.buf ++ b
    let sc := scan r.needlesByFirstByte b prevBufLen r.partialMatches r.completedMatches
    let merged := mergeOverlaps sc.2
    let limit := flushLimit (buf'.length : Int) sc.1
    let r' := { r with buf := buf', partialMatches := sc.1, completedMatches := merged }
    let fr := r'.flushUpTo limit
    (fr.1, fr.2, b.length)

/-- Go `Redactor.Flush` with the sink always succeeding: drop the surviving
partial matches and flush the whole buffer. -/
def Redactor.flush (r : Redactor) : Redactor × List Byte :=
  let r' := { r with partialMatches := [] }
  r'.flushUpTo (r'.buf.length : Int)

/-- Run a sequence of `Write` calls (sink always succeeding), concatenating
the bytes the sink receives. -/
def runWrites (r : Redactor) : List (List Byte) → Redactor × List Byte
  | [] => (r, [])
  | b :: bs =>
    let w := r.write b
    let rest := runWrites w.1 bs
    (rest.1, w.2.1 ++ rest.2)

/-- The bytes the sink has received after a sequence of `Write` calls and a
terminal `Flush` (sink always succeeding). -/
def runAll (r : Redactor) (chunks : List (List Byte)) : List Byte :=
  let w := runWrites r chunks
  w.2 ++ w.1.flush.2

/-! ### The fallible sink

`budget` is the number of `dst.Write` calls the sink still accepts; the next
call after that faults.  Each result carries the final cursor, the bytes the
sink accepted, the unprocessed ranges, the remaining budget, and whether a
sink fault occurred.  On a fault `flushUpToE` returns the receiver unchanged,
exactly as the Go early `return err` leaves every field of `r` untouched. -/

/-- The range loop of `Redactor.flushUpTo` against the fallible sink. -/
def flushLoopE (subst buf : List Byte) (limit : Int) :
    List subrange → Int → List Byte → Nat →
    Int × List Byte × List subrange × Nat × Bool
  | [], bufidx, out, budget => (bufidx, out, [], budget, false)
  | m :: ms, bufidx, out, budget =>
    if m.from' ≥ limit then (bufidx, out, m :: ms, budget, false)
    else if bufidx < m.from' then
      match budget with
      | 0 => (bufidx, out, m :: ms, 0, true)
      | 1 => (bufidx, out ++ slice buf bufidx m.from', m :: ms, 0, true)
      | bq + 2 =>
        flushLoopE subst buf limit ms m.to'
          (out ++ slice buf bufidx m.from' ++ subst) bq
    else if bufidx = m.from' then
      match budget with
      | 0 => (bufidx, out, m :: ms, 0, true)
      | bq + 1 => flushLoopE subst buf limit ms m.to' (out ++ subst) bq
    else
      flushLoopE subst buf limit ms m.to' out budget

/-- Go `Redactor.flushUpTo` against the fallible sink: new state, bytes the
sink accepted, remaining budget, fault flag. -/
def Redactor.flushUpToE (r : Redactor) (limit : Int) (budget : Nat) :
    Redactor × List Byte × Nat × Bool :=
  if limit = 0 ∨ r.buf.isEmpty then (r, [], budget, false)
  else
    let res := flushLoopE r.subst r.buf limit r.completedMatches 0 [] budget
    if res.2.2.2.2 then (r, res.2.1, res.2.2.2.1, true)
    else
      let bufidx := res.1
      let out := res.2.1
      let rest := res.2.2.1
      let bud := res.2.2.2.1
      if bufidx < limit then
        match bud with
        | 0 => (r, out, 0, true)
        | bq + 1 =>
          let out := out ++ slice r.buf bufidx limit
          if (limit : Int) ≥ (r.buf.length : Int) then
            ({ r with buf := [], completedMatches := [] }, out, bq, false)
          else
            ({ r with
                buf := r.buf.drop limit.toNat
                completedMatches := rest.map (fun m => m.sub limit) }, out, bq, false)
      else
        if bufidx ≥ (r.buf.length : Int) then
          ({ r with buf := [], completedMatches := [] }, out, bud, false)
        else
          ({ r with
              buf := r.buf.drop bufidx.toNat
              completedMatches := rest.map (fun m => m.sub bufidx) }, out, bud, false)

/-- Go `Redactor.Write` against the fallible sink: new state, bytes the sink
accepted, remaining budget, the returned count (Go `int`, so `Int` here: on a
fault the code returns `limit - prevBufLen` with no clamping), fault flag. -/
def Redactor.writeE (r : Redactor) (b : List Byte) (budget : Nat) :
    Redactor × List Byte × Nat × Int × Bool :=
  if b.isEmpty then (r, [], budget, 0, false)
  else
    let prevBufLen := r.buf.length
    let buf' := r.buf ++ b
    let sc := scan r.needlesByFirstByte b prevBufLen r.partialMatches r.completedMatches
    let merged := mergeOverlaps sc.2
    let limit := flushLimit (buf'.length : Int) sc.1
    let r' := { r with buf := buf', partialMatches := sc.1, completedMatches := merged }
    let fr := r'.flushUpToE limit budget
    if fr.2.2.2 then (fr.1, fr.2.1, fr.2.2.1, limit - (prevBufLen : Int), true)
    else (fr.1, fr.2.1, fr.2.2.1, (b.length : Int), false)

/-- Go `Redactor.Flush` against the fallible sink. -/
def Redactor.flushE (r : Redactor) (budget : Nat) :
    Redactor × List Byte × Nat × Bool :=
  let r' := { r with partialMatches := [] }
  r'.flushUpToE (r'.buf.length : Int) budget

/-! ### The secret-selection collaborator (`VarsToRedact`)

`pathMatch` abstracts Go's `path.Match`: `none` models `path.ErrBadPattern`
(the only error `path.Match` returns), `some m` a successful call reporting
`m`.  Logger warnings carry no data, so they are not modelled.  The Go
environment map is modelled as an association list; Go `len` on a string
counts bytes, hence `String.utf8ByteSize`. -/

/-- Go `RedactLengthMin`. -/
def RedactLengthMin : Nat := 6

/-- The inner pattern loop of `VarsToRedact` for one variable: `true` iff the
loop reaches `vars[name] = val; break`.  A bad pattern or a non-match falls
through to the next pattern, and so does a matching pattern whose value is
too short (Go `continue`s the pattern loop there). -/
def varMatch (pathMatch : String → String → Option Bool) (name val : String) :
    List String → Bool
  | [] => false
  | pattern :: rest =>
    match pathMatch pattern name with
    | none => varMatch pathMatch name val rest
    | some false => varMatch pathMatch name val rest
    | some true =>
      if val.utf8ByteSize < RedactLengthMin then varMatch pathMatch name val rest
      else true

/-- Go `VarsToRedact`: the name→value pairs whose name matches a pattern and
whose value meets the minimum length. -/
def VarsToRedact (pathMatch : String → String → Option Bool)
    (patterns : List String) (environment : List (String × String)) :
    List (String × String) :=
  environment.filter (fun nv => varMatch pathMatch nv.1 nv.2 patterns)

/-- ASCII string literals as byte lists, for concrete scenarios. -/
def strBytes (s : String) : List Byte := s.data.map Char.toNat

/-! ### Range theory: `contains`, `overlap`, `union`, `mergeOverlaps` -/

/-- Whether some range of the list contains position `z`. -/
def covered (rs : List subrange) (z : Int) : Bool :=
  rs.any (fun r => r.contains z)

theorem contains_iff {r : subrange} {x : Int} :
    r.contains x = true ↔ r.from' ≤ x ∧ x < r.to' := by
  simp [subrange.contains]

theorem overlap_iff {r s : subrange} :
    r.overlap s = true ↔
      (r.from' ≤ s.from' ∧ s.from' < r.to') ∨ (s.from' ≤ r.from' ∧ r.from' < s.to') := by
  simp [subrange.overlap, contains_iff]

theorem overlap_comm (r s : subrange) : r.overlap s = s.overlap r := by
  simp [subrange.overlap, Bool.or_comm]

theorem union_from (r s : subrange) : (r.union s).from' = min r.from' s.from' := by
  simp only [subrange.union, min_def]
  split <;> split <;> omega

theorem union_to (r s : subrange) : (r.union s).to' = max r.to' s.to' := by
  simp only [subrange.union, max_def]
  split <;> split <;> omega

/-- For well-formed ranges, `overlap` is exactly nonempty intersection, and
the union of two overlapping ranges covers exactly their pointwise union. -/
theorem union_contains {r s : subrange} (h : r.overlap s = true) (z : Int) :
    (r.union s).contains z = (r.contains z || s.contains z) := by
  rw [overlap_iff] at h
  rw [Bool.eq_iff_iff]
  simp only [contains_iff, union_from, union_to, Bool.or_eq_true]
  have h1 := min_le_left r.from' s.from'
  have h2 := min_le_right r.from' s.from'
  have h3 := le_max_left r.to' s.to'
  have h4 := le_max_right r.to' s.to'
  have h5 : min r.from' s.from' = r.from' ∨ min r.from' s.from' = s.from' :=
    min_choice _ _
  have h6 : max r.to' s.to' = r.to' ∨ max r.to' s.to' = s.to' := max_choice _ _
  omega

theorem mergeOverlaps_ne_nil {rs : List subrange} (h : rs ≠ []) :
    mergeOverlaps rs ≠ [] := by
  match rs with
  | [] => exact absurd rfl h
  | x :: xs =>
    rw [mergeOverlaps]
    rcases mergeOverlaps xs with _ | ⟨y, ys⟩
    · simp
    · dsimp only
      split <;> simp

/-- Every `to'` of the merged list is a `to'` of the input list. -/
theorem mergeOverlaps_to_mem (rs : List subrange) :
    ∀ m ∈ mergeOverlaps rs, ∃ a ∈ rs, m.to' = a.to' := by
  induction rs with
  | nil => simp [mergeOverlaps]
  | cons x xs ih =>
    intro m h
    rw [mergeOverlaps] at h
    rcases hm : mergeOverlaps xs with _ | ⟨y, ys⟩
    · rw [hm] at h
      simp only [List.mem_singleton] at h
      exact ⟨x, List.mem_cons_self x xs, by rw [h]⟩
    · rw [hm] at h
      dsimp only at h
      split at h
      · rcases List.mem_cons.1 h with h1 | h1
        · subst h1
          rw [union_to]
          rcases max_choice y.to' x.to' with he | he
          · obtain ⟨a, ha, hae⟩ := ih y (by rw [hm]; exact List.mem_cons_self y ys)
            exact ⟨a, List.mem_cons_of_mem x ha, by rw [he, hae]⟩
          · exact ⟨x, List.mem_cons_self x xs, he⟩
        · obtain ⟨a, ha, hae⟩ := ih m (by rw [hm]; exact List.mem_cons_of_mem y h1)
          exact ⟨a, List.mem_cons_of_mem x ha, hae⟩
      · rcases List.mem_cons.1 h with h1 | h1
        · exact ⟨x, List.mem_cons_self x xs, by rw [h1]⟩
        · obtain ⟨a, ha, hae⟩ := ih m (by rw [hm]; exact h1)
          exact ⟨a, List.mem_cons_of_mem x ha, hae⟩

/-- Merging preserves well-formedness of every range. -/
theorem mergeOverlaps_wf {rs : List subrange} (hwf : ∀ r ∈ rs, r.from' < r.to') :
    ∀ m ∈ mergeOverlaps rs, m.from' < m.to' := by
  induction rs with
  | nil => simp [mergeOverlaps]
  | cons x xs ih =>
    intro m hm
    rw [mergeOverlaps] at hm
    have hx := hwf x (List.mem_cons_self x xs)
    have hwf' : ∀ r ∈ xs, r.from' < r.to' := fun r hr => hwf r (List.mem_cons_of_mem x hr)
    rcases hm' : mergeOverlaps xs with _ | ⟨y, ys⟩
    · rw [hm'] at hm
      simp only [List.mem_singleton] at hm
      subst hm; exact hx
    · rw [hm'] at hm
      have hy := ih hwf' y (by rw [hm']; exact List.mem_cons_self y ys)
      dsimp only at hm
      split at hm
      · rcases List.mem_cons.1 hm with h1 | h1
        · subst h1
          rw [union_from, union_to]
          have h1 := min_le_right y.from' x.from'
          have h2 := le_max_right y.to' x.to'
          omega
        · exact ih hwf' m (by rw [hm']; exact List.mem_cons_of_mem y h1)
      · rcases List.mem_cons.1 hm with h1 | h1
        · subst h1; exact hx
        · exact ih hwf' m (by rw [hm']; exact h1)

theorem mergeOverlaps_eq_nil {rs : List subrange} (h : mergeOverlaps rs = []) :
    rs = [] := by
  by_contra hne
  exact mergeOverlaps_ne_nil hne h

theorem covered_nil (z : Int) : covered [] z = false := rfl

theorem covered_cons (r : subrange) (rs : List subrange) (z : Int) :
    covered (r :: rs) z = (r.contains z || covered rs z) := by
  simp [covered]

theorem covered_append (rs ss : List subrange) (z : Int) :
    covered (rs ++ ss) z = (covered rs z || covered ss z) := by
  simp [covered, List.any_append]

/-- The principal correctness property of `mergeOverlaps` on lists sorted by
`to'` with well-formed ranges: the output ranges are pairwise separated
(`a.to' ≤ b.from'` for `a` before `b`), still sorted by `to'`, and cover
exactly the same positions. -/
theorem mergeOverlaps_main {rs : List subrange}
    (hsort : rs.Pairwise (fun a b => a.to' ≤ b.to'))
    (hwf : ∀ r ∈ rs, r.from' < r.to') :
    (mergeOverlaps rs).Pairwise (fun a b => a.to' ≤ b.from') ∧
    (mergeOverlaps rs).Pairwise (fun a b => a.to' ≤ b.to') ∧
    ∀ z, covered (mergeOverlaps rs) z = covered rs z := by
  induction rs with
  | nil => simp [mergeOverlaps]
  | cons x xs ih =>
    have hx_all : ∀ a ∈ xs, x.to' ≤ a.to' := (List.pairwise_cons.1 hsort).1
    have hsort' := (List.pairwise_cons.1 hsort).2
    have hxwf := hwf x (List.mem_cons_self x xs)
    have hwf' : ∀ r ∈ xs, r.from' < r.to' := fun r hr => hwf r (List.mem_cons_of_mem x hr)
    obtain ⟨ihsep, ihsort, ihcov⟩ := ih hsort' hwf'
    have hmwf := mergeOverlaps_wf hwf'
    rw [mergeOverlaps]
    rcases hm : mergeOverlaps xs with _ | ⟨y, ys⟩
    · have : xs = [] := mergeOverlaps_eq_nil hm
      subst this
      simp [covered]
    · rw [hm] at ihsep ihsort ihcov hmwf
      have hy_mem_tos := mergeOverlaps_to_mem xs y (by rw [hm]; exact List.mem_cons_self y ys)
      obtain ⟨a, ha, hya⟩ := hy_mem_tos
      have hxy : x.to' ≤ y.to' := by rw [hya]; exact hx_all a ha
      have hywf : y.from' < y.to' := hmwf y (List.mem_cons_self y ys)
      have hyssep := (List.pairwise_cons.1 ihsep).1
      have hyssort := (List.pairwise_cons.1 ihsort).1
      dsimp only
      split
      · -- overlap y x: merged head is y.union x, whose to' is y.to'
        next hov =>
        have hto : (y.union x).to' = y.to' := by
          rw [union_to]; omega
        refine ⟨?_, ?_, ?_⟩
        · rw [List.pairwise_cons]
          exact ⟨fun m hmys => by rw [hto]; exact hyssep m hmys,
                 (List.pairwise_cons.1 ihsep).2⟩
        · rw [List.pairwise_cons]
          exact ⟨fun m hmys => by rw [hto]; exact hyssort m hmys,
                 (List.pairwise_cons.1 ihsort).2⟩
        · intro z
          rw [covered_cons, union_contains hov, covered_cons x xs,
              ← ihcov z, covered_cons]
          rcases x.contains z with _ | _ <;> rcases y.contains z with _ | _ <;>
            rcases covered ys z with _ | _ <;> rfl
      · -- no overlap: x slides in front
        next hov =>
        have hov' : ¬ ((x.from' ≤ y.from' ∧ y.from' < x.to') ∨
            (y.from' ≤ x.from' ∧ x.from' < y.to')) := by
          intro hcon
          have : y.overlap x = true := by
            rw [overlap_iff]
            tauto
          rw [this] at hov
          exact hov rfl
        have hsep_xy : x.to' ≤ y.from' := by omega
        refine ⟨?_, ?_, ?_⟩
        · rw [List.pairwise_cons]
          refine ⟨?_, ihsep⟩
          intro m hmys
          rcases List.mem_cons.1 hmys with h1 | h1
          · rw [h1]; exact hsep_xy
          · have := hyssep m h1
            omega
        · rw [List.pairwise_cons]
          refine ⟨?_, ihsort⟩
          intro m hmys
          rcases List.mem_cons.1 hmys with h1 | h1
          · rw [h1]; exact hxy
          · have := hyssort m h1
            omega
        · intro z
          rw [covered_cons, covered_cons x xs, ← ihcov z, covered_cons]

theorem pairwise_imp_mem {α : Type} {l : List α} {R S : α → α → Prop}
    (h : ∀ a ∈ l, ∀ b ∈ l, R a b → S a b) : l.Pairwise R → l.Pairwise S := by
  induction l with
  | nil => intro; exact List.Pairwise.nil
  | cons x xs ih =>
    intro hp
    rw [List.pairwise_cons] at hp ⊢
    refine ⟨fun b hb => h x (List.mem_cons_self x xs) b (List.mem_cons_of_mem x hb)
      (hp.1 b hb), ?_⟩
    exact ih (fun a ha b hb => h a (List.mem_cons_of_mem x ha) b (List.mem_cons_of_mem x hb))
      hp.2

theorem chainTo_pairwise {rs : List subrange}
    (h : List.Chain' (fun a b : subrange => a.to' ≤ b.to') rs) :
    rs.Pairwise (fun a b : subrange => a.to' ≤ b.to') := by
  haveI : IsTrans subrange (fun a b : subrange => a.to' ≤ b.to') :=
    ⟨fun _ _ _ h1 h2 => le_trans h1 h2⟩
  exact List.chain'_iff_pairwise.1 h

theorem pairwiseTo_chain {rs : List subrange}
    (h : rs.Pairwise (fun a b : subrange => a.to' ≤ b.to')) :
    List.Chain' (fun a b : subrange => a.to' ≤ b.to') rs := by
  haveI : IsTrans subrange (fun a b : subrange => a.to' ≤ b.to') :=
    ⟨fun _ _ _ h1 h2 => le_trans h1 h2⟩
  exact List.chain'_iff_pairwise.2 h

/-- **C5** (corrected).  On a list of well-formed ranges (`from' < to'`)
sorted in non-decreasing order of `to'`, `mergeOverlaps` returns a list of
pairwise non-overlapping ranges, still ordered by `to'`, covering exactly the
same set of positions as the input.  (The minimality asserted by the claim is
dropped: see the counterexample — adjacent ranges are not coalesced.) -/
theorem C5_mergeOverlaps_disjoint_ordered_cover {rs : List subrange}
    (hsort : List.Chain' (fun a b : subrange => a.to' ≤ b.to') rs)
    (hwf : ∀ r ∈ rs, r.from' < r.to') :
    (mergeOverlaps rs).Pairwise (fun a b => a.overlap b = false) ∧
    List.Chain' (fun a b : subrange => a.to' ≤ b.to') (mergeOverlaps rs) ∧
    ∀ z : Int, covered (mergeOverlaps rs) z = covered rs z := by
  obtain ⟨hsep, hsorted, hcov⟩ := mergeOverlaps_main (chainTo_pairwise hsort) hwf
  refine ⟨?_, pairwiseTo_chain hsorted, hcov⟩
  have hmwf := mergeOverlaps_wf hwf
  refine pairwise_imp_mem (fun a ha b hb hab => ?_) hsep
  have hawf := hmwf a ha
  have hbwf := hmwf b hb
  rw [Bool.eq_false_iff, Ne, overlap_iff]
  omega

/-- **C5** (counterexample to minimality): the adjacent, non-overlapping,
well-formed, sorted ranges `[0,2)` and `[2,4)` are returned unmerged, yet the
single range `[0,4)` is a strictly shorter pairwise non-overlapping ordered
list covering exactly the same positions.  So the output is not a minimal
such list. -/
theorem C5_counterexample :
    List.Chain' (fun a b : subrange => a.to' ≤ b.to')
      [⟨0, 2⟩, ⟨2, 4⟩] ∧
    (∀ r ∈ ([⟨0, 2⟩, ⟨2, 4⟩] : List subrange), r.from' < r.to') ∧
    mergeOverlaps [⟨0, 2⟩, ⟨2, 4⟩] = [⟨0, 2⟩, ⟨2, 4⟩] ∧
    ([⟨0, 4⟩] : List subrange).Pairwise (fun a b => a.overlap b = false) ∧
    List.Chain' (fun a b : subrange => a.to' ≤ b.to') [(⟨0, 4⟩ : subrange)] ∧
    (∀ z : Int, covered [⟨0, 4⟩] z = covered [⟨0, 2⟩, ⟨2, 4⟩] z) ∧
    ([(⟨0, 4⟩ : subrange)]).length < (mergeOverlaps [⟨0, 2⟩, ⟨2, 4⟩]).length := by
  refine ⟨by simp [List.chain'_cons], by decide, by decide, by simp, by simp, ?_, by decide⟩
  intro z
  rw [Bool.eq_iff_iff]
  simp only [covered_cons, covered_nil, contains_iff, Bool.or_eq_true,
    Bool.false_eq_true, or_false]
  omega

/-- **C5** witness: the theorem applied at a concrete sorted well-formed
input. -/
theorem C5_witness :
    (List.Chain' (fun a b : subrange => a.to' ≤ b.to') [⟨0, 2⟩, ⟨1, 4⟩] ∧
      ∀ r ∈ ([⟨0, 2⟩, ⟨1, 4⟩] : List subrange), r.from' < r.to') ∧
    ((mergeOverlaps [⟨0, 2⟩, ⟨1, 4⟩]).Pairwise (fun a b => a.overlap b = false) ∧
      List.Chain' (fun a b : subrange => a.to' ≤ b.to')
        (mergeOverlaps [⟨0, 2⟩, ⟨1, 4⟩]) ∧
      ∀ z : Int, covered (mergeOverlaps [⟨0, 2⟩, ⟨1, 4⟩]) z =
        covered [⟨0, 2⟩, ⟨1, 4⟩] z) :=
  ⟨⟨by simp [List.chain'_cons], by decide⟩,
    C5_mergeOverlaps_disjoint_ordered_cover (by simp [List.chain'_cons]) (by decide)⟩

/-- **C6** (confirmed).  With needles `"abcdef"` and `"cdefgh"` and marker
`"[REDACTED]"`, writing `"xxabcdefghxx"` then flushing delivers exactly
`"xx[REDACTED]xx"` to the sink: the two overlapping matches are collapsed
into one marker spanning their union. -/
theorem C6_overlap_collapse :
    runAll (Redactor.new (strBytes "[REDACTED]")
        [strBytes "abcdef", strBytes "cdefgh"]) [strBytes "xxabcdefghxx"]
      = strBytes "xx[REDACTED]xx" := by decide

/-- The inner pattern loop of `VarsToRedact` succeeds iff some pattern
matches the name and the value meets the minimum length. -/
theorem varMatch_iff (pathMatch : String → String → Option Bool)
    (name val : String) (patterns : List String) :
    varMatch pathMatch name val patterns = true ↔
      ((∃ p ∈ patterns, pathMatch p name = some true) ∧
        RedactLengthMin ≤ val.utf8ByteSize) := by
  induction patterns with
  | nil => simp [varMatch]
  | cons p rest ih =>
    rw [varMatch]
    rcases hpm : pathMatch p name with _ | b
    · simp only [ih, List.exists_mem_cons_iff, hpm]
      constructor
      · rintro ⟨⟨q, hq, hqe⟩, hlen⟩
        exact ⟨Or.inr ⟨q, hq, hqe⟩, hlen⟩
      · rintro ⟨hor, hlen⟩
        rcases hor with hc | hc
        · exact absurd hc (by simp)
        · exact ⟨hc, hlen⟩
    · rcases b with _ | _
      · simp only [ih, List.exists_mem_cons_iff, hpm]
        constructor
        · rintro ⟨⟨q, hq, hqe⟩, hlen⟩
          exact ⟨Or.inr ⟨q, hq, hqe⟩, hlen⟩
        · rintro ⟨hor, hlen⟩
          rcases hor with hc | hc
          · exact absurd hc (by simp)
          · exact ⟨hc, hlen⟩
      · by_cases hshort : val.utf8ByteSize < RedactLengthMin
        · rw [if_pos hshort, ih]
          simp only [List.exists_mem_cons_iff]
          constructor
          · rintro ⟨_, hlen⟩
            omega
          · rintro ⟨_, hlen⟩
            omega
        · rw [if_neg hshort]
          simp only [true_iff]
          exact ⟨⟨p, List.mem_cons_self p rest, hpm⟩, by omega⟩

/-- **C10** (confirmed).  `VarsToRedact` returns exactly the name→value pairs
of the environment whose name matches at least one pattern (a bad pattern,
`pathMatch = none`, matches nothing) and whose value length is at least
`RedactLengthMin = 6`; in particular every matched variable with a shorter
value is absent from the result. -/
theorem C10_VarsToRedact_characterisation
    (pathMatch : String → String → Option Bool) (patterns : List String)
    (environment : List (String × String)) (name val : String) :
    (name, val) ∈ VarsToRedact pathMatch patterns environment ↔
      ((name, val) ∈ environment ∧
        (∃ p ∈ patterns, pathMatch p name = some true) ∧
        RedactLengthMin ≤ val.utf8ByteSize) := by
  rw [VarsToRedact, List.mem_filter, varMatch_iff]

/-- **C8** (confirmed).  If a sink write inside `flushUpTo` faults, the
returned error leaves the buffer, the pending completed-range list and the
partial-match list exactly as they were on entry: every mutation of the
receiver happens only after all sink writes of the flush succeeded. -/
theorem C8_flushUpToE_err_frame (r : Redactor) (limit : Int) (budget : Nat)
    (st : Redactor) (out : List Byte) (bud : Nat)
    (h : r.flushUpToE limit budget = (st, out, bud, true)) :
    st.buf = r.buf ∧ st.completedMatches = r.completedMatches ∧
      st.partialMatches = r.partialMatches := by
  have hst : st = r := by
    rw [Redactor.flushUpToE] at h
    split at h
    · simp at h
    · dsimp only at h
      split at h
      · rw [Prod.mk.injEq] at h
        exact h.1.symm
      · split at h
        · split at h
          · rw [Prod.mk.injEq] at h
            exact h.1.symm
          · split at h <;> · rw [Prod.mk.injEq] at h; simp at h
        · split at h <;> · rw [Prod.mk.injEq] at h; simp at h
  rw [hst]
  exact ⟨rfl, rfl, rfl⟩

/-- **C8** witness: a concrete faulting flush (nonempty buffer, positive
limit, zero sink budget). -/
theorem C8_witness :
    (Redactor.flushUpToE ⟨[], fun _ => [], [0], [], []⟩ 1 0
        = (⟨[], fun _ => [], [0], [], []⟩, [], 0, true)) ∧
    ((⟨[], fun _ => [], [0], [], []⟩ : Redactor).buf
        = (⟨[], fun _ => [], [0], [], []⟩ : Redactor).buf ∧
      (⟨[], fun _ => [], [0], [], []⟩ : Redactor).completedMatches
        = (⟨[], fun _ => [], [0], [], []⟩ : Redactor).completedMatches ∧
      (⟨[], fun _ => [], [0], [], []⟩ : Redactor).partialMatches
        = (⟨[], fun _ => [], [0], [], []⟩ : Redactor).partialMatches) :=
  ⟨rfl, C8_flushUpToE_err_frame ⟨[], fun _ => [], [0], [], []⟩ 1 0
    ⟨[], fun _ => [], [0], [], []⟩ [] 0 rfl⟩

/-- `flushUpToE` never touches the partial-match list. -/
theorem flushUpToE_partialMatches (r : Redactor) (limit : Int) (budget : Nat)
    (st : Redactor) (out : List Byte) (bud : Nat) (e : Bool)
    (h : r.flushUpToE limit budget = (st, out, bud, e)) :
    st.partialMatches = r.partialMatches := by
  rw [Redactor.flushUpToE] at h
  split at h
  · rw [Prod.mk.injEq] at h
    rw [← h.1]
  · dsimp only at h
    split at h
    · rw [Prod.mk.injEq] at h
      rw [← h.1]
    · split at h
      · split at h
        · rw [Prod.mk.injEq] at h
          rw [← h.1]
        · split at h <;> · rw [Prod.mk.injEq] at h; rw [← h.1]
      · split at h <;> · rw [Prod.mk.injEq] at h; rw [← h.1]

/-- A successful terminal flush leaves an empty buffer. -/
theorem flushE_success_buf (r : Redactor) (budget : Nat)
    (st : Redactor) (out : List Byte) (bud : Nat)
    (h : r.flushE budget = (st, out, bud, false)) : st.buf = [] := by
  rw [Redactor.flushE, Redactor.flushUpToE] at h
  split at h
  · next hg =>
    rw [Prod.mk.injEq] at h
    rw [← h.1]
    dsimp only
    rcases hg with hg | hg
    · have : r.buf.length = 0 := by exact_mod_cast hg
      exact List.length_eq_zero.1 this
    · exact List.isEmpty_iff.1 hg
  · dsimp only at h
    split at h
    · rw [Prod.mk.injEq] at h
      simp at h
    · split at h
      · split at h
        · rw [Prod.mk.injEq] at h
          simp at h
        · split at h
          · next hge =>
            rw [Prod.mk.injEq] at h
            rw [← h.1]
          · next hge =>
            exact absurd le_rfl hge
      · next hlt =>
        split at h
        · rw [Prod.mk.injEq] at h
          rw [← h.1]
        · next hge =>
          exfalso
          omega

/-- A successful terminal flush leaves no partial matches. -/
theorem flushE_success_pms (r : Redactor) (budget : Nat)
    (st : Redactor) (out : List Byte) (bud : Nat)
    (h : r.flushE budget = (st, out, bud, false)) : st.partialMatches = [] := by
  rw [Redactor.flushE] at h
  exact flushUpToE_partialMatches _ _ _ _ _ _ _ h

/-- **C9** (confirmed).  After a `Flush` that succeeded, a second `Flush`
makes no sink write at all (it succeeds even with a sink budget of zero),
sends nothing, and leaves the state unchanged. -/
theorem C9_flush_idempotent (r : Redactor) (budget : Nat)
    (st : Redactor) (out : List Byte) (bud : Nat)
    (h : r.flushE budget = (st, out, bud, false)) :
    st.flushE 0 = (st, [], 0, false) := by
  have hbuf := flushE_success_buf r budget st out bud h
  have hpms := flushE_success_pms r budget st out bud h
  have hst : ({ st with partialMatches := [] } : Redactor) = st := by
    rw [← hpms]
  rw [Redactor.flushE, hst, Redactor.flushUpToE, if_pos]
  rw [hbuf]
  exact Or.inr rfl

/-- **C9** witness: a concrete state whose first flush succeeds. -/
theorem C9_witness :
    (Redactor.flushE ⟨[7], fun _ => [], [1, 2], [], []⟩ 1
        = (⟨[7], fun _ => [], [], [], []⟩, [1, 2], 0, false)) ∧
    Redactor.flushE ⟨[7], fun _ => [], [], [], []⟩ 0
      = (⟨[7], fun _ => [], [], [], []⟩, [], 0, false) :=
  ⟨rfl, C9_flush_idempotent ⟨[7], fun _ => [], [1, 2], [], []⟩ 1
    ⟨[7], fun _ => [], [], [], []⟩ [1, 2] 0 rfl⟩

/-- The flush limit never exceeds the buffer length it starts from. -/
theorem flushLimit_le (L : Int) (pms : List partialMatch) :
    flushLimit L pms ≤ L := by
  suffices h : ∀ init : Int, List.foldl
      (fun limit s =>
        if L - (s.matched : Int) < limit then L - (s.matched : Int) else limit)
      init pms ≤ init from h L
  induction pms with
  | nil => intro init; exact le_rfl
  | cons s rest ih =>
    intro init
    refine le_trans (ih _) ?_
    dsimp only
    split <;> omega

/-- The state of the C3 scenario after `Write("abcd")` with needles
`"abcde"` and `"bcdfg"`: the whole chunk is retained (flush limit 0) with two
surviving partial matches of lengths 4 and 3. -/
def c3state : Redactor :=
  ((Redactor.new (strBytes "<R>") [strBytes "abcde", strBytes "bcdfg"]).write
    (strBytes "abcd")).1

/-- **C3** (corrected).  When a sink write faults during `Write`, the call
returns the flush limit reached minus the buffer length before the call.
That count is at most `len(b)`, but it is *not* clamped below at zero: it is
negative whenever a surviving partial match reaches back before the bytes of
the current chunk. -/
theorem C3_writeE_err_count (r : Redactor) (b : List Byte) (budget : Nat)
    (st : Redactor) (out : List Byte) (bud : Nat) (n : Int)
    (h : r.writeE b budget = (st, out, bud, n, true)) :
    n = flushLimit ((r.buf.length + b.length : Nat) : Int)
          (scan r.needlesByFirstByte b r.buf.length r.partialMatches
            r.completedMatches).1
        - (r.buf.length : Int) ∧
    n ≤ (b.length : Int) := by
  rw [Redactor.writeE] at h
  split at h
  · simp only [Prod.mk.injEq] at h
    simp at h
  · dsimp only at h
    split at h
    · simp only [Prod.mk.injEq] at h
      have hn := h.2.2.2.1
      constructor
      · rw [← hn]
        congr 2
        simp
      · rw [← hn]
        have := flushLimit_le ((r.buf ++ b).length : Int)
          (scan r.needlesByFirstByte b r.buf.length r.partialMatches
            r.completedMatches).1
        simp only [List.length_append] at this ⊢
        push_cast at this ⊢
        omega
    · simp only [Prod.mk.injEq] at h
      simp at h

/-- **C3** counterexample to the claim as stated: with needles `"abcde"` and
`"bcdfg"`, after `Write("abcd")` (fully buffered, no output), a faulting
`Write("f")` returns count `-3`, which does not lie between `0` and
`len(b) = 1`. -/
theorem C3_counterexample :
    ((c3state.writeE (strBytes "f") 0).2.2.2.2 = true) ∧
    ((c3state.writeE (strBytes "f") 0).2.2.2.1 = -3) ∧
    ¬(0 ≤ (c3state.writeE (strBytes "f") 0).2.2.2.1) := by
  refine ⟨by decide, by decide, by decide⟩

/-- **C3** witness: the amended theorem applied at the concrete faulting
write of the counterexample. -/
theorem C3_witness :
    ((c3state.writeE (strBytes "f") 0).2.2.2.1
      = flushLimit ((c3state.buf.length + (strBytes "f").length : Nat) : Int)
          (scan c3state.needlesByFirstByte (strBytes "f") c3state.buf.length
            c3state.partialMatches c3state.completedMatches).1
        - (c3state.buf.length : Int)) ∧
    ((c3state.writeE (strBytes "f") 0).2.2.2.1 ≤ ((strBytes "f").length : Int)) :=
  C3_writeE_err_count c3state (strBytes "f") 0
    (c3state.writeE (strBytes "f") 0).1
    (c3state.writeE (strBytes "f") 0).2.1
    (c3state.writeE (strBytes "f") 0).2.2.1
    (c3state.writeE (strBytes "f") 0).2.2.2.1 rfl

/-! ### Tracking a partial match through the scanner -/

/-- A surviving partial match that sees its next expected byte advances. -/
theorem advance_mem_next {c : Byte} {i : Nat} {pms : List partialMatch}
    {pm : partialMatch} (h : pm ∈ pms) (hc : pm.needle.getD pm.matched 0 = c)
    (hlt : pm.matched + 1 < pm.needle.length) :
    (⟨pm.needle, pm.matched + 1⟩ : partialMatch) ∈ (advance c i pms).1 := by
  induction pms with
  | nil => simp at h
  | cons s rest ih =>
    rw [advance]
    rcases List.mem_cons.1 h with h1 | h1
    · subst h1
      rw [if_neg (not_not_intro hc), if_pos hlt]
      exact List.mem_cons_self _ _
    · have := ih h1
      split
      · exact this
      · split
        · exact List.mem_cons_of_mem _ this
        · exact this

/-- A surviving partial match whose next expected byte completes its needle
emits the completed range for its occurrence. -/
theorem advance_mem_done {c : Byte} {i : Nat} {pms : List partialMatch}
    {pm : partialMatch} (h : pm ∈ pms) (hc : pm.needle.getD pm.matched 0 = c)
    (hge : ¬ pm.matched + 1 < pm.needle.length) :
    (⟨(i : Int) - pm.needle.length + 1, (i : Int) + 1⟩ : subrange) ∈
      (advance c i pms).2 := by
  induction pms with
  | nil => simp at h
  | cons s rest ih =>
    rw [advance]
    rcases List.mem_cons.1 h with h1 | h1
    · subst h1
      rw [if_neg (not_not_intro hc), if_neg hge]
      exact List.mem_cons_self _ _
    · have := ih h1
      split
      · exact this
      · split
        · exact this
        · exact List.mem_cons_of_mem _ this

/-- The scanner only appends to the completed-range accumulator. -/
theorem scan_mem_comp (index : Byte → List Needle) :
    ∀ (b : List Byte) (i : Nat) (pms : List partialMatch)
      (comp : List subrange) (x : subrange), x ∈ comp →
      x ∈ (scan index b i pms comp).2 := by
  intro b
  induction b with
  | nil => intro i pms comp x hx; exact hx
  | cons c rest ih =>
    intro i pms comp x hx
    rw [scan]
    exact ih _ _ _ x (List.mem_append_left _ (List.mem_append_left _ hx))

/-- Tracking: feed a surviving partial match exactly the remaining bytes of
its needle (under any needle index) and the scanner records the completed
range of its occurrence, which starts `matched` bytes before the current
buffer end. -/
theorem scan_track (index : Byte → List Needle) :
    ∀ (d i : Nat) (pms : List partialMatch) (comp : List subrange)
      (pm : partialMatch), pm.needle.length - pm.matched = d →
      pm ∈ pms → pm.matched < pm.needle.length →
      (⟨(i : Int) - pm.matched, (i : Int) - pm.matched + pm.needle.length⟩ : subrange) ∈
        (scan index (pm.needle.drop pm.matched) i pms comp).2 := by
  intro d
  induction d with
  | zero => intro i pms comp pm hd hmem hlt; omega
  | succ n ih =>
    intro i pms comp pm hd hmem hlt
    have hdrop : pm.needle.drop pm.matched =
        pm.needle.getD pm.matched 0 :: pm.needle.drop (pm.matched + 1) := by
      rw [List.getD_eq_getElem _ _ hlt]
      exact List.drop_eq_getElem_cons hlt
    rw [hdrop, scan]
    by_cases hlt2 : pm.matched + 1 < pm.needle.length
    · have hmem' : (⟨pm.needle, pm.matched + 1⟩ : partialMatch) ∈
          (advance (pm.needle.getD pm.matched 0) i pms).1 :=
        advance_mem_next hmem rfl hlt2
      have := ih (i + 1)
        ((advance (pm.needle.getD pm.matched 0) i pms).1 ++
          (starts i (index (pm.needle.getD pm.matched 0))).1)
        (comp ++ (advance (pm.needle.getD pm.matched 0) i pms).2 ++
          (starts i (index (pm.needle.getD pm.matched 0))).2)
        ⟨pm.needle, pm.matched + 1⟩ (by simp; omega)
        (List.mem_append_left _ hmem') (by simpa using hlt2)
      simp only at this
      have harith1 : ((i : Int) + 1) - ((pm.matched + 1 : Nat) : Int) =
          (i : Int) - pm.matched := by push_cast; ring
      rw [show (((i + 1 : Nat)) : Int) = (i : Int) + 1 by push_cast; ring] at this
      rw [harith1] at this
      exact this
    · have hcomp : pm.matched + 1 = pm.needle.length := by omega
      have hmemdone : (⟨(i : Int) - pm.needle.length + 1, (i : Int) + 1⟩ : subrange) ∈
          (advance (pm.needle.getD pm.matched 0) i pms).2 :=
        advance_mem_done hmem rfl hlt2
      have hrange : (⟨(i : Int) - pm.matched, (i : Int) - pm.matched + pm.needle.length⟩ :
          subrange) = ⟨(i : Int) - pm.needle.length + 1, (i : Int) + 1⟩ := by
        have h1 : (pm.matched : Int) = (pm.needle.length : Int) - 1 := by
          push_cast [← hcomp]; ring
        rw [h1]
        congr 1 <;> ring
      have hdrop2 : pm.needle.drop (pm.matched + 1) = [] := by
        rw [List.drop_eq_nil_iff]
        omega
      rw [hdrop2, scan, hrange]
      dsimp only
      exact List.mem_append_left _ (List.mem_append_right _ hmemdone)

/-- **C7** (confirmed).  `Reset` changes only the needle index: buffer,
pending completed ranges and in-flight partial matches are untouched; and a
partial match in flight before the `Reset` still completes under the new
index when its remaining bytes arrive, recording the completed range that
covers exactly its occurrence (`matched` bytes back from the buffer end). -/
theorem C7_reset_frame_continuity (r : Redactor) (ns : List Needle) :
    ((r.reset ns).buf = r.buf ∧
      (r.reset ns).completedMatches = r.completedMatches ∧
      (r.reset ns).partialMatches = r.partialMatches ∧
      (r.reset ns).subst = r.subst) ∧
    (∀ pm ∈ r.partialMatches, pm.matched < pm.needle.length →
      (⟨(r.buf.length : Int) - pm.matched,
        (r.buf.length : Int) - pm.matched + pm.needle.length⟩ : subrange) ∈
        (scan (r.reset ns).needlesByFirstByte (pm.needle.drop pm.matched)
          r.buf.length r.partialMatches r.completedMatches).2) := by
  refine ⟨⟨rfl, rfl, rfl, rfl⟩, ?_⟩
  intro pm hmem hlt
  exact scan_track _ _ _ _ _ pm rfl hmem hlt

/-- **C7** witness: a concrete in-flight match (needle `"sekret"`, two bytes
matched) surviving a reset to a disjoint needle set. -/
theorem C7_witness :
    ((Redactor.reset ⟨strBytes "<R>", fun _ => [], strBytes "se",
        [⟨strBytes "sekret", 2⟩], []⟩ [strBytes "other"]).buf = strBytes "se" ∧
      (Redactor.reset ⟨strBytes "<R>", fun _ => [], strBytes "se",
        [⟨strBytes "sekret", 2⟩], []⟩ [strBytes "other"]).completedMatches = [] ∧
      (Redactor.reset ⟨strBytes "<R>", fun _ => [], strBytes "se",
        [⟨strBytes "sekret", 2⟩], []⟩ [strBytes "other"]).partialMatches
        = [⟨strBytes "sekret", 2⟩] ∧
      (⟨0, 6⟩ : subrange) ∈
        (scan (Redactor.reset ⟨strBytes "<R>", fun _ => [], strBytes "se",
            [⟨strBytes "sekret", 2⟩], []⟩ [strBytes "other"]).needlesByFirstByte
          (strBytes "kret") 2 [⟨strBytes "sekret", 2⟩] []).2) := by
  have h := C7_reset_frame_continuity
    ⟨strBytes "<R>", fun _ => [], strBytes "se", [⟨strBytes "sekret", 2⟩], []⟩
    [strBytes "other"]
  refine ⟨h.1.1, h.1.2.1, h.1.2.2.1, ?_⟩
  have h2 := h.2 ⟨strBytes "sekret", 2⟩ (List.mem_singleton.2 rfl) (by decide)
  exact h2

/-! ### Well-formedness of the scanner state, and the retention bound (C4) -/

/-- Every needle the index hands out is non-empty (true of every index
`Reset` builds). -/
def WfIndex (index : Byte → List Needle) : Prop :=
  ∀ c n, n ∈ index c → n ≠ []

/-- Every partial match has made progress and is strictly incomplete. -/
def WfPms (pms : List partialMatch) : Prop :=
  ∀ pm ∈ pms, 0 < pm.matched ∧ pm.matched < pm.needle.length

theorem advance_wf (c : Byte) (i : Nat) (pms : List partialMatch) :
    WfPms (advance c i pms).1 := by
  induction pms with
  | nil => intro pm hpm; simp [advance] at hpm
  | cons s rest ih =>
    intro pm hpm
    rw [advance] at hpm
    split at hpm
    · exact ih pm hpm
    · split at hpm
      next hlt =>
        rcases List.mem_cons.1 hpm with h1 | h1
        · subst h1
          exact ⟨Nat.succ_pos _, hlt⟩
        · exact ih pm h1
      next => exact ih pm hpm

theorem starts_wf (i : Nat) (ns : List Needle) (hn : ∀ n ∈ ns, n ≠ []) :
    WfPms (starts i ns).1 := by
  induction ns with
  | nil => intro pm hpm; simp [starts] at hpm
  | cons n rest ih =>
    intro pm hpm
    rw [starts] at hpm
    have hn' : ∀ m ∈ rest, m ≠ [] := fun m hm => hn m (List.mem_cons_of_mem n hm)
    split at hpm
    · exact ih hn' pm hpm
    · next hne =>
      rcases List.mem_cons.1 hpm with h1 | h1
      · subst h1
        refine ⟨Nat.one_pos, ?_⟩
        have h0 : n ≠ [] := hn n (List.mem_cons_self n rest)
        have h1 : 0 < n.length := List.length_pos.2 h0
        show 1 < n.length
        omega
      · exact ih hn' pm h1

theorem scan_wf {index : Byte → List Needle} (hidx : WfIndex index) :
    ∀ (b : List Byte) (i : Nat) (pms : List partialMatch)
      (comp : List subrange), WfPms pms → WfPms (scan index b i pms comp).1 := by
  intro b
  induction b with
  | nil => intro i pms comp h; exact h
  | cons c rest ih =>
    intro i pms comp h
    rw [scan]
    refine ih _ _ _ ?_
    intro pm hpm
    rcases List.mem_append.1 hpm with h1 | h1
    · exact advance_wf c i pms pm h1
    · exact starts_wf i (index c) (fun n hn => hidx c n hn) pm h1

theorem flushLimit_foldl_le (L : Int) :
    ∀ (pms : List partialMatch) (init : Int),
      List.foldl
        (fun limit s =>
          if L - (s.matched : Int) < limit then L - (s.matched : Int) else limit)
        init pms ≤ init := by
  intro pms
  induction pms with
  | nil => intro init; exact le_rfl
  | cons s rest ih =>
    intro init
    refine le_trans (ih _) ?_
    dsimp only
    split <;> omega

theorem flushLimit_le_matched (L : Int) (pms : List partialMatch) :
    ∀ pm ∈ pms, flushLimit L pms ≤ L - (pm.matched : Int) := by
  suffices h : ∀ (ps : List partialMatch) (init : Int) (pm : partialMatch), pm ∈ ps →
      List.foldl
        (fun limit s =>
          if L - (s.matched : Int) < limit then L - (s.matched : Int) else limit)
        init ps ≤ L - (pm.matched : Int) from fun pm hpm => h pms L pm hpm
  intro ps
  induction ps with
  | nil => intro init pm hpm; simp at hpm
  | cons s rest ih =>
    intro init pm hpm
    rcases List.mem_cons.1 hpm with h1 | h1
    · subst h1
      rw [List.foldl_cons]
      refine le_trans (flushLimit_foldl_le L rest _) ?_
      dsimp only
      split <;> omega
    · rw [List.foldl_cons]
      exact ih _ pm h1

theorem flushLimit_attained (L : Int) (pms : List partialMatch) :
    flushLimit L pms = L ∨
      ∃ pm ∈ pms, flushLimit L pms = L - (pm.matched : Int) := by
  suffices h : ∀ (ps : List partialMatch) (init : Int),
      List.foldl
        (fun limit s =>
          if L - (s.matched : Int) < limit then L - (s.matched : Int) else limit)
        init ps = init ∨
      ∃ pm ∈ ps, List.foldl
        (fun limit s =>
          if L - (s.matched : Int) < limit then L - (s.matched : Int) else limit)
        init ps = L - (pm.matched : Int) from h pms L
  intro ps
  induction ps with
  | nil => intro init; exact Or.inl rfl
  | cons s rest ih =>
    intro init
    rw [List.foldl_cons]
    rcases ih (if L - (s.matched : Int) < init then L - (s.matched : Int) else init)
      with h1 | ⟨pm, hpm, he⟩
    · rw [h1]
      split
      · exact Or.inr ⟨s, List.mem_cons_self s rest, rfl⟩
      · exact Or.inl rfl
    · exact Or.inr ⟨pm, List.mem_cons_of_mem s hpm, he⟩

/-- The pure flush mutates only `buf` and `completedMatches`. -/
theorem flushUpTo_fields (r : Redactor) (limit : Int) :
    (r.flushUpTo limit).1.partialMatches = r.partialMatches ∧
    (r.flushUpTo limit).1.subst = r.subst ∧
    (r.flushUpTo limit).1.needlesByFirstByte = r.needlesByFirstByte := by
  rw [Redactor.flushUpTo]
  split
  · exact ⟨rfl, rfl, rfl⟩
  · dsimp only
    split <;> (try split) <;> exact ⟨rfl, rfl, rfl⟩

/-- A non-degenerate flush retains at most `len(buf) - limit` bytes: the
cursor always ends at or past the limit. -/
theorem flushUpTo_retained (r : Redactor) {limit : Int}
    (hle : limit ≤ (r.buf.length : Int)) (h0 : limit ≠ 0) (hbuf : r.buf ≠ []) :
    ((r.flushUpTo limit).1.buf.length : Int) ≤ (r.buf.length : Int) - limit := by
  rw [Redactor.flushUpTo, if_neg (by simp [h0, hbuf])]
  dsimp only
  by_cases hc : (flushLoop r.subst r.buf limit r.completedMatches 0 []).1 < limit
  · rw [if_pos hc]
    dsimp only
    split
    · dsimp only
      simp only [List.length_nil, Nat.cast_zero]
      omega
    · dsimp only
      rw [List.length_drop]
      omega
  · rw [if_neg hc]
    dsimp only
    push_neg at hc
    split
    · dsimp only
      simp only [List.length_nil, Nat.cast_zero]
      omega
    · next hnotclear =>
      dsimp only
      rw [List.length_drop]
      push_neg at hnotclear
      omega

/-- A flush whose limit is the whole buffer clears the buffer. -/
theorem flushUpTo_full_clears (r : Redactor) {limit : Int}
    (h : limit = (r.buf.length : Int)) : (r.flushUpTo limit).1.buf = [] := by
  rw [Redactor.flushUpTo]
  split
  · next hg =>
    rcases hg with hg | hg
    · rw [h] at hg
      exact List.length_eq_zero.1 (by exact_mod_cast hg)
    · exact List.isEmpty_iff.1 hg
  · dsimp only
    by_cases hc : (flushLoop r.subst r.buf limit r.completedMatches 0 []).1 < limit
    · rw [if_pos hc]
      dsimp only
      rw [if_pos (show limit ≥ (r.buf.length : Int) by omega)]
    · rw [if_neg hc]
      dsimp only
      push_neg at hc
      rw [if_pos (show (flushLoop r.subst r.buf limit r.completedMatches 0 []).1
          ≥ (r.buf.length : Int) by omega)]

/-- A zero-limit flush is a no-op. -/
theorem flushUpTo_zero (r : Redactor) : (r.flushUpTo 0).1 = r := by
  rw [Redactor.flushUpTo, if_pos (Or.inl rfl)]

/-- The retention facts of one flush at the write-time flush limit. -/
theorem flush_bound_pieces (r' : Redactor) (hwf : WfPms r'.partialMatches)
    (hbuf : r'.buf ≠ []) :
    (((r'.flushUpTo (flushLimit (r'.buf.length : Int) r'.partialMatches)).1.buf.length : Int)
        ≤ (r'.buf.length : Int) - flushLimit (r'.buf.length : Int) r'.partialMatches) ∧
    (r'.partialMatches = [] →
      (r'.flushUpTo (flushLimit (r'.buf.length : Int) r'.partialMatches)).1.buf = []) ∧
    (r'.partialMatches ≠ [] →
      ∃ pm ∈ r'.partialMatches,
        (r'.flushUpTo (flushLimit (r'.buf.length : Int) r'.partialMatches)).1.buf.length
          ≤ pm.needle.length) := by
  have hle := flushLimit_le (r'.buf.length : Int) r'.partialMatches
  have hret : ((r'.flushUpTo
      (flushLimit (r'.buf.length : Int) r'.partialMatches)).1.buf.length : Int)
      ≤ (r'.buf.length : Int) - flushLimit (r'.buf.length : Int) r'.partialMatches := by
    by_cases h0 : flushLimit (r'.buf.length : Int) r'.partialMatches = 0
    · rw [h0, flushUpTo_zero]
      omega
    · exact flushUpTo_retained r' hle h0 hbuf
  refine ⟨hret, ?_, ?_⟩
  · intro hpe
    refine flushUpTo_full_clears r' ?_
    rw [hpe]
    rfl
  · intro hpne
    rcases flushLimit_attained (r'.buf.length : Int) r'.partialMatches with hat | ⟨pm, hpm, hat⟩
    · exfalso
      rcases List.exists_mem_of_ne_nil r'.partialMatches hpne with ⟨pm, hpm⟩
      have h1 := flushLimit_le_matched (r'.buf.length : Int) r'.partialMatches pm hpm
      have h2 := (hwf pm hpm).1
      omega
    · refine ⟨pm, hpm, ?_⟩
      have h2 := (hwf pm hpm).2
      omega

/-- `Write` leaves the needle index alone; its surviving partial matches are
the scanner's output. -/
theorem write_state (r : Redactor) (b : List Byte) (hb : b ≠ []) :
    (r.write b).1 =
      (({ r with
          buf := r.buf ++ b
          partialMatches :=
            (scan r.needlesByFirstByte b r.buf.length r.partialMatches
              r.completedMatches).1
          completedMatches :=
            mergeOverlaps
              (scan r.needlesByFirstByte b r.buf.length r.partialMatches
                r.completedMatches).2 } : Redactor).flushUpTo
        (flushLimit ((r.buf ++ b).length : Int)
          (scan r.needlesByFirstByte b r.buf.length r.partialMatches
            r.completedMatches).1)).1 := by
  rw [Redactor.write, if_neg (by simp [hb])]

/-- **C4**-core: the bounds after one `Write` on a well-formed state. -/
theorem write_bounds (r : Redactor) (b : List Byte)
    (hidx : WfIndex r.needlesByFirstByte) (hpms : WfPms r.partialMatches)
    (hb : b ≠ []) :
    (((r.write b).1.buf.length : Int) ≤ ((r.buf ++ b).length : Int) -
        flushLimit ((r.buf ++ b).length : Int) (r.write b).1.partialMatches) ∧
    WfPms (r.write b).1.partialMatches ∧
    ((r.write b).1.partialMatches = [] → (r.write b).1.buf = []) ∧
    ((r.write b).1.partialMatches ≠ [] →
      ∃ pm ∈ (r.write b).1.partialMatches,
        (r.write b).1.buf.length ≤ pm.needle.length) := by
  have hwf' : WfPms (scan r.needlesByFirstByte b r.buf.length r.partialMatches
      r.completedMatches).1 := scan_wf hidx b _ _ _ hpms
  have hst := write_state r b hb
  have hbuf' : r.buf ++ b ≠ [] := by simp [hb]
  have hp := flush_bound_pieces
    ({ r with
        buf := r.buf ++ b
        partialMatches :=
          (scan r.needlesByFirstByte b r.buf.length r.partialMatches
            r.completedMatches).1
        completedMatches :=
          mergeOverlaps
            (scan r.needlesByFirstByte b r.buf.length r.partialMatches
              r.completedMatches).2 } : Redactor) hwf' hbuf'
  have hflds := flushUpTo_fields
    ({ r with
        buf := r.buf ++ b
        partialMatches :=
          (scan r.needlesByFirstByte b r.buf.length r.partialMatches
            r.completedMatches).1
        completedMatches :=
          mergeOverlaps
            (scan r.needlesByFirstByte b r.buf.length r.partialMatches
              r.completedMatches).2 } : Redactor)
    (flushLimit ((r.buf ++ b).length : Int)
      (scan r.needlesByFirstByte b r.buf.length r.partialMatches
        r.completedMatches).1)
  rw [hst]
  rw [hflds.1]
  dsimp only at hp ⊢
  exact ⟨hp.1, hwf', hp.2.1, hp.2.2⟩

/-- The freshly constructed index only contains non-empty needles (they are
bucketed by their first byte), and `Write` never changes the index. -/
theorem reset_wfIndex (r : Redactor) (ns : List Needle) :
    WfIndex (r.reset ns).needlesByFirstByte := by
  intro c n hn
  rw [Redactor.reset] at hn
  dsimp only at hn
  have := (List.mem_filter.1 hn).2
  intro hnil
  subst hnil
  simp at this

theorem new_wfIndex (s : List Byte) (ns : List Needle) :
    WfIndex (Redactor.new s ns).needlesByFirstByte :=
  reset_wfIndex _ ns

theorem write_index (r : Redactor) (b : List Byte) :
    (r.write b).1.needlesByFirstByte = r.needlesByFirstByte := by
  by_cases hb : b = []
  · subst hb
    rw [Redactor.write, if_pos (by simp)]
  · rw [write_state r b hb]
    exact (flushUpTo_fields _ _).2.2

theorem write_wf (r : Redactor) (b : List Byte)
    (hidx : WfIndex r.needlesByFirstByte) (hpms : WfPms r.partialMatches) :
    WfIndex (r.write b).1.needlesByFirstByte ∧ WfPms (r.write b).1.partialMatches := by
  refine ⟨by rw [write_index]; exact hidx, ?_⟩
  by_cases hb : b = []
  · subst hb
    rw [Redactor.write, if_pos (by simp)]
    exact hpms
  · exact (write_bounds r b hidx hpms hb).2.1

theorem runWrites_wf (chunks : List (List Byte)) :
    ∀ (r : Redactor), WfIndex r.needlesByFirstByte → WfPms r.partialMatches →
      WfIndex (runWrites r chunks).1.needlesByFirstByte ∧
        WfPms (runWrites r chunks).1.partialMatches := by
  induction chunks with
  | nil => intro r h1 h2; exact ⟨h1, h2⟩
  | cons c rest ih =>
    intro r h1 h2
    rw [runWrites]
    obtain ⟨h1', h2'⟩ := write_wf r c h1 h2
    exact ih _ h1' h2'

/-- The redactor state reached from a fresh instance by a sequence of
`Write` calls (sink always succeeding). -/
def statAfter (s : List Byte) (ns : List Needle) (chunks : List (List Byte)) :
    Redactor :=
  (runWrites (Redactor.new s ns) chunks).1

/-- **C4** (corrected).  After every `Write` in a run from a fresh redactor,
the retained buffer length is *at most* the appended buffer's length minus
the flush limit (the smallest `buffer_length − matched_count` over surviving
partial matches) — the flush cursor can pass the limit when a completed range
straddles it, so the claimed equality fails — and the retained length never
exceeds the length of some surviving partial match's needle (when none
survive, the buffer is empty). -/
theorem C4_retention (s : List Byte) (ns : List Needle)
    (chunks : List (List Byte)) (b : List Byte) (hb : b ≠ []) :
    ((((statAfter s ns chunks).write b).1.buf.length : Int)
        ≤ (((statAfter s ns chunks).buf ++ b).length : Int) -
          flushLimit (((statAfter s ns chunks).buf ++ b).length : Int)
            ((statAfter s ns chunks).write b).1.partialMatches) ∧
    (((statAfter s ns chunks).write b).1.partialMatches = [] →
      ((statAfter s ns chunks).write b).1.buf = []) ∧
    (((statAfter s ns chunks).write b).1.partialMatches ≠ [] →
      ∃ pm ∈ ((statAfter s ns chunks).write b).1.partialMatches,
        ((statAfter s ns chunks).write b).1.buf.length ≤ pm.needle.length) := by
  obtain ⟨h1, h2⟩ := runWrites_wf chunks (Redactor.new s ns) (new_wfIndex s ns)
    (by intro pm hpm; simp [Redactor.new, Redactor.reset] at hpm)
  obtain ⟨ha, _, hc, hd⟩ := write_bounds _ b h1 h2 hb
  exact ⟨ha, hc, hd⟩

/-- **C4** counterexample to the claim's equality: with needles `"abcd"` and
`"bcdefg"`, a single `Write("abcd")` completes the range `{0,4}` while
`"bcdefg"` has matched 3 bytes, so the flush limit is 1 and the claimed
retained length is `4 − 1 = 3` — yet the flush wrote the whole merged range
and retained `0` bytes. -/
theorem C4_counterexample :
    (((statAfter (strBytes "<R>") [strBytes "abcd", strBytes "bcdefg"]
        []).write (strBytes "abcd")).1.partialMatches ≠ []) ∧
    (flushLimit (4 : Int)
      ((statAfter (strBytes "<R>") [strBytes "abcd", strBytes "bcdefg"]
        []).write (strBytes "abcd")).1.partialMatches = 1) ∧
    (((statAfter (strBytes "<R>") [strBytes "abcd", strBytes "bcdefg"]
        []).write (strBytes "abcd")).1.buf.length = 0) ∧
    ¬((((statAfter (strBytes "<R>") [strBytes "abcd", strBytes "bcdefg"]
        []).write (strBytes "abcd")).1.buf.length : Int) = (4 : Int) - 1) := by
  refine ⟨by decide, by decide, by decide, by decide⟩

/-- **C4** witness: the amended theorem applied at a concrete run (the
counterexample's write). -/
theorem C4_witness :
    ((strBytes "abcd" : List Byte) ≠ []) ∧
    (((((statAfter (strBytes "<R>") [strBytes "abcd", strBytes "bcdefg"]
          []).write (strBytes "abcd")).1.buf.length : Int)
        ≤ (((statAfter (strBytes "<R>") [strBytes "abcd", strBytes "bcdefg"]
              []).buf ++ strBytes "abcd").length : Int) -
          flushLimit (((statAfter (strBytes "<R>")
              [strBytes "abcd", strBytes "bcdefg"] []).buf
                ++ strBytes "abcd").length : Int)
            ((statAfter (strBytes "<R>") [strBytes "abcd", strBytes "bcdefg"]
              []).write (strBytes "abcd")).1.partialMatches) ∧
      (((statAfter (strBytes "<R>") [strBytes "abcd", strBytes "bcdefg"]
          []).write (strBytes "abcd")).1.partialMatches = [] →
        ((statAfter (strBytes "<R>") [strBytes "abcd", strBytes "bcdefg"]
          []).write (strBytes "abcd")).1.buf = []) ∧
      (((statAfter (strBytes "<R>") [strBytes "abcd", strBytes "bcdefg"]
          []).write (strBytes "abcd")).1.partialMatches ≠ [] →
        ∃ pm ∈ ((statAfter (strBytes "<R>") [strBytes "abcd", strBytes "bcdefg"]
            []).write (strBytes "abcd")).1.partialMatches,
          ((statAfter (strBytes "<R>") [strBytes "abcd", strBytes "bcdefg"]
            []).write (strBytes "abcd")).1.buf.length ≤ pm.needle.length)) :=
  ⟨by decide,
    C4_retention (strBytes "<R>") [strBytes "abcd", strBytes "bcdefg"] []
      (strBytes "abcd") (by decide)⟩

/-! ### Scanner decomposition: accumulators, appending, base shift -/

/-- Shift a range upward (the inverse of `subrange.sub`). -/
def subrange.add (r : subrange) (x : Int) : subrange :=
  ⟨r.from' + x, r.to' + x⟩

theorem sub_add (r : subrange) (x : Int) : (r.sub x).add x = r := by
  simp [subrange.sub, subrange.add]

theorem add_sub (r : subrange) (x : Int) : (r.add x).sub x = r := by
  simp [subrange.sub, subrange.add]

/-- The scanner's completed-range output is the accumulator followed by the
ranges of this scan. -/
theorem scan_acc (index : Byte → List Needle) :
    ∀ (b : List Byte) (i : Nat) (pms : List partialMatch)
      (comp : List subrange),
      scan index b i pms comp =
        ((scan index b i pms []).1, comp ++ (scan index b i pms []).2) := by
  intro b
  induction b with
  | nil => intro i pms comp; simp [scan]
  | cons c rest ih =>
    intro i pms comp
    rw [scan, scan]
    rw [ih (i + 1) _ (comp ++ (advance c i pms).2 ++ (starts i (index c)).2),
        ih (i + 1) _ ([] ++ (advance c i pms).2 ++ (starts i (index c)).2)]
    simp [List.append_assoc]

/-- Scanning a concatenation is scanning the parts in sequence. -/
theorem scan_append (index : Byte → List Needle) :
    ∀ (b1 b2 : List Byte) (i : Nat) (pms : List partialMatch)
      (comp : List subrange),
      scan index (b1 ++ b2) i pms comp =
        scan index b2 (i + b1.length) (scan index b1 i pms comp).1
          (scan index b1 i pms comp).2 := by
  intro b1
  induction b1 with
  | nil => intro b2 i pms comp; simp [scan]
  | cons c rest ih =>
    intro b2 i pms comp
    rw [List.cons_append, scan, ih, scan]
    have hlen : i + (c :: rest).length = i + 1 + rest.length := by
      simp only [List.length_cons]
      omega
    rw [hlen]

/-- `advance` at a shifted base: the surviving matches are identical and the
completed ranges shift along. -/
theorem advance_base (c : Byte) (i j : Nat) (pms : List partialMatch) :
    (advance c i pms).1 = (advance c j pms).1 ∧
    (advance c i pms).2 =
      ((advance c j pms).2).map (fun r => r.add ((i : Int) - (j : Int))) := by
  induction pms with
  | nil => simp [advance]
  | cons s rest ih =>
    rw [advance, advance]
    split
    · exact ih
    · split
      · exact ⟨by rw [ih.1], by rw [ih.2]⟩
      · refine ⟨ih.1, ?_⟩
        rw [List.map_cons, ← ih.2]
        simp [subrange.add]
        constructor <;> ring

/-- `starts` at a shifted base. -/
theorem starts_base (i j : Nat) (ns : List Needle) :
    (starts i ns).1 = (starts j ns).1 ∧
    (starts i ns).2 =
      ((starts j ns).2).map (fun r => r.add ((i : Int) - (j : Int))) := by
  induction ns with
  | nil => simp [starts]
  | cons n rest ih =>
    rw [starts, starts]
    split
    · refine ⟨ih.1, ?_⟩
      rw [List.map_cons, ← ih.2]
      simp [subrange.add]
      ring
    · exact ⟨by rw [ih.1], by rw [ih.2]⟩

/-- The scanner at a shifted base: identical surviving matches, shifted
ranges. -/
theorem scan_base (index : Byte → List Needle) :
    ∀ (b : List Byte) (i j : Nat) (pms : List partialMatch),
      (scan index b i pms []).1 = (scan index b j pms []).1 ∧
      (scan index b i pms []).2 =
        ((scan index b j pms []).2).map
          (fun r => r.add ((i : Int) - (j : Int))) := by
  intro b
  induction b with
  | nil => intro i j pms; simp [scan]
  | cons c rest ih =>
    intro i j pms
    rw [scan, scan]
    rw [scan_acc index rest (i + 1), scan_acc index rest (j + 1)]
    obtain ⟨ha1, ha2⟩ := advance_base c i j pms
    obtain ⟨hs1, hs2⟩ := starts_base i j (index c)
    obtain ⟨hp, hr⟩ := ih (i + 1) (j + 1)
      ((advance c j pms).1 ++ (starts j (index c)).1)
    have hf : (fun r : subrange => r.add (((i + 1 : Nat) : Int) - ((j + 1 : Nat) : Int)))
        = fun r : subrange => r.add ((i : Int) - (j : Int)) := by
      funext r
      congr 1
      push_cast
      ring
    rw [ha1, hs1]
    refine ⟨by rw [hp], ?_⟩
    dsimp only
    rw [ha2, hs2, hr, hf]
    simp only [List.nil_append, List.map_append]

/-! ### Slice lemmas -/

theorem slice_nil_of_le {l : List Byte} {a b : Int} (h : b ≤ a) :
    slice l a b = [] := by
  rw [slice]
  refine List.drop_eq_nil_of_le ?_
  rw [List.length_take]
  have := Int.toNat_le_toNat h
  omega

theorem natSlice_append (l : List Byte) (x y z : Nat) (hxy : x ≤ y)
    (hyz : y ≤ z) :
    (l.take y).drop x ++ (l.take z).drop y = (l.take z).drop x := by
  have h1 : l.take y = (l.take z).take y := by
    rw [List.take_take, min_eq_left hyz]
  rw [h1]
  generalize l.take z = m
  conv_rhs => rw [← List.take_append_drop y m]
  rw [List.drop_append_eq_append_drop]
  congr 1
  rw [List.length_take]
  rcases le_or_lt x (min y m.length) with hle | hlt
  · rw [Nat.sub_eq_zero_of_le hle, List.drop_zero]
  · have hbig : m.length < x := by omega
    have h2 : m.drop y = [] := List.drop_eq_nil_of_le (by omega)
    rw [h2]
    simp

theorem slice_append (l : List Byte) {a b c : Int} (h0 : 0 ≤ a) (hab : a ≤ b)
    (hbc : b ≤ c) : slice l a b ++ slice l b c = slice l a c := by
  rw [slice, slice, slice]
  exact natSlice_append l a.toNat b.toNat c.toNat (Int.toNat_le_toNat hab)
    (Int.toNat_le_toNat hbc)

theorem slice_drop (l : List Byte) (k : Nat) {a b : Int} (ha : 0 ≤ a)
    (hb : 0 ≤ b) :
    slice (l.drop k) a b = slice l (a + k) (b + k) := by
  rw [slice, slice]
  have h1 : (l.drop k).take b.toNat = (l.take (k + b.toNat)).drop k := by
    rw [List.take_drop]
  rw [h1, List.drop_drop]
  have h2 : (b + k).toNat = k + b.toNat := by omega
  have h3 : (a + (k : Int)).toNat = a.toNat + k := by omega
  rw [h2, h3]
  congr 1
  omega

theorem slice_append_right (l t : List Byte) {a b : Int}
    (hb : b ≤ (l.length : Int)) : slice (l ++ t) a b = slice l a b := by
  rw [slice, slice, List.take_append_of_le_length]
  omega

theorem slice_full (l : List Byte) : slice l 0 (l.length : Int) = l := by
  rw [slice]
  simp

/-! ### Flush-loop lemmas: output accumulator, limit splitting, base shift -/

theorem flushLoop_acc (S buf : List Byte) (limit : Int) :
    ∀ (ms : List subrange) (c : Int) (out : List Byte),
      flushLoop S buf limit ms c out =
        ((flushLoop S buf limit ms c []).1,
          out ++ (flushLoop S buf limit ms c []).2.1,
          (flushLoop S buf limit ms c []).2.2) := by
  intro ms
  induction ms with
  | nil => intro c out; simp [flushLoop]
  | cons m rest ih =>
    intro c out
    rw [flushLoop, flushLoop]
    split
    · simp
    · split
      · rw [ih _ (out ++ slice buf c m.from' ++ S),
          ih _ ([] ++ slice buf c m.from' ++ S)]
        simp
      · split
        · rw [ih _ (out ++ S), ih _ ([] ++ S)]
          simp
        · rw [ih _ out]

/-- Flushing to `limit2` is flushing to a smaller `limit1` and then resuming
on the unprocessed ranges from the reached cursor. -/
theorem flushLoop_split (S buf : List Byte) {limit1 limit2 : Int}
    (h12 : limit1 ≤ limit2) :
    ∀ (ms : List subrange) (c : Int) (out : List Byte),
      flushLoop S buf limit2 ms c out =
        flushLoop S buf limit2 (flushLoop S buf limit1 ms c out).2.2
          (flushLoop S buf limit1 ms c out).1
          (flushLoop S buf limit1 ms c out).2.1 := by
  intro ms
  induction ms with
  | nil => intro c out; simp [flushLoop]
  | cons m rest ih =>
    intro c out
    by_cases h2 : m.from' ≥ limit2
    · rw [flushLoop, if_pos h2]
      rw [show flushLoop S buf limit1 (m :: rest) c out = (c, out, m :: rest) by
        rw [flushLoop, if_pos (by omega)]]
      rw [flushLoop, if_pos h2]
    · by_cases h1 : m.from' ≥ limit1
      · rw [show flushLoop S buf limit1 (m :: rest) c out = (c, out, m :: rest) by
          rw [flushLoop, if_pos h1]]
      · rw [flushLoop, if_neg h2, flushLoop, if_neg h1]
        split
        · rw [ih]
        · split
          · rw [ih]
          · rw [ih]

/-- The flush loop over a rebased buffer and rebased ranges is the absolute
flush loop, shifted.  All range ends must lie at or past the cut `k` and the
cursor must be non-negative (both hold in every reachable flush). -/
theorem flushLoop_shift (S p : List Byte) (k : Nat) (limit : Int) :
    ∀ (ms : List subrange) (c : Int) (out : List Byte),
      (∀ m ∈ ms, (k : Int) ≤ m.to') → 0 ≤ c →
      flushLoop S (p.drop k) limit (ms.map (fun m => m.sub (k : Int))) c out =
        ((flushLoop S p (limit + k) ms (c + k) out).1 - (k : Int),
          (flushLoop S p (limit + k) ms (c + k) out).2.1,
          ((flushLoop S p (limit + k) ms (c + k) out).2.2).map
            (fun m => m.sub (k : Int))) := by
  intro ms
  induction ms with
  | nil =>
    intro c out _ _
    simp [flushLoop]
  | cons m rest ih =>
    intro c out hto hc
    have htom := hto m (List.mem_cons_self m rest)
    have hto' : ∀ m' ∈ rest, (k : Int) ≤ m'.to' :=
      fun m' hm' => hto m' (List.mem_cons_of_mem m hm')
    rw [List.map_cons, flushLoop, flushLoop]
    by_cases hstop : m.from' ≥ limit + k
    · rw [if_pos (show (m.sub (k : Int)).from' ≥ limit by
        simp only [subrange.sub]; omega), if_pos hstop]
      simp
    · rw [if_neg (show ¬ (m.sub (k : Int)).from' ≥ limit by
        simp only [subrange.sub]; omega), if_neg hstop]
      by_cases hlt : c + k < m.from'
      · rw [if_pos (show c < (m.sub (k : Int)).from' by
          simp only [subrange.sub]; omega), if_pos hlt]
        have hslice : slice (p.drop k) c (m.sub (k : Int)).from' =
            slice p (c + k) m.from' := by
          simp only [subrange.sub]
          have hsd := slice_drop p k hc
            (show (0 : Int) ≤ m.from' - (k : Int) by omega)
          rw [hsd]
          congr 1
          omega
        rw [hslice]
        have hnext := ih (m.sub (k : Int)).to'
          (out ++ slice p (c + k) m.from' ++ S) hto'
          (by simp only [subrange.sub]; omega)
        simp only [subrange.sub] at hnext ⊢
        rw [show m.to' - (k : Int) + (k : Int) = m.to' by ring] at hnext
        exact hnext
      · rw [if_neg (show ¬ c < (m.sub (k : Int)).from' by
          simp only [subrange.sub]; omega), if_neg hlt]
        by_cases heq : c + k = m.from'
        · rw [if_pos (show c = (m.sub (k : Int)).from' by
            simp only [subrange.sub]; omega), if_pos heq]
          have hnext := ih (m.sub (k : Int)).to' (out ++ S) hto'
            (by simp only [subrange.sub]; omega)
          simp only [subrange.sub] at hnext ⊢
          rw [show m.to' - (k : Int) + (k : Int) = m.to' by ring] at hnext
          exact hnext
        · rw [if_neg (show ¬ c = (m.sub (k : Int)).from' by
            simp only [subrange.sub]; omega), if_neg heq]
          have hnext := ih (m.sub (k : Int)).to' out hto'
            (by simp only [subrange.sub]; omega)
          simp only [subrange.sub] at hnext ⊢
          rw [show m.to' - (k : Int) + (k : Int) = m.to' by ring] at hnext
          exact hnext

/-! ### Merge algebra: fixpoints, shifting, and composition -/

/-- One step of the backward merge walk: slide `x` in front of the merged
suffix, or union it into the suffix's head. -/
def mergeStep (x : subrange) : List subrange → List subrange
  | [] => [x]
  | y :: ys => if y.overlap x then y.union x :: ys else x :: y :: ys

theorem mergeOverlaps_cons (x : subrange) (xs : List subrange) :
    mergeOverlaps (x :: xs) = mergeStep x (mergeOverlaps xs) := by
  rw [mergeOverlaps]
  rcases mergeOverlaps xs with _ | ⟨y, ys⟩ <;> rfl

/-- For well-formed ranges, overlapping is having nonempty intersection. -/
theorem overlap_intersect {p q : subrange} (hp : p.from' < p.to')
    (hq : q.from' < q.to') :
    p.overlap q = true ↔ (q.from' < p.to' ∧ p.from' < q.to') := by
  rw [overlap_iff]
  omega

theorem union_wf {p q : subrange} (hp : p.from' < p.to')
    (hq : q.from' < q.to') : (p.union q).from' < (p.union q).to' := by
  rw [union_from, union_to]
  have h1 := min_le_left p.from' q.from'
  have h2 := le_max_left p.to' q.to'
  omega

theorem union_assoc (p q r : subrange) :
    (p.union q).union r = p.union (q.union r) := by
  have h1 : ((p.union q).union r).from' = (p.union (q.union r)).from' := by
    rw [union_from, union_from, union_from, union_from, min_assoc]
  have h2 : ((p.union q).union r).to' = (p.union (q.union r)).to' := by
    rw [union_to, union_to, union_to, union_to, max_assoc]
  cases hpq : (p.union q).union r
  cases hpr : p.union (q.union r)
  rw [hpq, hpr] at h1 h2
  simp only at h1 h2
  rw [h1, h2]

/-- A list whose consecutive members never overlap is a merge fixpoint. -/
theorem mergeOverlaps_fix {l : List subrange}
    (h : List.Chain' (fun a b => a.overlap b = false) l) :
    mergeOverlaps l = l := by
  induction l with
  | nil => rfl
  | cons x xs ih =>
    rw [mergeOverlaps_cons, ih h.tail]
    cases xs with
    | nil => rfl
    | cons y ys =>
      have hxy : x.overlap y = false := (List.chain'_cons.1 h).1
      rw [mergeStep, if_neg (by rw [overlap_comm, hxy]; simp)]

/-- On a sorted well-formed list the merge output is pairwise
non-overlapping. -/
theorem mergeOverlaps_pairwise_nonov {rs : List subrange}
    (hsort : rs.Pairwise (fun a b => a.to' ≤ b.to'))
    (hwf : ∀ r ∈ rs, r.from' < r.to') :
    (mergeOverlaps rs).Pairwise (fun a b => a.overlap b = false) := by
  obtain ⟨hsep, _, _⟩ := mergeOverlaps_main hsort hwf
  have hmwf := mergeOverlaps_wf hwf
  refine pairwise_imp_mem (fun a ha b hb hab => ?_) hsep
  have hawf := hmwf a ha
  have hbwf := hmwf b hb
  rw [Bool.eq_false_iff, Ne, overlap_iff]
  omega

/-- Merging is idempotent on sorted well-formed input. -/
theorem mergeOverlaps_idem {rs : List subrange}
    (hsort : rs.Pairwise (fun a b => a.to' ≤ b.to'))
    (hwf : ∀ r ∈ rs, r.from' < r.to') :
    mergeOverlaps (mergeOverlaps rs) = mergeOverlaps rs :=
  mergeOverlaps_fix (mergeOverlaps_pairwise_nonov hsort hwf).chain'

theorem overlap_sub (p q : subrange) (k : Int) :
    (p.sub k).overlap (q.sub k) = p.overlap q := by
  simp only [subrange.overlap, subrange.contains, subrange.sub]
  rw [Bool.eq_iff_iff]
  simp only [Bool.or_eq_true, Bool.and_eq_true, decide_eq_true_eq]
  omega

theorem union_sub (p q : subrange) (k : Int) :
    (p.sub k).union (q.sub k) = (p.union q).sub k := by
  simp only [subrange.union, subrange.sub]
  congr 1 <;> · split <;> split <;> omega

/-- Merging commutes with rebasing. -/
theorem mergeOverlaps_map_sub (k : Int) :
    ∀ (l : List subrange),
      mergeOverlaps (l.map (fun r => r.sub k)) =
        (mergeOverlaps l).map (fun r => r.sub k) := by
  intro l
  induction l with
  | nil => rfl
  | cons x xs ih =>
    rw [List.map_cons, mergeOverlaps_cons, ih, mergeOverlaps_cons]
    rcases mergeOverlaps xs with _ | ⟨y, ys⟩
    · rfl
    · rw [List.map_cons, mergeStep, mergeStep, overlap_sub]
      split
      · rw [List.map_cons, union_sub]
      · rw [List.map_cons, List.map_cons]

/-- The crux of merge composition: merging an already-united pair into an
accumulated list equals merging the two ranges in sequence, provided the
ranges are sorted beneath the accumulator's head. -/
theorem mergeStep_union (a y : subrange) (N : List subrange)
    (hwa : a.from' < a.to') (hwy : y.from' < y.to')
    (hov : y.overlap a = true) (hay : a.to' ≤ y.to')
    (hN : ∀ h ∈ N.head?, y.to' ≤ h.to' ∧ h.from' < h.to') :
    mergeStep (y.union a) N = mergeStep a (mergeStep y N) := by
  cases N with
  | nil =>
    rw [mergeStep, mergeStep, mergeStep, if_pos hov]
  | cons h t =>
    obtain ⟨hyh, hwh⟩ := hN h rfl
    have hovc := (overlap_intersect hwy hwa).1 hov
    have hwu : (y.union a).from' < (y.union a).to' := union_wf hwy hwa
    rw [mergeStep, mergeStep]
    by_cases hhy : h.overlap y = true
    · have hhyc := (overlap_intersect hwh hwy).1 hhy
      rw [if_pos hhy, mergeStep]
      have h1 : h.overlap (y.union a) = true := by
        rw [overlap_intersect hwh hwu, union_from, union_to]
        have := min_le_left y.from' a.from'
        have := le_max_left y.to' a.to'
        omega
      have h2 : (h.union y).overlap a = true := by
        rw [overlap_intersect (union_wf hwh hwy) hwa, union_from, union_to]
        have := min_le_right h.from' y.from'
        have := le_max_right h.to' y.to'
        omega
      rw [if_pos h1, if_pos h2, union_assoc]
    · have hhyc : ¬ (y.from' < h.to' ∧ h.from' < y.to') := by
        intro hcon
        rw [← overlap_intersect hwh hwy] at hcon
        exact absurd hcon (by simp [hhy])
      rw [if_neg hhy, mergeStep]
      have h1 : ¬ h.overlap (y.union a) = true := by
        rw [overlap_intersect hwh hwu, union_from, union_to]
        have := min_le_left y.from' a.from'
        have h3 := max_choice y.to' a.to'
        omega
      rw [if_neg h1, if_pos hov]

/-- Merge composition: merging a sorted well-formed concatenation equals
pre-merging the left part first.  This is what makes the incremental
per-`Write` merging of `completedMatches` agree with merging the whole range
list at once. -/
theorem mergeOverlaps_append (A B : List subrange)
    (hsort : (A ++ B).Pairwise (fun a b => a.to' ≤ b.to'))
    (hwf : ∀ r ∈ A ++ B, r.from' < r.to') :
    mergeOverlaps (A ++ B) = mergeOverlaps (mergeOverlaps A ++ B) := by
  induction A with
  | nil => rfl
  | cons a A' ih =>
    have hsort' : (A' ++ B).Pairwise (fun a b => a.to' ≤ b.to') :=
      (List.pairwise_cons.1 (by rwa [List.cons_append] at hsort)).2
    have ha_all : ∀ m ∈ A' ++ B, a.to' ≤ m.to' :=
      (List.pairwise_cons.1 (by rwa [List.cons_append] at hsort)).1
    have hwf' : ∀ r ∈ A' ++ B, r.from' < r.to' := by
      intro r hr
      refine hwf r ?_
      rw [List.cons_append]
      exact List.mem_cons_of_mem a hr
    have hwa : a.from' < a.to' := by
      refine hwf a ?_
      rw [List.cons_append]
      exact List.mem_cons_self _ _
    have hsortA' : A'.Pairwise (fun a b => a.to' ≤ b.to') :=
      hsort'.sublist (List.sublist_append_left A' B)
    have hwfA' : ∀ r ∈ A', r.from' < r.to' :=
      fun r hr => hwf' r (List.mem_append_left B hr)
    rw [List.cons_append, mergeOverlaps_cons, ih hsort' hwf']
    conv_rhs => rw [mergeOverlaps_cons]
    rcases hA : mergeOverlaps A' with _ | ⟨y, ys⟩
    · have hnil : A' = [] := mergeOverlaps_eq_nil hA
      subst hnil
      rfl
    · have hymem : y ∈ mergeOverlaps A' := by rw [hA]; exact List.mem_cons_self y ys
      have hwy : y.from' < y.to' := mergeOverlaps_wf hwfA' y hymem
      obtain ⟨a', ha'mem, ha'to⟩ := mergeOverlaps_to_mem A' y hymem
      have hay : a.to' ≤ y.to' := by
        rw [ha'to]
        exact ha_all a' (List.mem_append_left B ha'mem)
      have hsortMA' := (mergeOverlaps_main hsortA' hwfA').2.1
      rw [hA] at hsortMA'
      have hy_ys : ∀ m ∈ ys, y.to' ≤ m.to' := (List.pairwise_cons.1 hsortMA').1
      have hwfys : ∀ r ∈ ys ++ B, r.from' < r.to' := by
        intro r hr
        rcases List.mem_append.1 hr with h1 | h1
        · exact mergeOverlaps_wf hwfA' r (by rw [hA]; exact List.mem_cons_of_mem y h1)
        · exact hwf' r (List.mem_append_right A' h1)
      have hN : ∀ h ∈ (mergeOverlaps (ys ++ B)).head?,
          y.to' ≤ h.to' ∧ h.from' < h.to' := by
        intro h hh
        have hmem : h ∈ mergeOverlaps (ys ++ B) := List.mem_of_mem_head? hh
        obtain ⟨m, hm, hmto⟩ := mergeOverlaps_to_mem (ys ++ B) h hmem
        refine ⟨?_, mergeOverlaps_wf hwfys h hmem⟩
        rw [hmto]
        rcases List.mem_append.1 hm with h1 | h1
        · exact hy_ys m h1
        · obtain ⟨_, _, hcross⟩ := List.pairwise_append.1 hsort'
          rw [ha'to]
          exact hcross a' ha'mem m h1
      rw [mergeStep]
      split
      · next hov =>
        rw [List.cons_append, mergeOverlaps_cons]
        exact (mergeStep_union a y _ hwa hwy hov hay hN).symm
      · next hov =>
        simp only [List.cons_append, mergeOverlaps_cons]

/-! ### Boundary independence: algebraic preliminaries -/

theorem add_eq_sub_neg (r : subrange) (k : Int) : r.add k = r.sub (-k) := by
  simp [subrange.add, subrange.sub]

/-- Merging commutes with shifting upward. -/
theorem mergeOverlaps_map_add (k : Int) (l : List subrange) :
    mergeOverlaps (l.map (fun r => r.add k)) =
      (mergeOverlaps l).map (fun r => r.add k) := by
  have hf : (fun r : subrange => r.add k) = fun r : subrange => r.sub (-k) := by
    funext r
    exact add_eq_sub_neg r k
  rw [hf]
  exact mergeOverlaps_map_sub (-k) l

theorem flushLimit_foldl_shift (x δ : Int) :
    ∀ (pms : List partialMatch) (init : Int),
      pms.foldl
        (fun limit s =>
          if x + δ - (s.matched : Int) < limit then x + δ - (s.matched : Int)
          else limit) (init + δ) =
      pms.foldl
        (fun limit s =>
          if x - (s.matched : Int) < limit then x - (s.matched : Int)
          else limit) init + δ := by
  intro pms
  induction pms with
  | nil => intro init; rfl
  | cons s rest ih =>
    intro init
    rw [List.foldl_cons, List.foldl_cons]
    by_cases h : x - (s.matched : Int) < init
    · rw [if_pos (by omega), if_pos h,
        show x + δ - (s.matched : Int) = x - (s.matched : Int) + δ by ring, ih]
    · rw [if_neg (by omega), if_neg h, ih]

/-- The flush limit over a shifted buffer length shifts along. -/
theorem flushLimit_shift (x δ : Int) (pms : List partialMatch) :
    flushLimit (x + δ) pms = flushLimit x pms + δ := by
  rw [flushLimit, flushLimit]
  exact flushLimit_foldl_shift x δ pms x

/-- The stored range list and the virtual range list agree except that the
heads may disagree on `from`: the stored head may start later than the
virtual head when an earlier flush already rendered the virtual range's
beginning, in which case both starts lie below the cut `κ`. -/
def hdAgree (κ : Int) : List subrange → List subrange → Prop
  | [], [] => True
  | s :: ss, v :: vs =>
      s.to' = v.to' ∧ (s.from' = v.from' ∨ (s.from' < κ ∧ v.from' ≤ s.from')) ∧
        ss = vs
  | _, [] => False
  | [], _ => False

theorem hdAgree_refl (κ : Int) (l : List subrange) : hdAgree κ l l := by
  cases l with
  | nil => trivial
  | cons x xs => exact ⟨rfl, Or.inl rfl, rfl⟩

/-- Pairwise separation: each range ends at or before the next begins. -/
def Sep (l : List subrange) : Prop :=
  l.Pairwise (fun a b => a.to' ≤ b.from')

/-! ### Per-step scanner facts -/

theorem advance_to (c : Byte) (i : Nat) (pms : List partialMatch) :
    ∀ g ∈ (advance c i pms).2, g.to' = (i : Int) + 1 := by
  induction pms with
  | nil => simp [advance]
  | cons s rest ih =>
    intro g hg
    rw [advance] at hg
    split at hg
    · exact ih g hg
    · split at hg
      · exact ih g hg
      · rcases List.mem_cons.1 hg with h1 | h1
        · subst h1; rfl
        · exact ih g h1

theorem advance_done_src (c : Byte) (i : Nat) (pms : List partialMatch) :
    ∀ g ∈ (advance c i pms).2, ∃ pm ∈ pms,
      g = ⟨(i : Int) - pm.needle.length + 1, (i : Int) + 1⟩ ∧
        ¬ pm.matched + 1 < pm.needle.length := by
  induction pms with
  | nil => simp [advance]
  | cons s rest ih =>
    intro g hg
    rw [advance] at hg
    split at hg
    · obtain ⟨pm, hpm, hge⟩ := ih g hg
      exact ⟨pm, List.mem_cons_of_mem s hpm, hge⟩
    · split at hg
      · obtain ⟨pm, hpm, hge⟩ := ih g hg
        exact ⟨pm, List.mem_cons_of_mem s hpm, hge⟩
      · next hlt =>
        rcases List.mem_cons.1 hg with h1 | h1
        · exact ⟨s, List.mem_cons_self s rest, h1, hlt⟩
        · obtain ⟨pm, hpm, hge⟩ := ih g h1
          exact ⟨pm, List.mem_cons_of_mem s hpm, hge⟩

theorem advance_src (c : Byte) (i : Nat) (pms : List partialMatch) :
    ∀ pm' ∈ (advance c i pms).1, ∃ pm ∈ pms,
      pm'.needle = pm.needle ∧ pm'.matched = pm.matched + 1 := by
  induction pms with
  | nil => simp [advance]
  | cons s rest ih =>
    intro pm' hpm'
    rw [advance] at hpm'
    split at hpm'
    · obtain ⟨pm, hpm, hh⟩ := ih pm' hpm'
      exact ⟨pm, List.mem_cons_of_mem s hpm, hh⟩
    · split at hpm'
      · rcases List.mem_cons.1 hpm' with h1 | h1
        · subst h1
          exact ⟨s, List.mem_cons_self s rest, rfl, rfl⟩
        · obtain ⟨pm, hpm, hh⟩ := ih pm' h1
          exact ⟨pm, List.mem_cons_of_mem s hpm, hh⟩
      · obtain ⟨pm, hpm, hh⟩ := ih pm' hpm'
        exact ⟨pm, List.mem_cons_of_mem s hpm, hh⟩

theorem starts_to (i : Nat) (ns : List Needle) :
    ∀ g ∈ (starts i ns).2, g = ⟨(i : Int), (i : Int) + 1⟩ := by
  induction ns with
  | nil => simp [starts]
  | cons n rest ih =>
    intro g hg
    rw [starts] at hg
    split at hg
    · rcases List.mem_cons.1 hg with h1 | h1
      · exact h1
      · exact ih g h1
    · exact ih g hg

theorem starts_src (i : Nat) (ns : List Needle) :
    ∀ pm' ∈ (starts i ns).1, pm'.matched = 1 := by
  induction ns with
  | nil => simp [starts]
  | cons n rest ih =>
    intro pm' hpm'
    rw [starts] at hpm'
    split at hpm'
    · exact ih pm' hpm'
    · rcases List.mem_cons.1 hpm' with h1 | h1
      · subst h1; rfl
      · exact ih pm' h1

/-- The completed ranges of one scan are well-formed, end inside the scanned
chunk, and are listed in non-decreasing order of `to'`. -/
theorem scan_raw {index : Byte → List Needle} (hidx : WfIndex index) :
    ∀ (b : List Byte) (i : Nat) (pms : List partialMatch), WfPms pms →
      (∀ g ∈ (scan index b i pms []).2,
        g.from' < g.to' ∧ (i : Int) < g.to' ∧ g.to' ≤ (i : Int) + b.length) ∧
      (scan index b i pms []).2.Pairwise (fun a b => a.to' ≤ b.to') := by
  intro b
  induction b with
  | nil =>
    intro i pms _
    refine ⟨?_, ?_⟩ <;> simp [scan]
  | cons c rest ih =>
    intro i pms hwf
    rw [scan, scan_acc]
    have hwf' : WfPms ((advance c i pms).1 ++ (starts i (index c)).1) := by
      intro pm hpm
      rcases List.mem_append.1 hpm with h1 | h1
      · exact advance_wf c i pms pm h1
      · exact starts_wf i (index c) (fun n hn => hidx c n hn) pm h1
    obtain ⟨ihb, ihs⟩ := ih (i + 1) _ hwf'
    have hstep : ∀ g ∈ [] ++ (advance c i pms).2 ++ (starts i (index c)).2,
        g.from' < g.to' ∧ g.to' = (i : Int) + 1 := by
      intro g hg
      rw [List.nil_append] at hg
      rcases List.mem_append.1 hg with h1 | h1
      · obtain ⟨pm, hpm, hgeq, hge⟩ := advance_done_src c i pms g h1
        have hw := hwf pm hpm
        subst hgeq
        refine ⟨?_, rfl⟩
        show (i : Int) - pm.needle.length + 1 < (i : Int) + 1
        have : 1 ≤ pm.needle.length := by omega
        omega
      · have := starts_to i (index c) g h1
        subst this
        refine ⟨?_, rfl⟩
        show (i : Int) < (i : Int) + 1
        omega
    refine ⟨?_, ?_⟩
    · intro g hg
      rcases List.mem_append.1 hg with h1 | h1
      · obtain ⟨hwfg, hto⟩ := hstep g h1
        refine ⟨hwfg, by omega, ?_⟩
        rw [hto]
        simp only [List.length_cons]
        push_cast
        omega
      · obtain ⟨h2, h3, h4⟩ := ihb g h1
        refine ⟨h2, by push_cast at h3 ⊢; omega, ?_⟩
        simp only [List.length_cons]
        push_cast at h4 ⊢
        omega
    · rw [List.pairwise_append]
      refine ⟨?_, ihs, ?_⟩
      · refine List.pairwise_iff_forall_sublist.2 ?_
        intro a b hsub
        have ha := hsub.subset (List.mem_cons_self a [b])
        have hb := hsub.subset (List.mem_cons_of_mem a (List.mem_cons_self b []))
        rw [(hstep a ha).2, (hstep b hb).2]
      · intro a ha b hb
        rw [(hstep a ha).2]
        have := (ihb b hb).2.1
        push_cast at this ⊢
        omega

/-- Every completed range of a scan either starts inside the scanned chunk or
starts where one of the incoming partial matches started; and every surviving
partial match started inside the chunk or where an incoming one started. -/
theorem scan_start_inv {index : Byte → List Needle} (hidx : WfIndex index) :
    ∀ (b : List Byte) (i : Nat) (pms : List partialMatch), WfPms pms →
      (∀ g ∈ (scan index b i pms []).2,
        (i : Int) ≤ g.from' ∨ ∃ pm ∈ pms, g.from' = (i : Int) - pm.matched) ∧
      (∀ pm' ∈ (scan index b i pms []).1,
        (i : Int) ≤ (i : Int) + b.length - pm'.matched ∨
          ∃ pm ∈ pms, (i : Int) + b.length - pm'.matched =
            (i : Int) - pm.matched) := by
  intro b
  induction b with
  | nil =>
    intro i pms _
    refine ⟨by simp [scan], ?_⟩
    intro pm' hpm'
    rw [scan] at hpm'
    right
    exact ⟨pm', hpm', by simp⟩
  | cons c rest ih =>
    intro i pms hwf
    rw [scan, scan_acc]
    have hwf' : WfPms ((advance c i pms).1 ++ (starts i (index c)).1) := by
      intro pm hpm
      rcases List.mem_append.1 hpm with h1 | h1
      · exact advance_wf c i pms pm h1
      · exact starts_wf i (index c) (fun n hn => hidx c n hn) pm h1
    obtain ⟨ihb, ihs⟩ := ih (i + 1) _ hwf'
    have htrans : ∀ pm' ∈ (advance c i pms).1 ++ (starts i (index c)).1,
        ((i : Int) + 1) - pm'.matched = (i : Int) ∨
          ∃ pm ∈ pms, ((i : Int) + 1) - pm'.matched = (i : Int) - pm.matched := by
      intro pm' hpm'
      rcases List.mem_append.1 hpm' with h1 | h1
      · obtain ⟨pm, hpm, _, hm⟩ := advance_src c i pms pm' h1
        right
        refine ⟨pm, hpm, ?_⟩
        rw [hm]
        push_cast
        ring
      · left
        rw [starts_src i (index c) pm' h1]
        push_cast
        ring
    refine ⟨?_, ?_⟩
    · intro g hg
      rcases List.mem_append.1 hg with h1 | h1
      · rw [List.nil_append] at h1
        rcases List.mem_append.1 h1 with h2 | h2
        · obtain ⟨pm, hpm, hgeq, hge⟩ := advance_done_src c i pms g h2
          have hw := hwf pm hpm
          right
          refine ⟨pm, hpm, ?_⟩
          subst hgeq
          show (i : Int) - pm.needle.length + 1 = (i : Int) - pm.matched
          have : pm.needle.length = pm.matched + 1 := by omega
          rw [this]
          push_cast
          ring
        · have := starts_to i (index c) g h2
          subst this
          left
          exact le_refl _
      · rcases ihb g h1 with h2 | h2
        · left
          push_cast at h2 ⊢
          omega
        · obtain ⟨pm', hpm', heq⟩ := h2
          rcases htrans pm' hpm' with h3 | h3
          · left
            push_cast at heq h3 ⊢
            omega
          · obtain ⟨pm, hpm, h4⟩ := h3
            right
            refine ⟨pm, hpm, ?_⟩
            push_cast at heq h4 ⊢
            omega
    · intro pm'' hpm''
      have hlen : (i : Int) + ((c :: rest).length : Int) =
          ((i + 1 : Nat) : Int) + (rest.length : Int) := by
        simp only [List.length_cons]
        push_cast
        ring
      rcases ihs pm'' hpm'' with h2 | h2
      · left
        push_cast at h2 ⊢
        omega
      · obtain ⟨pm', hpm', heq⟩ := h2
        rcases htrans pm' hpm' with h3 | h3
        · left
          push_cast at heq h3 ⊢
          omega
        · obtain ⟨pm, hpm, h4⟩ := h3
          right
          refine ⟨pm, hpm, ?_⟩
          push_cast at heq h4 ⊢
          omega

/-- Any lower bound on all the starts survives merging. -/
theorem mergeOverlaps_from_lb (a : Int) {l : List subrange}
    (h : ∀ r ∈ l, a ≤ r.from') : ∀ g ∈ mergeOverlaps l, a ≤ g.from' := by
  induction l with
  | nil => simp [mergeOverlaps]
  | cons x xs ih =>
    intro g hg
    rw [mergeOverlaps_cons] at hg
    have hx : a ≤ x.from' := h x (List.mem_cons_self x xs)
    have ih' := ih (fun r hr => h r (List.mem_cons_of_mem x hr))
    rcases hxs : mergeOverlaps xs with _ | ⟨y, ys⟩
    · rw [hxs, mergeStep] at hg
      rcases List.mem_cons.1 hg with h1 | h1
      · subst h1; exact hx
      · simp at h1
    · rw [hxs, mergeStep] at hg
      have hy : a ≤ y.from' := ih' y (by rw [hxs]; exact List.mem_cons_self y ys)
      split at hg
      · rcases List.mem_cons.1 hg with h1 | h1
        · subst h1
          rw [union_from]
          omega
        · exact ih' g (by rw [hxs]; exact List.mem_cons_of_mem y h1)
      · rcases List.mem_cons.1 hg with h1 | h1
        · subst h1; exact hx
        · exact ih' g (by rw [hxs]; exact h1)

/-- Every input range is contained in some merged range. -/
theorem mergeOverlaps_dominates :
    ∀ (l : List subrange), ∀ r ∈ l,
      ∃ g ∈ mergeOverlaps l, g.from' ≤ r.from' ∧ r.to' ≤ g.to' := by
  intro l
  induction l with
  | nil => simp
  | cons x xs ih =>
    intro r hr
    rw [mergeOverlaps_cons]
    rcases List.mem_cons.1 hr with h1 | h1
    · subst h1
      rcases hxs : mergeOverlaps xs with _ | ⟨y, ys⟩
      · exact ⟨r, by rw [mergeStep]; exact List.mem_cons_self _ _, le_refl _, le_refl _⟩
      · rw [mergeStep]
        split
        · refine ⟨y.union r, List.mem_cons_self _ _, ?_, ?_⟩
          · rw [union_from]; omega
          · rw [union_to]; omega
        · exact ⟨r, List.mem_cons_self _ _, le_refl _, le_refl _⟩
    · obtain ⟨g, hg, hg1, hg2⟩ := ih r h1
      rcases hxs : mergeOverlaps xs with _ | ⟨y, ys⟩
      · rw [hxs] at hg
        simp at hg
      · rw [hxs] at hg
        rw [mergeStep]
        split
        · rcases List.mem_cons.1 hg with h2 | h2
          · refine ⟨y.union x, List.mem_cons_self _ _, ?_, ?_⟩
            · rw [union_from]
              rw [h2] at hg1
              exact le_trans (min_le_left _ _) hg1
            · rw [union_to]
              rw [h2] at hg2
              exact le_trans hg2 (le_max_left _ _)
          · exact ⟨g, List.mem_cons_of_mem _ h2, hg1, hg2⟩
        · exact ⟨g, List.mem_cons_of_mem _ hg, hg1, hg2⟩

/-- Prepending a separated block whose members stay clear of the merged tail
passes through `mergeOverlaps` untouched. -/
theorem mergeOverlaps_sep_append (X : List subrange) :
    ∀ (D : List subrange), Sep D → (∀ d ∈ D, d.from' < d.to') →
      (∀ d ∈ D, ∀ h ∈ (mergeOverlaps X).head?, h.overlap d = false) →
      mergeOverlaps (D ++ X) = D ++ mergeOverlaps X := by
  intro D
  induction D with
  | nil => intro _ _ _; rfl
  | cons d D' ih =>
    intro hsep hwf hclear
    have hsep' : Sep D' := (List.pairwise_cons.1 hsep).2
    have hwf' : ∀ x ∈ D', x.from' < x.to' :=
      fun x hx => hwf x (List.mem_cons_of_mem d hx)
    have hclear' : ∀ x ∈ D', ∀ h ∈ (mergeOverlaps X).head?, h.overlap x = false :=
      fun x hx => hclear x (List.mem_cons_of_mem d hx)
    rw [List.cons_append, mergeOverlaps_cons, ih hsep' hwf' hclear']
    cases D' with
    | nil =>
      rw [List.nil_append]
      rcases hX : mergeOverlaps X with _ | ⟨h, t⟩
      · rfl
      · rw [mergeStep]
        have := hclear d (List.mem_cons_self d []) h (by rw [hX]; rfl)
        rw [if_neg (by rw [this]; simp)]
        rfl
    | cons d2 D'' =>
      rw [List.cons_append, mergeStep]
      have hd2 : d.to' ≤ d2.from' :=
        (List.pairwise_cons.1 hsep).1 d2 (List.mem_cons_self d2 D'')
      have hwd : d.from' < d.to' := hwf d (List.mem_cons_self _ _)
      have hwd2 : d2.from' < d2.to' :=
        hwf d2 (List.mem_cons_of_mem d (List.mem_cons_self d2 D''))
      have hno : ¬ d2.overlap d = true := by
        intro hcon
        have := (overlap_intersect hwd2 hwd).1 hcon
        omega
      rw [if_neg hno]
      rfl

/-- A list sorted by `to'` splits into the prefix at or below a cut and the
suffix above it. -/
theorem sorted_filter_split (κ : Int) :
    ∀ (l : List subrange), l.Pairwise (fun a b => a.to' ≤ b.to') →
      l = l.filter (fun g => decide (g.to' ≤ κ)) ++
        l.filter (fun g => decide (κ < g.to')) := by
  intro l
  induction l with
  | nil => intro _; rfl
  | cons x xs ih =>
    intro hsort
    have hsort' := (List.pairwise_cons.1 hsort).2
    have hx_all := (List.pairwise_cons.1 hsort).1
    by_cases hx : x.to' ≤ κ
    · rw [List.filter_cons_of_pos (by simpa using hx),
        List.filter_cons_of_neg (by simp; omega), List.cons_append]
      exact congrArg (List.cons x) (ih hsort')
    · have h1 : xs.filter (fun g => decide (g.to' ≤ κ)) = [] := by
        rw [List.filter_eq_nil_iff]
        intro a ha
        have := hx_all a ha
        simp
        omega
      have h2 : xs.filter (fun g => decide (κ < g.to')) = xs := by
        rw [List.filter_eq_self]
        intro a ha
        have := hx_all a ha
        simp
        omega
      rw [List.filter_cons_of_neg (by simpa using hx),
        List.filter_cons_of_pos (by simp; omega), h1, List.nil_append, h2]

/-- In a separated list whose members all end above the cut, a member that
starts below the cut must be the head. -/
theorem sep_first_below {l : List subrange} {κ : Int} (hsep : Sep l)
    (hto : ∀ m ∈ l, κ < m.to') {x : subrange} (hx : x ∈ l)
    (hxf : x.from' < κ) : l.head? = some x := by
  cases l with
  | nil => simp at hx
  | cons h t =>
    rcases List.mem_cons.1 hx with h1 | h1
    · rw [h1]
      rfl
    · have h2 := (List.pairwise_cons.1 hsep).1 x h1
      have h3 := hto h (List.mem_cons_self h t)
      omega

/-! ### The virtual machine: scanning the whole stream with no flushing -/

/-- The partial matches after scanning the whole processed prefix `p`. -/
def Vpms (index : Byte → List Needle) (p : List Byte) : List partialMatch :=
  (scan index p 0 [] []).1

/-- Every completed range the scanner would record over the whole prefix. -/
def Vraw (index : Byte → List Needle) (p : List Byte) : List subrange :=
  (scan index p 0 [] []).2

/-- The merged completed ranges over the whole prefix. -/
def Vm (index : Byte → List Needle) (p : List Byte) : List subrange :=
  mergeOverlaps (Vraw index p)

/-- Render the buffer `q` up to the cut `x` against the range list `V`:
the flush-loop output followed by the trailing pass-through slice. -/
def render (S q : List Byte) (V : List subrange) (x : Int) : List Byte :=
  let res := flushLoop S q x V 0 []
  if res.1 < x then res.2.1 ++ slice q res.1 x else res.2.1

/-- The bytes the sink has received once the cut has reached `x`. -/
def VO (S : List Byte) (index : Byte → List Needle) (p : List Byte)
    (x : Int) : List Byte :=
  render S p (Vm index p) x

theorem Vraw_facts {index : Byte → List Needle} (hidx : WfIndex index)
    (p : List Byte) :
    (∀ g ∈ Vraw index p,
      g.from' < g.to' ∧ 0 ≤ g.from' ∧ 0 < g.to' ∧ g.to' ≤ p.length) ∧
    (Vraw index p).Pairwise (fun a b => a.to' ≤ b.to') := by
  obtain ⟨h1, h2⟩ := scan_raw hidx p 0 [] (by intro pm hpm; simp at hpm)
  obtain ⟨h3, _⟩ := scan_start_inv hidx p 0 [] (by intro pm hpm; simp at hpm)
  refine ⟨?_, h2⟩
  intro g hg
  obtain ⟨hw, hlo, hhi⟩ := h1 g hg
  have hfrom : (0 : Int) ≤ g.from' := by
    rcases h3 g hg with h | h
    · exact_mod_cast h
    · obtain ⟨pm, hpm, _⟩ := h
      simp at hpm
  refine ⟨hw, hfrom, by omega, by push_cast at hhi; omega⟩

theorem Vm_facts {index : Byte → List Needle} (hidx : WfIndex index)
    (p : List Byte) :
    Sep (Vm index p) ∧
    (Vm index p).Pairwise (fun a b => a.to' ≤ b.to') ∧
    (∀ g ∈ Vm index p,
      g.from' < g.to' ∧ 0 ≤ g.from' ∧ g.to' ≤ p.length) := by
  obtain ⟨h1, h2⟩ := Vraw_facts hidx p
  have hwf : ∀ r ∈ Vraw index p, r.from' < r.to' := fun r hr => (h1 r hr).1
  obtain ⟨hsep, hsort, _⟩ := mergeOverlaps_main h2 hwf
  refine ⟨hsep, hsort, ?_⟩
  intro g hg
  refine ⟨mergeOverlaps_wf hwf g hg, ?_, ?_⟩
  · exact mergeOverlaps_from_lb 0 (fun r hr => (h1 r hr).2.1) g hg
  · obtain ⟨m, hm, hto⟩ := mergeOverlaps_to_mem (Vraw index p) g hg
    rw [hto]
    have := (h1 m hm).2.2.2
    exact_mod_cast this

/-! ### Flush-loop toolkit -/

theorem flushLoop_stop (S q : List Byte) (l : Int) (m : subrange)
    (ms : List subrange) (c : Int) (out : List Byte) (h : l ≤ m.from') :
    flushLoop S q l (m :: ms) c out = (c, out, m :: ms) := by
  rw [flushLoop, if_pos (by omega)]

/-- Anatomy of one flush-loop run on a separated well-formed list: the
processed prefix ends at or before the final cursor and started below the
limit, the cursor only advances (to the end of some processed range), and
every unprocessed range starts at or past both the limit and the cursor. -/
theorem flushLoop_decomp (S q : List Byte) (l : Int) :
    ∀ (X : List subrange) (c : Int) (out : List Byte),
      Sep X → (∀ m ∈ X, m.from' < m.to') → (∀ h ∈ X.head?, c ≤ h.from') →
      ∃ P, X = P ++ (flushLoop S q l X c out).2.2 ∧
        (∀ m ∈ P, m.to' ≤ (flushLoop S q l X c out).1 ∧ m.from' < l) ∧
        ((flushLoop S q l X c out).1 = c ∨
          ∃ m ∈ P, (flushLoop S q l X c out).1 = m.to') ∧
        c ≤ (flushLoop S q l X c out).1 ∧
        (∀ h ∈ (flushLoop S q l X c out).2.2.head?,
          l ≤ h.from' ∧ (flushLoop S q l X c out).1 ≤ h.from') := by
  intro X
  induction X with
  | nil =>
    intro c out _ _ _
    exact ⟨[], rfl, by simp, Or.inl rfl, le_refl c, by simp [flushLoop]⟩
  | cons m ms ih =>
    intro c out hsep hwf hcf
    have hcm : c ≤ m.from' := hcf m rfl
    have hwm : m.from' < m.to' := hwf m (List.mem_cons_self m ms)
    have hall : ∀ b ∈ ms, m.to' ≤ b.from' := (List.pairwise_cons.1 hsep).1
    have hsep' : Sep ms := (List.pairwise_cons.1 hsep).2
    have hwf' : ∀ x ∈ ms, x.from' < x.to' :=
      fun x hx => hwf x (List.mem_cons_of_mem m hx)
    have hcf' : ∀ h ∈ ms.head?, m.to' ≤ h.from' :=
      fun h hh => hall h (List.mem_of_mem_head? hh)
    by_cases h1 : l ≤ m.from'
    · rw [flushLoop_stop S q l m ms c out h1]
      refine ⟨[], rfl, by simp, Or.inl rfl, le_refl c, ?_⟩
      intro h hh
      have hhm : m = h := by simpa using hh
      rw [← hhm]
      exact ⟨h1, hcm⟩
    · rw [flushLoop, if_neg (by omega)]
      by_cases hc1 : c < m.from'
      · rw [if_pos hc1]
        obtain ⟨P', hX, hP, hcur, hle, hrest⟩ :=
          ih m.to' (out ++ slice q c m.from' ++ S) hsep' hwf' hcf'
        refine ⟨m :: P', by rw [List.cons_append, ← hX], ?_, ?_, by omega, hrest⟩
        · intro x hx
          rcases List.mem_cons.1 hx with h2 | h2
          · subst h2
            exact ⟨by omega, by omega⟩
          · exact ⟨(hP x h2).1, (hP x h2).2⟩
        · rcases hcur with h2 | ⟨x, hx, h2⟩
          · exact Or.inr ⟨m, List.mem_cons_self m P', h2⟩
          · exact Or.inr ⟨x, List.mem_cons_of_mem m hx, h2⟩
      · by_cases hc2 : c = m.from'
        · rw [if_neg hc1, if_pos hc2]
          obtain ⟨P', hX, hP, hcur, hle, hrest⟩ :=
            ih m.to' (out ++ S) hsep' hwf' hcf'
          refine ⟨m :: P', by rw [List.cons_append, ← hX], ?_, ?_, by omega, hrest⟩
          · intro x hx
            rcases List.mem_cons.1 hx with h2 | h2
            · subst h2
              exact ⟨by omega, by omega⟩
            · exact ⟨(hP x h2).1, (hP x h2).2⟩
          · rcases hcur with h2 | ⟨x, hx, h2⟩
            · exact Or.inr ⟨m, List.mem_cons_self m P', h2⟩
            · exact Or.inr ⟨x, List.mem_cons_of_mem m hx, h2⟩
        · rw [if_neg hc1, if_neg hc2]
          obtain ⟨P', hX, hP, hcur, hle, hrest⟩ := ih m.to' out hsep' hwf' hcf'
          refine ⟨m :: P', by rw [List.cons_append, ← hX], ?_, ?_, by omega, hrest⟩
          · intro x hx
            rcases List.mem_cons.1 hx with h2 | h2
            · subst h2
              exact ⟨by omega, by omega⟩
            · exact ⟨(hP x h2).1, (hP x h2).2⟩
          · rcases hcur with h2 | ⟨x, hx, h2⟩
            · exact Or.inr ⟨m, List.mem_cons_self m P', h2⟩
            · exact Or.inr ⟨x, List.mem_cons_of_mem m hx, h2⟩

/-- Raising the limit changes nothing when every unprocessed range already
starts at or past the raised limit. -/
theorem flushLoop_limit_irrel (S q : List Byte) {l l2 : Int} (h12 : l ≤ l2) :
    ∀ (X : List subrange) (c : Int) (out : List Byte),
      (∀ h ∈ (flushLoop S q l X c out).2.2.head?, l2 ≤ h.from') →
      flushLoop S q l2 X c out = flushLoop S q l X c out := by
  intro X
  induction X with
  | nil => intro c out _; rfl
  | cons m ms ih =>
    intro c out hrest
    by_cases h1 : l ≤ m.from'
    · rw [flushLoop_stop S q l m ms c out h1] at hrest ⊢
      have : l2 ≤ m.from' := hrest m rfl
      exact flushLoop_stop S q l2 m ms c out this
    · by_cases hc1 : c < m.from'
      · rw [flushLoop, if_neg (by omega), if_pos hc1] at hrest ⊢
        rw [flushLoop, if_neg (by omega), if_pos hc1]
        exact ih _ _ hrest
      · by_cases hc2 : c = m.from'
        · rw [flushLoop, if_neg (by omega), if_neg hc1, if_pos hc2] at hrest ⊢
          rw [flushLoop, if_neg (by omega), if_neg hc1, if_pos hc2]
          exact ih _ _ hrest
        · rw [flushLoop, if_neg (by omega), if_neg hc1, if_neg hc2] at hrest ⊢
          rw [flushLoop, if_neg (by omega), if_neg hc1, if_neg hc2]
          exact ih _ _ hrest

/-- A block whose ranges all start below the limit is processed completely,
and the loop continues on the remainder from where the block left off. -/
theorem flushLoop_all (S q : List Byte) (l : Int) :
    ∀ (A B : List subrange) (c : Int) (out : List Byte),
      (∀ m ∈ A, m.from' < l) →
      flushLoop S q l (A ++ B) c out =
        flushLoop S q l B (flushLoop S q l A c out).1
          (flushLoop S q l A c out).2.1 ∧
      (flushLoop S q l A c out).2.2 = [] ∧
      ((flushLoop S q l A c out).1 = c ∨
        ∃ m ∈ A, (flushLoop S q l A c out).1 = m.to') := by
  intro A
  induction A with
  | nil =>
    intro B c out _
    exact ⟨rfl, rfl, Or.inl rfl⟩
  | cons a A' ih =>
    intro B c out hA
    have ha : a.from' < l := hA a (List.mem_cons_self a A')
    have hA' : ∀ m ∈ A', m.from' < l :=
      fun m hm => hA m (List.mem_cons_of_mem a hm)
    have hnext : ∀ (out' : List Byte),
        flushLoop S q l ((a :: A') ++ B) c out =
            flushLoop S q l B (flushLoop S q l (a :: A') c out).1
              (flushLoop S q l (a :: A') c out).2.1 ∧
          (flushLoop S q l (a :: A') c out).2.2 = [] ∧
          ((flushLoop S q l (a :: A') c out).1 = c ∨
            ∃ m ∈ a :: A', (flushLoop S q l (a :: A') c out).1 = m.to') →
        True := fun _ _ => trivial
    clear hnext
    by_cases hc1 : c < a.from'
    · rw [List.cons_append, flushLoop, if_neg (by omega), if_pos hc1,
        flushLoop, if_neg (by omega), if_pos hc1]
      obtain ⟨ih1, ih2, ih3⟩ := ih B a.to' (out ++ slice q c a.from' ++ S) hA'
      refine ⟨ih1, ih2, ?_⟩
      rcases ih3 with h2 | ⟨x, hx, h2⟩
      · exact Or.inr ⟨a, List.mem_cons_self a A', h2⟩
      · exact Or.inr ⟨x, List.mem_cons_of_mem a hx, h2⟩
    · by_cases hc2 : c = a.from'
      · rw [List.cons_append, flushLoop, if_neg (by omega), if_neg hc1,
          if_pos hc2, flushLoop, if_neg (by omega), if_neg hc1, if_pos hc2]
        obtain ⟨ih1, ih2, ih3⟩ := ih B a.to' (out ++ S) hA'
        refine ⟨ih1, ih2, ?_⟩
        rcases ih3 with h2 | ⟨x, hx, h2⟩
        · exact Or.inr ⟨a, List.mem_cons_self a A', h2⟩
        · exact Or.inr ⟨x, List.mem_cons_of_mem a hx, h2⟩
      · rw [List.cons_append, flushLoop, if_neg (by omega), if_neg hc1,
          if_neg hc2, flushLoop, if_neg (by omega), if_neg hc1, if_neg hc2]
        obtain ⟨ih1, ih2, ih3⟩ := ih B a.to' out hA'
        refine ⟨ih1, ih2, ?_⟩
        rcases ih3 with h2 | ⟨x, hx, h2⟩
        · exact Or.inr ⟨a, List.mem_cons_self a A', h2⟩
        · exact Or.inr ⟨x, List.mem_cons_of_mem a hx, h2⟩

/-- A fully processed block renders identically against an extended buffer
and any limit it stays below. -/
theorem flushLoop_congr (S p t : List Byte) (x1 x2 : Int) :
    ∀ (A : List subrange) (c : Int) (out : List Byte),
      (∀ m ∈ A, m.from' < x1 ∧ m.from' < x2 ∧ m.from' ≤ (p.length : Int)) →
      flushLoop S (p ++ t) x2 A c out = flushLoop S p x1 A c out := by
  intro A
  induction A with
  | nil => intro c out _; rfl
  | cons a A' ih =>
    intro c out hA
    obtain ⟨ha1, ha2, ha3⟩ := hA a (List.mem_cons_self a A')
    have hA' := fun m hm => hA m (List.mem_cons_of_mem a hm)
    rw [flushLoop, if_neg (show ¬ a.from' ≥ x2 by omega), flushLoop,
      if_neg (show ¬ a.from' ≥ x1 by omega)]
    by_cases hc1 : c < a.from'
    · rw [if_pos hc1, if_pos hc1, slice_append_right p t ha3]
      exact ih _ _ hA'
    · by_cases hc2 : c = a.from'
      · rw [if_neg hc1, if_pos hc2, if_neg hc1, if_pos hc2]
        exact ih _ _ hA'
      · rw [if_neg hc1, if_neg hc2, if_neg hc1, if_neg hc2]
        exact ih _ _ hA'

/-- Limit-only version of `flushLoop_congr`. -/
theorem flushLoop_limit_congr (S p : List Byte) (x1 x2 : Int) :
    ∀ (A : List subrange) (c : Int) (out : List Byte),
      (∀ m ∈ A, m.from' < x1 ∧ m.from' < x2) →
      flushLoop S p x2 A c out = flushLoop S p x1 A c out := by
  intro A
  induction A with
  | nil => intro c out _; rfl
  | cons a A' ih =>
    intro c out hA
    obtain ⟨ha1, ha2⟩ := hA a (List.mem_cons_self a A')
    have hA' := fun m hm => hA m (List.mem_cons_of_mem a hm)
    rw [flushLoop, if_neg (show ¬ a.from' ≥ x2 by omega), flushLoop,
      if_neg (show ¬ a.from' ≥ x1 by omega)]
    by_cases hc1 : c < a.from'
    · rw [if_pos hc1, if_pos hc1]
      exact ih _ _ hA'
    · by_cases hc2 : c = a.from'
      · rw [if_neg hc1, if_pos hc2, if_neg hc1, if_pos hc2]
        exact ih _ _ hA'
      · rw [if_neg hc1, if_neg hc2, if_neg hc1, if_neg hc2]
        exact ih _ _ hA'

/-! ### Head-agreement congruence through merging -/

/-- `mergeStep` preserves head agreement: sliding or uniting two heads that
differ only in `from'` (both starting below the cut, the virtual one no
later) yields lists that again differ only that way. -/
theorem mergeStep_hd (κ : Int) (a a' : subrange) (M : List subrange)
    (hto : a.to' = a'.to')
    (hfr : a.from' = a'.from' ∨ (a.from' < κ ∧ a'.from' ≤ a.from'))
    (hwa : a.from' < a.to') (hwa' : a'.from' < a'.to')
    (hM : ∀ h ∈ M.head?, κ < h.to' ∧ h.from' < h.to') :
    hdAgree κ (mergeStep a M) (mergeStep a' M) := by
  rcases hfr with heq | ⟨hlt, hle⟩
  · have haa : a = a' := by
      cases a
      cases a'
      simp only at hto heq ⊢
      rw [hto, heq]
    rw [haa]
    exact hdAgree_refl κ _
  · cases M with
    | nil => exact ⟨hto, Or.inr ⟨hlt, hle⟩, rfl⟩
    | cons h t =>
      obtain ⟨hhκ, hwh⟩ := hM h rfl
      rw [mergeStep, mergeStep]
      by_cases hov : h.overlap a = true
      · obtain ⟨h1, h2⟩ := (overlap_intersect hwh hwa).1 hov
        have hov' : h.overlap a' = true := by
          rw [overlap_intersect hwh hwa']
          omega
        rw [if_pos hov, if_pos hov']
        refine ⟨?_, ?_, rfl⟩
        · rw [union_to, union_to, hto]
        · right
          rw [union_from, union_from]
          constructor
          · have := min_le_right h.from' a.from'
            omega
          · exact min_le_min (le_refl _) hle
      · have hov' : ¬ h.overlap a' = true := by
          intro hcon
          obtain ⟨h1, h2⟩ := (overlap_intersect hwh hwa').1 hcon
          refine hov ?_
          rw [overlap_intersect hwh hwa]
          omega
        rw [if_neg hov, if_neg hov']
        exact ⟨hto, Or.inr ⟨hlt, hle⟩, rfl⟩

/-- Merging two head-agreeing lists with a common continuation preserves
head agreement. -/
theorem mergeOverlaps_hdAgree (κ : Int) (sa va C : List subrange)
    (hag : hdAgree κ sa va)
    (hwfs : ∀ m ∈ sa, m.from' < m.to')
    (hwfv : ∀ m ∈ va, m.from' < m.to')
    (hTC : ∀ m ∈ va.tail ++ C, κ < m.to' ∧ m.from' < m.to') :
    hdAgree κ (mergeOverlaps (sa ++ C)) (mergeOverlaps (va ++ C)) := by
  cases sa with
  | nil =>
    cases va with
    | nil => exact hdAgree_refl κ _
    | cons v vs => exact absurd hag (by intro h; exact h)
  | cons s ss =>
    cases va with
    | nil => exact absurd hag (by intro h; exact h)
    | cons v vs =>
      obtain ⟨hto, hfr, htail⟩ := hag
      subst htail
      rw [List.cons_append, List.cons_append, mergeOverlaps_cons,
        mergeOverlaps_cons]
      refine mergeStep_hd κ s v (mergeOverlaps (ss ++ C)) hto hfr
        (hwfs s (List.mem_cons_self s ss))
        (hwfv v (List.mem_cons_self v ss)) ?_
      intro h hh
      have hmem : h ∈ mergeOverlaps (ss ++ C) := List.mem_of_mem_head? hh
      have hwfssC : ∀ m ∈ ss ++ C, m.from' < m.to' := fun m hm => (hTC m hm).2
      obtain ⟨m, hm, hmto⟩ := mergeOverlaps_to_mem (ss ++ C) h hmem
      refine ⟨?_, mergeOverlaps_wf hwfssC h hmem⟩
      rw [hmto]
      exact (hTC m hm).1

/-- When the head of the input starts no later than anything else, it fixes
the start of the head of the merged output. -/
theorem mergeOverlaps_head_min (x : subrange) (T : List subrange)
    (hmin : ∀ r ∈ T, x.from' ≤ r.from') :
    ∃ t ys, mergeOverlaps (x :: T) = ⟨x.from', t⟩ :: ys ∧ x.to' ≤ t := by
  rw [mergeOverlaps_cons]
  rcases hT : mergeOverlaps T with _ | ⟨y, ys⟩
  · exact ⟨x.to', [], rfl, le_refl _⟩
  · have hy : x.from' ≤ y.from' := by
      refine mergeOverlaps_from_lb x.from' hmin y ?_
      rw [hT]
      exact List.mem_cons_self y ys
    rw [mergeStep]
    split
    · refine ⟨max y.to' x.to', ys, ?_, le_max_right _ _⟩
      rw [show y.union x = ⟨x.from', max y.to' x.to'⟩ from ?_]
      rw [subrange.union]
      have : ¬ y.from' < x.from' := by omega
      rw [if_neg this]
      congr 1
      rcases le_or_lt y.to' x.to' with h | h
      · rw [if_neg (by omega), max_eq_right h]
      · rw [if_pos (by omega), max_eq_left (by omega)]
    · exact ⟨x.to', y :: ys, rfl, le_refl _⟩

theorem hdAgree_cases {κ : Int} {sa va : List subrange}
    (h : hdAgree κ sa va) :
    (sa = [] ∧ va = []) ∨
      ∃ s v T, sa = s :: T ∧ va = v :: T ∧ s.to' = v.to' ∧
        (s.from' = v.from' ∨ (s.from' < κ ∧ v.from' ≤ s.from')) := by
  cases sa with
  | nil =>
    cases va with
    | nil => exact Or.inl ⟨rfl, rfl⟩
    | cons v vs => exact absurd h (by intro hh; exact hh)
  | cons s ss =>
    cases va with
    | nil => exact absurd h (by intro hh; exact hh)
    | cons v vs =>
      obtain ⟨h1, h2, h3⟩ := h
      exact Or.inr ⟨s, v, ss, rfl, by rw [h3], h1, h2⟩

theorem flushLoop_stop_all (S q : List Byte) (l : Int) (X : List subrange)
    (c : Int) (out : List Byte) (h : ∀ m ∈ X, l ≤ m.from') :
    flushLoop S q l X c out = (c, out, X) := by
  cases X with
  | nil => rfl
  | cons m ms =>
    exact flushLoop_stop S q l m ms c out (h m (List.mem_cons_self m ms))

/-- Rendering up to the cut ignores both a buffer extension and a change in
the ranges past the cut, when no range at or past the cut has begun. -/
theorem render_stop_ext (S p b : List Byte) (κ : Int) (A M M' : List subrange)
    (hκp : κ ≤ (p.length : Int))
    (hA : ∀ d ∈ A, 0 ≤ d.from' ∧ d.from' < d.to' ∧ d.to' ≤ κ)
    (hM : ∀ x ∈ M, κ ≤ x.from') (hM' : ∀ x ∈ M', κ ≤ x.from') :
    render S (p ++ b) (A ++ M') κ = render S p (A ++ M) κ := by
  have hAq : ∀ d ∈ A, d.from' < κ := by
    intro d hd
    obtain ⟨_, h2, h3⟩ := hA d hd
    omega
  have hcongr : flushLoop S (p ++ b) κ A 0 [] = flushLoop S p κ A 0 [] := by
    refine flushLoop_congr S p b κ κ A 0 [] ?_
    intro d hd
    obtain ⟨_, h2, h3⟩ := hA d hd
    exact ⟨by omega, by omega, by omega⟩
  obtain ⟨hq1, _, _⟩ := flushLoop_all S (p ++ b) κ A M' 0 [] hAq
  obtain ⟨hp1, _, _⟩ := flushLoop_all S p κ A M 0 [] hAq
  rw [render, render, hq1, hp1, hcongr,
    flushLoop_stop_all S (p ++ b) κ M' _ _ hM',
    flushLoop_stop_all S p κ M _ _ hM]
  by_cases hc : (flushLoop S p κ A 0 []).1 < κ
  · rw [if_pos hc, if_pos hc,
      slice_append_right p b (show κ ≤ (p.length : Int) by omega)]
  · rw [if_neg hc, if_neg hc]

/-- Rendering up to the cut when exactly one range straddles it: the side
past the cut (its end, and everything after it) is irrelevant. -/
theorem render_head_ext (S p b : List Byte) (κ : Int)
    (A M2 M2' : List subrange) (m m' : subrange)
    (hκp : κ ≤ (p.length : Int))
    (hA : ∀ d ∈ A, 0 ≤ d.from' ∧ d.from' < d.to' ∧ d.to' ≤ m.from')
    (hmf : m'.from' = m.from') (hmfκ : m.from' < κ) (hmf0 : 0 ≤ m.from')
    (hmt : κ ≤ m.to') (hmt' : κ ≤ m'.to')
    (hM2 : ∀ x ∈ M2, κ ≤ x.from') (hM2' : ∀ x ∈ M2', κ ≤ x.from') :
    render S (p ++ b) (A ++ m' :: M2') κ = render S p (A ++ m :: M2) κ := by
  have hAlt : ∀ d ∈ A, d.from' < κ := by
    intro d hd
    obtain ⟨_, h2, h3⟩ := hA d hd
    omega
  have hcongr : flushLoop S (p ++ b) κ A 0 [] = flushLoop S p κ A 0 [] := by
    refine flushLoop_congr S p b κ κ A 0 [] ?_
    intro d hd
    obtain ⟨_, h2, h3⟩ := hA d hd
    exact ⟨by omega, by omega, by omega⟩
  obtain ⟨hq1, _, hq3⟩ := flushLoop_all S (p ++ b) κ A (m' :: M2') 0 [] hAlt
  obtain ⟨hp1, _, _⟩ := flushLoop_all S p κ A (m :: M2) 0 [] hAlt
  have hcur : (flushLoop S p κ A 0 []).1 ≤ m.from' := by
    rw [← hcongr]
    rcases hq3 with h1 | ⟨d, hd, h1⟩
    · rw [h1]; exact hmf0
    · rw [h1]; exact (hA d hd).2.2
  rw [render, render, hq1, hp1, hcongr]
  set c0 := (flushLoop S p κ A 0 []).1 with hc0
  set o0 := (flushLoop S p κ A 0 []).2.1 with ho0
  have hsl : slice (p ++ b) c0 m.from' = slice p c0 m.from' :=
    slice_append_right p b (by omega)
  by_cases hc1 : c0 < m.from'
  · rw [flushLoop, if_neg (show ¬ m'.from' ≥ κ by omega),
      if_pos (show c0 < m'.from' by omega),
      flushLoop_stop_all S (p ++ b) κ M2' _ _ hM2',
      flushLoop, if_neg (show ¬ m.from' ≥ κ by omega), if_pos hc1,
      flushLoop_stop_all S p κ M2 _ _ hM2]
    rw [if_neg (show ¬ m'.to' < κ by omega), if_neg (show ¬ m.to' < κ by omega)]
    rw [hmf, hsl]
  · have hc2 : c0 = m.from' := by omega
    rw [flushLoop, if_neg (show ¬ m'.from' ≥ κ by omega),
      if_neg (show ¬ c0 < m'.from' by omega),
      if_pos (show c0 = m'.from' by omega),
      flushLoop_stop_all S (p ++ b) κ M2' _ _ hM2',
      flushLoop, if_neg (show ¬ m.from' ≥ κ by omega), if_neg hc1,
      if_pos hc2, flushLoop_stop_all S p κ M2 _ _ hM2]
    rw [if_neg (show ¬ m'.to' < κ by omega), if_neg (show ¬ m.to' < κ by omega)]

/-- The central decomposition: merging the whole virtual range list of the
extended stream splits into the ranges already wholly below the cut and a
suffix that head-agrees with what the incremental machine stores, and
rendering up to the cut is unaffected by the extension.  `D`/`R` are the
virtual merged ranges of the old prefix at or below / above the cut `κ`,
`W` the raw ranges completed while scanning the appended chunk `b`, and
`storedAbs` the stored ranges rebased to absolute coordinates. -/
theorem vm_split (S p b : List Byte) (κ : Int)
    (D R W storedAbs : List subrange)
    (hκ0 : 0 ≤ κ) (hκp : κ ≤ (p.length : Int))
    (hsep : Sep (D ++ R))
    (hwfP : ∀ m ∈ D ++ R,
      m.from' < m.to' ∧ 0 ≤ m.from' ∧ m.to' ≤ (p.length : Int))
    (hD : ∀ m ∈ D, m.to' ≤ κ) (hR : ∀ m ∈ R, κ < m.to')
    (hW : ∀ w ∈ W, w.from' < w.to' ∧ (p.length : Int) < w.to')
    (hWsort : W.Pairwise (fun a b => a.to' ≤ b.to'))
    (hWstart : ∀ w ∈ W, κ ≤ w.from' ∨
      ∃ g ∈ D ++ R, g.from' ≤ w.from' ∧ κ ≤ g.to')
    (hag : hdAgree κ storedAbs R) :
    ∃ Pre N,
      mergeOverlaps ((D ++ R) ++ W) = Pre ++ N ∧
      (∀ m ∈ Pre, m.to' ≤ κ) ∧
      (∀ m ∈ N, κ < m.to') ∧
      hdAgree κ (mergeOverlaps (storedAbs ++ W)) N ∧
      render S (p ++ b) (mergeOverlaps ((D ++ R) ++ W)) κ =
        render S p (D ++ R) κ := by
  have hwfPR : ∀ m ∈ D ++ R, m.from' < m.to' := fun m hm => (hwfP m hm).1
  have hwfD : ∀ m ∈ D, m.from' < m.to' :=
    fun m hm => hwfPR m (List.mem_append_left R hm)
  have hwfR : ∀ m ∈ R, m.from' < m.to' :=
    fun m hm => hwfPR m (List.mem_append_right D hm)
  have hwfW : ∀ m ∈ W, m.from' < m.to' := fun m hm => (hW m hm).1
  obtain ⟨hsepD, hsepR, hcross⟩ := List.pairwise_append.1 hsep
  have hRsort : R.Pairwise (fun a b => a.to' ≤ b.to') := by
    refine pairwise_imp_mem (fun a ha b hb hab => ?_) hsepR
    have := hwfR b hb
    omega
  have hRWsort : (R ++ W).Pairwise (fun a b => a.to' ≤ b.to') := by
    rw [List.pairwise_append]
    refine ⟨hRsort, hWsort, ?_⟩
    intro a ha w hw
    have h1 := (hwfP a (List.mem_append_right D ha)).2.2
    have h2 := (hW w hw).2
    omega
  have hRWwf : ∀ m ∈ R ++ W, m.from' < m.to' := by
    intro m hm
    rcases List.mem_append.1 hm with h1 | h1
    · exact hwfR m h1
    · exact hwfW m h1
  obtain ⟨hT'sep, hT'sort, _⟩ := mergeOverlaps_main hRWsort hRWwf
  have hT'wf := mergeOverlaps_wf hRWwf
  have hT'to : ∀ m ∈ mergeOverlaps (R ++ W), κ < m.to' := by
    intro m hm
    obtain ⟨x, hx, hxto⟩ := mergeOverlaps_to_mem _ m hm
    rw [hxto]
    rcases List.mem_append.1 hx with h1 | h1
    · exact hR x h1
    · have := (hW x h1).2
      omega
  have hwfS : ∀ m ∈ storedAbs, m.from' < m.to' := by
    rcases hdAgree_cases hag with ⟨h1, _⟩ | ⟨s, v, T, h1, h2, h3, h4⟩
    · rw [h1]
      intro m hm
      simp at hm
    · rw [h1]
      intro m hm
      rcases List.mem_cons.1 hm with h5 | h5
      · subst h5
        have hv : v.from' < v.to' := hwfR v (by rw [h2]; exact List.mem_cons_self v T)
        have hvκ : κ < v.to' := hR v (by rw [h2]; exact List.mem_cons_self v T)
        rcases h4 with h6 | ⟨h6, h7⟩
        · omega
        · omega
      · exact hwfR m (by rw [h2]; exact List.mem_cons_of_mem v h5)
  have hag' : hdAgree κ (mergeOverlaps (storedAbs ++ W))
      (mergeOverlaps (R ++ W)) := by
    refine mergeOverlaps_hdAgree κ storedAbs R W hag hwfS hwfR ?_
    intro m hm
    rcases List.mem_append.1 hm with h1 | h1
    · have h2 := List.mem_of_mem_tail h1
      exact ⟨hR m h2, hwfR m h2⟩
    · have := hW m h1
      exact ⟨by omega, this.1⟩
  by_cases hα : ∃ r0 R', R = r0 :: R' ∧ r0.from' < κ
  · -- the straddler survived past the cut: it heads `R` and fixes the head
    -- of the merged suffix
    obtain ⟨r0, R', hReq, hr0f⟩ := hα
    subst hReq
    have hr0R : r0 ∈ r0 :: R' := List.mem_cons_self r0 R'
    have hr0wf : r0.from' < r0.to' := hwfR r0 hr0R
    have hr0to : κ < r0.to' := hR r0 hr0R
    have hmin : ∀ x ∈ R' ++ W, r0.from' ≤ x.from' := by
      intro x hx
      rcases List.mem_append.1 hx with h1 | h1
      · have h2 := (List.pairwise_cons.1 hsepR).1 x h1
        omega
      · rcases hWstart x h1 with h2 | ⟨g, hg, hgf, hgt⟩
        · omega
        · rcases List.mem_append.1 hg with h3 | h3
          · have h4 := hD g h3
            have h5 := hcross g h3 r0 hr0R
            omega
          · rcases List.mem_cons.1 h3 with h4 | h4
            · rw [h4] at hgf
              exact hgf
            · have h5 := (List.pairwise_cons.1 hsepR).1 g h4
              omega
    obtain ⟨t, ys, hT'eq0, hto⟩ := mergeOverlaps_head_min r0 (R' ++ W) hmin
    have hT'eq : mergeOverlaps ((r0 :: R') ++ W) = ⟨r0.from', t⟩ :: ys := by
      rw [List.cons_append]
      exact hT'eq0
    have hDmerge : mergeOverlaps (D ++ ((r0 :: R') ++ W)) =
        D ++ mergeOverlaps ((r0 :: R') ++ W) := by
      refine mergeOverlaps_sep_append _ D hsepD hwfD ?_
      intro d hd h hh
      rw [hT'eq] at hh
      have hhd : (⟨r0.from', t⟩ : subrange) = h := by simpa using hh
      rw [← hhd]
      rw [Bool.eq_false_iff]
      intro hcon
      have hwfh : (⟨r0.from', t⟩ : subrange).from' < (⟨r0.from', t⟩ : subrange).to' := by
        show r0.from' < t
        omega
      obtain ⟨h1, h2⟩ := (overlap_intersect hwfh (hwfD d hd)).1 hcon
      have h2' : r0.from' < d.to' := h2
      have h3 := hcross d hd r0 hr0R
      omega
    refine ⟨D, mergeOverlaps ((r0 :: R') ++ W), ?_, hD, hT'to, hag', ?_⟩
    · rw [List.append_assoc]
      exact hDmerge
    · rw [List.append_assoc, hDmerge, hT'eq]
      have hys : ∀ x ∈ ys, κ ≤ x.from' := by
        intro x hx
        have hsep2 := hT'sep
        rw [hT'eq] at hsep2
        have h2 := (List.pairwise_cons.1 hsep2).1 x hx
        have h2' : t ≤ x.from' := h2
        omega
      refine render_head_ext S p b κ D R' ys r0 ⟨r0.from', t⟩ hκp ?_ rfl hr0f
        ?_ (by omega) (show κ ≤ (⟨r0.from', t⟩ : subrange).to' by show κ ≤ t; omega)
        ?_ hys
      · intro d hd
        have h1 := hwfP d (List.mem_append_left _ hd)
        exact ⟨h1.2.1, h1.1, hcross d hd r0 hr0R⟩
      · exact (hwfP r0 (List.mem_append_right D hr0R)).2.1
      · intro x hx
        have h2 := (List.pairwise_cons.1 hsepR).1 x hx
        omega
  · have hRge : ∀ r ∈ R, κ ≤ r.from' := by
      intro r hr
      cases hRc : R with
      | nil =>
        rw [hRc] at hr
        simp at hr
      | cons r0 R' =>
        have h0 : κ ≤ r0.from' := by
          by_contra hc
          exact hα ⟨r0, R', hRc, by omega⟩
        rw [hRc] at hr
        rcases List.mem_cons.1 hr with h1 | h1
        · rw [h1]
          exact h0
        · have hsepR' := hsepR
          rw [hRc] at hsepR'
          have h2 := (List.pairwise_cons.1 hsepR').1 r h1
          have h3 := hR r0 (by rw [hRc]; exact List.mem_cons_self r0 R')
          omega
    by_cases hβ : ∃ w ∈ W, w.from' < κ
    · -- a partial match reached back across the cut: its occurrence glues
      -- onto the fully flushed straddler ending exactly at the cut
      obtain ⟨ν, hνW, hνκ⟩ := hβ
      rcases hWstart ν hνW with h1 | ⟨g, hgP, hgf, hgt⟩
      · omega
      have hgD : g ∈ D ∧ g.to' = κ := by
        rcases List.mem_append.1 hgP with h2 | h2
        · exact ⟨h2, le_antisymm (hD g h2) hgt⟩
        · exfalso
          have := hRge g h2
          omega
      have hgwf : g.from' < g.to' := (hwfP g hgP).1
      have hgκ : g.to' = κ := hgD.2
      obtain ⟨D1, D2, hDeq⟩ := List.append_of_mem hgD.1
      have hD2nil : D2 = [] := by
        cases hD2c : D2 with
        | nil => rfl
        | cons d2 t2 =>
          exfalso
          have hsepD' := hsepD
          rw [hDeq, hD2c] at hsepD'
          have h3 : g.to' ≤ d2.from' :=
            (List.pairwise_cons.1 (List.pairwise_append.1 hsepD').2.1).1 d2
              (List.mem_cons_self d2 t2)
          have hd2D : d2 ∈ D := by
            rw [hDeq, hD2c]
            exact List.mem_append_right _
              (List.mem_cons_of_mem g (List.mem_cons_self d2 t2))
          have h5 := hD d2 hd2D
          have h6 := hwfD d2 hd2D
          omega
      rw [hD2nil] at hDeq
      have hminβ : ∀ x ∈ R ++ W, g.from' ≤ x.from' := by
        intro x hx
        rcases List.mem_append.1 hx with h2 | h2
        · have := hRge x h2
          omega
        · rcases hWstart x h2 with h3 | ⟨g', hg', hgf', hgt'⟩
          · omega
          · rcases List.mem_append.1 hg' with h4 | h4
            · have h5 : g'.to' = κ := le_antisymm (hD g' h4) hgt'
              rw [hDeq] at h4
              rcases List.mem_append.1 h4 with h6 | h6
              · exfalso
                have hsepD' := hsepD
                rw [hDeq] at hsepD'
                have h7 := (List.pairwise_append.1 hsepD').2.2 g' h6 g
                  (List.mem_cons_self g [])
                omega
              · have h7 : g' = g := by simpa using h6
                rw [h7] at hgf'
                omega
            · have := hRge g' h4
              omega
      obtain ⟨g2, hg2T', hg2f, hg2t⟩ :=
        mergeOverlaps_dominates (R ++ W) ν (List.mem_append_right R hνW)
      have hg2wf : g2.from' < g2.to' := hT'wf g2 hg2T'
      have hνto : (p.length : Int) < ν.to' := (hW ν hνW).2
      have hhead : (mergeOverlaps (R ++ W)).head? = some g2 :=
        sep_first_below hT'sep hT'to hg2T' (by omega)
      rcases hT'shape : mergeOverlaps (R ++ W) with _ | ⟨h0, t0⟩
      · rw [hT'shape] at hhead
        simp at hhead
      have hh0 : h0 = g2 := by
        rw [hT'shape] at hhead
        simpa using hhead
      rw [hh0] at hT'shape
      have hovg : g2.overlap g = true := by
        rw [overlap_intersect hg2wf hgwf]
        constructor
        · omega
        · omega
      have hstep : mergeOverlaps (g :: (R ++ W)) = g2.union g :: t0 := by
        rw [mergeOverlaps_cons, hT'shape, mergeStep, if_pos hovg]
      have hg2ge : g.from' ≤ g2.from' :=
        mergeOverlaps_from_lb g.from' hminβ g2 hg2T'
      have hκg2 : κ < g2.to' := hT'to g2 hg2T'
      have hu : g2.union g = ⟨g.from', g2.to'⟩ := by
        rw [subrange.union, if_neg (by omega), if_pos (by omega)]
      have hsepD1 : Sep D1 := by
        have hsepD' := hsepD
        rw [hDeq] at hsepD'
        exact (List.pairwise_append.1 hsepD').1
      have hwfD1 : ∀ d ∈ D1, d.from' < d.to' := by
        intro d hd
        exact hwfD d (by rw [hDeq]; exact List.mem_append_left _ hd)
      have hD1g : ∀ d ∈ D1, d.to' ≤ g.from' := by
        intro d hd
        have hsepD' := hsepD
        rw [hDeq] at hsepD'
        exact (List.pairwise_append.1 hsepD').2.2 d hd g (List.mem_cons_self g [])
      have hDmerge : mergeOverlaps (D1 ++ (g :: (R ++ W))) =
          D1 ++ (g2.union g :: t0) := by
        rw [mergeOverlaps_sep_append (g :: (R ++ W)) D1 hsepD1 hwfD1 ?_, hstep]
        intro d hd h hh
        rw [hstep] at hh
        have hhd : g2.union g = h := by simpa using hh
        rw [← hhd, hu]
        rw [Bool.eq_false_iff]
        intro hcon
        have hwfu : (⟨g.from', g2.to'⟩ : subrange).from' <
            (⟨g.from', g2.to'⟩ : subrange).to' := by
          show g.from' < g2.to'
          omega
        obtain ⟨hx, hy⟩ := (overlap_intersect hwfu (hwfD1 d hd)).1 hcon
        have hy' : g.from' < d.to' := hy
        have := hD1g d hd
        omega
      have hassoc : ((D1 ++ [g]) ++ R) ++ W = D1 ++ (g :: (R ++ W)) := by
        simp [List.append_assoc]
      have ht0mem : ∀ x ∈ t0, x ∈ mergeOverlaps (R ++ W) := by
        intro x hx
        rw [hT'shape]
        exact List.mem_cons_of_mem g2 hx
      refine ⟨D1, g2.union g :: t0, ?_, ?_, ?_, ?_, ?_⟩
      · rw [hDeq, hassoc]
        exact hDmerge
      · intro m hm
        exact hD m (by rw [hDeq]; exact List.mem_append_left _ hm)
      · intro m hm
        rcases List.mem_cons.1 hm with h2 | h2
        · rw [h2, hu]
          show κ < g2.to'
          exact hκg2
        · exact hT'to m (ht0mem m h2)
      · -- head agreement with the stored merge
        have hag2 := hag'
        rw [hT'shape] at hag2
        rcases hdAgree_cases hag2 with ⟨_, hnil⟩ | ⟨s, v, T, h2, h3, h4, h5⟩
        · exact absurd hnil (by simp)
        · obtain ⟨hv, hT⟩ : g2 = v ∧ t0 = T := by
            injection h3 with a b
            exact ⟨a, b⟩
          rw [h2, hu, ← hT]
          rw [← hv] at h4 h5
          refine ⟨?_, ?_, rfl⟩
          · show s.to' = g2.to'
            exact h4
          · right
            constructor
            · rcases h5 with h6 | ⟨h6, _⟩
              · rw [h6]
                omega
              · exact h6
            · show g.from' ≤ s.from'
              rcases h5 with h6 | ⟨_, h7⟩
              · rw [h6]
                omega
              · omega
      · -- rendering up to the old cut is unchanged
        rw [hDeq, hassoc, hDmerge, hu]
        have hgRW : (D1 ++ [g]) ++ R = D1 ++ (g :: R) := by simp
        rw [hgRW]
        have ht0ge : ∀ x ∈ t0, κ ≤ x.from' := by
          intro x hx
          have hsep2 := hT'sep
          rw [hT'shape] at hsep2
          have h2 := (List.pairwise_cons.1 hsep2).1 x hx
          omega
        have h0g : 0 ≤ g.from' := (hwfP g hgP).2.1
        refine render_head_ext S p b κ D1 R t0 g ⟨g.from', g2.to'⟩ hκp ?_ rfl
          (by omega) h0g (by omega)
          (show κ ≤ (⟨g.from', g2.to'⟩ : subrange).to' by show κ ≤ g2.to'; omega)
          hRge ht0ge
        intro d hd
        refine ⟨?_, hwfD1 d hd, hD1g d hd⟩
        refine (hwfP d ?_).2.1
        rw [hDeq]
        exact List.mem_append_left _ (List.mem_append_left _ hd)
    · -- nothing crosses the cut: the split is clean
      have hWge : ∀ w ∈ W, κ ≤ w.from' := by
        intro w hw
        by_contra hc
        exact hβ ⟨w, hw, by omega⟩
      have hXge : ∀ x ∈ R ++ W, κ ≤ x.from' := by
        intro x hx
        rcases List.mem_append.1 hx with h1 | h1
        · exact hRge x h1
        · exact hWge x h1
      have hT'ge : ∀ x ∈ mergeOverlaps (R ++ W), κ ≤ x.from' :=
        mergeOverlaps_from_lb κ hXge
      have hDmerge : mergeOverlaps (D ++ (R ++ W)) =
          D ++ mergeOverlaps (R ++ W) := by
        refine mergeOverlaps_sep_append _ D hsepD hwfD ?_
        intro d hd h hh
        have hhm := List.mem_of_mem_head? hh
        rw [Bool.eq_false_iff]
        intro hcon
        obtain ⟨h1, h2⟩ := (overlap_intersect (hT'wf h hhm) (hwfD d hd)).1 hcon
        have h3 := hT'ge h hhm
        have h4 := hD d hd
        omega
      refine ⟨D, mergeOverlaps (R ++ W), ?_, hD, hT'to, hag', ?_⟩
      · rw [List.append_assoc]
        exact hDmerge
      · rw [List.append_assoc, hDmerge]
        refine render_stop_ext S p b κ D R (mergeOverlaps (R ++ W)) hκp ?_
          hRge hT'ge
        intro d hd
        exact ⟨(hwfP d (List.mem_append_left _ hd)).2.1, hwfD d hd, hD d hd⟩

/-- Continuing a flush past the processed head: the loop at the final cut
(the limit, or the overshooting cursor) reproduces the loop at the limit. -/
theorem flush_tail (S q : List Byte) (Labs : Int) (T : List subrange) (c0 : Int)
    (hsepT : Sep T) (hwfT : ∀ m ∈ T, m.from' < m.to')
    (hcf : ∀ h ∈ T.head?, c0 ≤ h.from') :
    ∃ PT, T = PT ++ (flushLoop S q Labs T c0 []).2.2 ∧
      (∀ m ∈ PT, m.to' ≤ (flushLoop S q Labs T c0 []).1 ∧ m.from' < Labs) ∧
      ((flushLoop S q Labs T c0 []).1 = c0 ∨
        ∃ m ∈ PT, (flushLoop S q Labs T c0 []).1 = m.to') ∧
      c0 ≤ (flushLoop S q Labs T c0 []).1 ∧
      (∀ x ∈ (flushLoop S q Labs T c0 []).2.2,
        (if (flushLoop S q Labs T c0 []).1 < Labs then Labs
          else (flushLoop S q Labs T c0 []).1) ≤ x.from') ∧
      (∀ (O : List Byte),
        flushLoop S q (if (flushLoop S q Labs T c0 []).1 < Labs then Labs
            else (flushLoop S q Labs T c0 []).1) T c0 O =
          ((flushLoop S q Labs T c0 []).1,
            O ++ (flushLoop S q Labs T c0 []).2.1,
            (flushLoop S q Labs T c0 []).2.2)) := by
  obtain ⟨PT, hX, hP, hcur, hle, hrest⟩ :=
    flushLoop_decomp S q Labs T c0 [] hsepT hwfT hcf
  have hretge : ∀ x ∈ (flushLoop S q Labs T c0 []).2.2,
      (if (flushLoop S q Labs T c0 []).1 < Labs then Labs
        else (flushLoop S q Labs T c0 []).1) ≤ x.from' := by
    intro x hx
    rcases hrr : (flushLoop S q Labs T c0 []).2.2 with _ | ⟨h, t⟩
    · rw [hrr] at hx
      simp at hx
    · obtain ⟨hh1, hh2⟩ := hrest h (by rw [hrr]; rfl)
      have hhT : h ∈ T := by
        rw [hX, hrr]
        exact List.mem_append_right _ (List.mem_cons_self h t)
      rw [hrr] at hx
      rcases List.mem_cons.1 hx with h1 | h1
      · rw [h1]
        split <;> omega
      · -- later retained ranges start past the head's end
        have hsepsuffix : Sep ((flushLoop S q Labs T c0 []).2.2) := by
          rw [hX] at hsepT
          exact (List.pairwise_append.1 hsepT).2.1
        rw [hrr] at hsepsuffix
        have h2 := (List.pairwise_cons.1 hsepsuffix).1 x h1
        have h3 := hwfT h hhT
        split <;> omega
  refine ⟨PT, hX, hP, hcur, hle, hretge, ?_⟩
  intro O
  have hirrel : flushLoop S q (if (flushLoop S q Labs T c0 []).1 < Labs
      then Labs else (flushLoop S q Labs T c0 []).1) T c0 O =
      flushLoop S q Labs T c0 O := by
    refine flushLoop_limit_irrel S q (by split <;> omega) T c0 O ?_
    intro h hh
    have hacc := flushLoop_acc S q Labs T c0 O
    rw [hacc] at hh
    exact hretge h (List.mem_of_mem_head? hh)
  rw [hirrel, flushLoop_acc S q Labs T c0 O]

/-- Splitting the pass-through trailer at an intermediate cut. -/
theorem render_trail_split (q outP : List Byte) (cP κ cstar : Int)
    (h0 : 0 ≤ cP) (h1 : cP ≤ κ) (h2 : κ ≤ cstar) :
    (if cP < cstar then outP ++ slice q cP cstar else outP) =
      (if cP < κ then outP ++ slice q cP κ else outP) ++
        (if κ < cstar then slice q κ cstar else []) := by
  by_cases hA : cP < κ
  · rw [if_pos (show cP < cstar by omega), if_pos hA]
    by_cases hB : κ < cstar
    · rw [if_pos hB, ← slice_append q (b := κ) h0 (by omega) (by omega),
        List.append_assoc]
    · have hκc : κ = cstar := by omega
      rw [if_neg hB, List.append_nil, hκc]
  · have hcPκ : cP = κ := by omega
    rw [if_neg hA]
    by_cases hB : κ < cstar
    · rw [if_pos (show cP < cstar by omega), if_pos hB, hcPκ]
    · rw [if_neg (show ¬ cP < cstar by omega), if_neg hB, List.append_nil]

/-- Rendering when every range at or past the processed block starts at or
past the cut: the block's output plus the trailing pass-through. -/
theorem render_stopped (S q : List Byte) (x : Int) (A N0 : List subrange)
    (hA : ∀ d ∈ A, d.from' < x) (hN0 : ∀ n ∈ N0, x ≤ n.from') :
    render S q (A ++ N0) x =
      (if (flushLoop S q x A 0 []).1 < x then
        (flushLoop S q x A 0 []).2.1 ++ slice q (flushLoop S q x A 0 []).1 x
      else (flushLoop S q x A 0 []).2.1) := by
  obtain ⟨h1, _, _⟩ := flushLoop_all S q x A N0 0 [] hA
  rw [render, h1, flushLoop_stop_all S q x N0 _ _ hN0]

/-- Unfolding the loop across the junction range that begins below the cut. -/
theorem flushLoop_junction (S q : List Byte) (x : Int) (A : List subrange)
    (n0 : subrange) (T : List subrange) (hA : ∀ d ∈ A, d.from' < x)
    (hn0x : n0.from' < x) (hcPle : (flushLoop S q x A 0 []).1 ≤ n0.from') :
    flushLoop S q x (A ++ n0 :: T) 0 [] =
      flushLoop S q x T n0.to'
        ((flushLoop S q x A 0 []).2.1 ++
          (if (flushLoop S q x A 0 []).1 < n0.from' then
            slice q (flushLoop S q x A 0 []).1 n0.from' ++ S else S)) := by
  obtain ⟨h1, _, _⟩ := flushLoop_all S q x A (n0 :: T) 0 [] hA
  rw [h1, flushLoop, if_neg (show ¬ n0.from' ≥ x by omega)]
  by_cases hc : (flushLoop S q x A 0 []).1 < n0.from'
  · rw [if_pos hc, if_pos hc, List.append_assoc]
  · rw [if_neg hc,
      if_pos (show (flushLoop S q x A 0 []).1 = n0.from' by omega), if_neg hc]

/-- The ranges retained past the new cut are exactly the suffix the loop did
not process. -/
theorem filter_retained (cstar : Int) (n0 : subrange) (PT Rrest : List subrange)
    (hn0 : n0.to' ≤ cstar) (hPT : ∀ x ∈ PT, x.to' ≤ cstar)
    (hkeep : ∀ x ∈ Rrest, cstar < x.to') :
    (n0 :: (PT ++ Rrest)).filter (fun m => decide (cstar < m.to')) = Rrest := by
  rw [List.filter_cons_of_neg (by simp; omega), List.filter_append]
  rw [List.filter_eq_nil_iff.2 (fun x hx => by simp; exact hPT x hx),
    List.filter_eq_self.2 (fun x hx => by simp; exact hkeep x hx),
    List.nil_append]

/-- The full effect of one flush: from a state whose stored absolute ranges
`M` head-agree past the cut `κ` with the suffix `N` of the virtual merged
list `Pre ++ N`, flushing at absolute limit `Labs` advances the cut to
`cstar` (the limit, or the overshooting cursor), emits exactly the
difference of the two renderings, reestablishes head agreement at the new
cut, and clears everything when the cut reaches the end. -/
theorem flush_effect (S q : List Byte) (κ Labs : Int)
    (Pre N M : List subrange)
    (hκ0 : 0 ≤ κ) (hκq : κ ≤ (q.length : Int)) (hLq : Labs ≤ (q.length : Int))
    (hsepV : Sep (Pre ++ N))
    (hwfV : ∀ m ∈ Pre ++ N, m.from' < m.to' ∧ 0 ≤ m.from')
    (hPre : ∀ m ∈ Pre, m.to' ≤ κ)
    (hNto : ∀ m ∈ N, κ < m.to' ∧ m.to' ≤ (q.length : Int))
    (hM : hdAgree κ M N) (hMsep : Sep M)
    (cstar : Int) (w : List Byte)
    (hcs : cstar = if (flushLoop S q Labs M κ []).1 < Labs then Labs
      else (flushLoop S q Labs M κ []).1)
    (hw : w = if (flushLoop S q Labs M κ []).1 < Labs then
        (flushLoop S q Labs M κ []).2.1 ++
          slice q (flushLoop S q Labs M κ []).1 Labs
      else (flushLoop S q Labs M κ []).2.1) :
    (κ ≤ cstar ∧ cstar ≤ (q.length : Int) ∧
      κ ≤ (flushLoop S q Labs M κ []).1) ∧
    render S q (Pre ++ N) cstar = render S q (Pre ++ N) κ ++ w ∧
    hdAgree cstar (flushLoop S q Labs M κ []).2.2
      (N.filter (fun m => decide (cstar < m.to'))) ∧
    ((q.length : Int) ≤ cstar → (flushLoop S q Labs M κ []).2.2 = []) ∧
    (κ < (flushLoop S q Labs M κ []).1 →
      ∃ m ∈ M, m.to' = (flushLoop S q Labs M κ []).1 ∧ m.from' < Labs) := by
  have hwfPre : ∀ d ∈ Pre, d.from' < d.to' ∧ 0 ≤ d.from' :=
    fun d hd => hwfV d (List.mem_append_left N hd)
  have hwfN : ∀ n ∈ N, n.from' < n.to' ∧ 0 ≤ n.from' :=
    fun n hn => hwfV n (List.mem_append_right Pre hn)
  have hPreκ : ∀ d ∈ Pre, d.from' < κ := by
    intro d hd
    have h1 := (hwfPre d hd).1
    have h2 := hPre d hd
    omega
  obtain ⟨hsepPre, hsepN, hcrossV⟩ := List.pairwise_append.1 hsepV
  obtain ⟨hPQκ, _, hcurP⟩ := flushLoop_all S q κ Pre N 0 [] hPreκ
  have hcP0 : 0 ≤ (flushLoop S q κ Pre 0 []).1 := by
    rcases hcurP with h1 | ⟨d, hd, h1⟩
    · omega
    · have h2 := (hwfPre d hd).1
      have h3 := (hwfPre d hd).2
      omega
  have hcPκ : (flushLoop S q κ Pre 0 []).1 ≤ κ := by
    rcases hcurP with h1 | ⟨d, hd, h1⟩
    · omega
    · have := hPre d hd
      omega
  have hcPN : ∀ n ∈ N, (flushLoop S q κ Pre 0 []).1 ≤ n.from' := by
    intro n hn
    rcases hcurP with h1 | ⟨d, hd, h1⟩
    · rw [h1]
      exact (hwfN n hn).2
    · rw [h1]
      exact hcrossV d hd n hn
  rcases hdAgree_cases hM with ⟨hMnil, hNnil⟩ | ⟨m0, n0, T, hMeq, hNeq, hto0, hfr0⟩
  · -- no pending ranges: the flush emits only trailing pass-through
    subst hMnil
    subst hNnil
    have hR : flushLoop S q Labs ([] : List subrange) κ ([] : List Byte) =
        (κ, [], []) := rfl
    rw [hR] at hcs hw ⊢
    dsimp only at hcs hw ⊢
    have hcsκ : κ ≤ cstar := by rw [hcs]; split <;> omega
    have hcsq : cstar ≤ (q.length : Int) := by rw [hcs]; split <;> omega
    refine ⟨⟨hcsκ, hcsq, le_refl κ⟩, ?_, ?_, fun _ => rfl,
      fun h => absurd h (by omega)⟩
    · rw [render_stopped S q cstar Pre [] (fun d hd => by
          have := hPreκ d hd; omega) (by simp),
        render_stopped S q κ Pre [] hPreκ (by simp)]
      have hPcongr : flushLoop S q cstar Pre 0 [] = flushLoop S q κ Pre 0 [] :=
        flushLoop_limit_congr S q κ cstar Pre 0 []
          (fun d hd => ⟨hPreκ d hd, by have := hPreκ d hd; omega⟩)
      rw [hPcongr,
        render_trail_split q (flushLoop S q κ Pre 0 []).2.1
          (flushLoop S q κ Pre 0 []).1 κ cstar hcP0 hcPκ hcsκ]
      congr 1
      rw [hcs, hw]
      by_cases hKL : κ < Labs
      · rw [if_pos hKL, if_pos hKL, if_pos hKL, List.nil_append]
      · rw [if_neg hKL, if_neg hKL, if_neg (lt_irrefl κ)]
    · simp [hdAgree]
  · -- a pending range heads both lists
    subst hMeq
    subst hNeq
    have hn0N : n0 ∈ n0 :: T := List.mem_cons_self n0 T
    have hn0to : κ < n0.to' ∧ n0.to' ≤ (q.length : Int) := hNto n0 hn0N
    have hm0to : κ < m0.to' ∧ m0.to' ≤ (q.length : Int) := by
      rw [hto0]
      exact hn0to
    have hTN : ∀ x ∈ T, x ∈ n0 :: T := fun x hx => List.mem_cons_of_mem n0 hx
    have hTκ : ∀ x ∈ T, κ < x.from' := by
      intro x hx
      have h1 := (List.pairwise_cons.1 hsepN).1 x hx
      omega
    have hwfm0 : m0.from' < m0.to' := by
      rcases hfr0 with h1 | ⟨h1, _⟩
      · rw [h1, hto0]
        exact (hwfN n0 hn0N).1
      · omega
    have hwfT : ∀ x ∈ T, x.from' < x.to' := fun x hx => (hwfN x (hTN x hx)).1
    have hsepT : Sep T := (List.pairwise_cons.1 hMsep).2
    have hcfT : ∀ h ∈ T.head?, m0.to' ≤ h.from' := by
      intro h hh
      exact (List.pairwise_cons.1 hMsep).1 h (List.mem_of_mem_head? hh)
    by_cases hI : n0.from' < κ
    · -- the head already began below the old cut
      have hm0κ : m0.from' < κ := by
        rcases hfr0 with h1 | ⟨h1, _⟩
        · omega
        · exact h1
      by_cases hIa : Labs ≤ m0.from'
      · -- nothing to flush: the loop stops at once
        have hRstop : flushLoop S q Labs (m0 :: T) κ [] = (κ, [], m0 :: T) :=
          flushLoop_stop S q Labs m0 T κ [] hIa
        rw [hRstop] at hcs hw ⊢
        dsimp only at hcs hw ⊢
        rw [if_neg (show ¬ κ < Labs by omega)] at hcs hw
        rw [hcs, hw]
        refine ⟨⟨le_refl κ, hκq, le_refl κ⟩, by rw [List.append_nil], ?_,
          fun h => absurd h (by omega), fun h => absurd h (by omega)⟩
        rw [List.filter_eq_self.2 (fun a ha => by
          simp
          exact (hNto a ha).1)]
        exact hM
      · -- the head is processed silently (cursor already past its start)
        have hRdef : flushLoop S q Labs (m0 :: T) κ [] =
            flushLoop S q Labs T m0.to' [] := by
          rw [flushLoop, if_neg (show ¬ m0.from' ≥ Labs by omega),
            if_neg (show ¬ κ < m0.from' by omega),
            if_neg (show ¬ κ = m0.from' by omega)]
        obtain ⟨PT, hXT, hPT, hcurT, hleT, hretT, hloopT⟩ :=
          flush_tail S q Labs T m0.to' hsepT hwfT hcfT
        rw [hRdef] at hcs hw ⊢
        have hκR3 : κ < (flushLoop S q Labs T m0.to' []).1 := by omega
        have hR3q : (flushLoop S q Labs T m0.to' []).1 ≤ (q.length : Int) := by
          rcases hcurT with h1 | ⟨x, hx, h1⟩
          · omega
          · rw [h1]
            exact (hNto x (hTN x (by rw [hXT]; exact List.mem_append_left _ hx))).2
        have hcsκ : κ ≤ cstar := by rw [hcs]; split <;> omega
        have hR3cs : (flushLoop S q Labs T m0.to' []).1 ≤ cstar := by
          rw [hcs]; split <;> omega
        have hcsq : cstar ≤ (q.length : Int) := by rw [hcs]; split <;> omega
        have hLcs : Labs ≤ cstar := by rw [hcs]; split <;> omega
        rw [← hcs] at hretT hloopT
        have hkeepT : ∀ x ∈ (flushLoop S q Labs T m0.to' []).2.2,
            cstar < x.to' := by
          intro x hx
          have h1 := hretT x hx
          have h2 := hwfT x (by rw [hXT]; exact List.mem_append_right _ hx)
          omega
        refine ⟨⟨hcsκ, hcsq, by omega⟩, ?_, ?_, ?_, ?_⟩
        · -- rendering
          have hjκ := flushLoop_junction S q κ Pre n0 T hPreκ hI (hcPN n0 hn0N)
          have hPcongr : flushLoop S q cstar Pre 0 [] =
              flushLoop S q κ Pre 0 [] :=
            flushLoop_limit_congr S q κ cstar Pre 0 []
              (fun d hd => ⟨hPreκ d hd, by have := hPreκ d hd; omega⟩)
          have hjc := flushLoop_junction S q cstar Pre n0 T
            (fun d hd => by have := hPreκ d hd; omega) (by omega)
            (by rw [hPcongr]; exact hcPN n0 hn0N)
          rw [hPcongr] at hjc
          rw [render, render, hjκ, hjc, ← hto0,
            flushLoop_stop_all S q κ T m0.to' _
              (fun x hx => by have := hTκ x hx; omega),
            hloopT]
          rw [if_neg (show ¬ m0.to' < κ by omega)]
          rw [hw]
          by_cases hov : (flushLoop S q Labs T m0.to' []).1 < Labs
          · rw [if_pos (show (flushLoop S q Labs T m0.to' []).1 < cstar by
                rw [hcs, if_pos hov]; omega),
              if_pos hov, hcs, if_pos hov]
            simp [List.append_assoc]
          · rw [if_neg (show ¬ (flushLoop S q Labs T m0.to' []).1 < cstar by
                rw [hcs, if_neg hov]; omega),
              if_neg hov]
        · -- head agreement at the new cut
          have hfilter : (n0 :: T).filter (fun m => decide (cstar < m.to')) =
              (flushLoop S q Labs T m0.to' []).2.2 := by
            conv_lhs => rw [hXT]
            refine filter_retained cstar n0 PT _ (by rw [← hto0]; omega)
              (fun x hx => by have := (hPT x hx).1; omega) hkeepT
          rw [hfilter]
          exact hdAgree_refl cstar _
        · -- reaching the end clears everything
          intro hq
          rcases hrr : (flushLoop S q Labs T m0.to' []).2.2 with _ | ⟨h, t⟩
          · rfl
          · exfalso
            have h1 := hretT h (by rw [hrr]; exact List.mem_cons_self h t)
            have h2 : h ∈ T := by
              rw [hXT, hrr]
              exact List.mem_append_right _ (List.mem_cons_self h t)
            have h3 := (hNto h (hTN h h2)).2
            have h4 := hwfT h h2
            omega
        · -- overshoot names the processed range ending at the cursor
          intro _
          rcases hcurT with h1 | ⟨x, hx, h1⟩
          · exact ⟨m0, List.mem_cons_self m0 T, h1.symm, by omega⟩
          · refine ⟨x, List.mem_cons_of_mem m0 (by
              rw [hXT]; exact List.mem_append_left _ hx), h1.symm, ?_⟩
            exact (hPT x hx).2
    · -- the head begins at or past the old cut: stored and virtual agree
      have hfr : m0.from' = n0.from' := by
        rcases hfr0 with h1 | ⟨h1, h2⟩
        · exact h1
        · omega
      have hm0n0 : m0 = n0 := by
        cases m0
        cases n0
        simp only [subrange.mk.injEq] at hto0 hfr ⊢
        exact ⟨hfr, hto0⟩
      subst hm0n0
      by_cases hII : Labs ≤ m0.from'
      · -- the loop stops at once; only trailing pass-through is emitted
        have hRstop : flushLoop S q Labs (m0 :: T) κ [] = (κ, [], m0 :: T) :=
          flushLoop_stop S q Labs m0 T κ [] hII
        rw [hRstop] at hcs hw ⊢
        dsimp only at hcs hw ⊢
        have hcsκ : κ ≤ cstar := by rw [hcs]; split <;> omega
        have hcsq : cstar ≤ (q.length : Int) := by rw [hcs]; split <;> omega
        have hcsm0 : cstar ≤ m0.from' := by rw [hcs]; split <;> omega
        refine ⟨⟨hcsκ, hcsq, le_refl κ⟩, ?_, ?_, ?_,
          fun h => absurd h (by omega)⟩
        · have hstopN : ∀ n ∈ m0 :: T, κ ≤ n.from' := by
            intro n hn
            rcases List.mem_cons.1 hn with h1 | h1
            · rw [h1]; omega
            · have := hTκ n h1; omega
          have hstopN' : ∀ n ∈ m0 :: T, cstar ≤ n.from' := by
            intro n hn
            rcases List.mem_cons.1 hn with h1 | h1
            · rw [h1]; exact hcsm0
            · have := hTκ n h1
              have hm0wf := hwfm0
              have h2 := (List.pairwise_cons.1 hsepN).1 n h1
              omega
          rw [render_stopped S q cstar Pre (m0 :: T) (fun d hd => by
              have := hPreκ d hd; omega) hstopN',
            render_stopped S q κ Pre (m0 :: T) hPreκ hstopN]
          have hPcongr : flushLoop S q cstar Pre 0 [] =
              flushLoop S q κ Pre 0 [] :=
            flushLoop_limit_congr S q κ cstar Pre 0 []
              (fun d hd => ⟨hPreκ d hd, by have := hPreκ d hd; omega⟩)
          rw [hPcongr,
            render_trail_split q (flushLoop S q κ Pre 0 []).2.1
              (flushLoop S q κ Pre 0 []).1 κ cstar hcP0 hcPκ hcsκ]
          congr 1
          rw [hcs, hw]
          by_cases hKL : κ < Labs
          · rw [if_pos hKL, if_pos hKL, if_pos hKL, List.nil_append]
          · rw [if_neg hKL, if_neg hKL, if_neg (lt_irrefl κ)]
        · rw [List.filter_eq_self.2 (fun a ha => by
            simp
            rcases List.mem_cons.1 ha with h1 | h1
            · rw [h1]
              omega
            · have h2 := hTκ a h1
              have h3 := hwfT a h1
              have h4 := (List.pairwise_cons.1 hsepN).1 a h1
              omega)]
          exact hdAgree_refl cstar _
        · intro hq
          exfalso
          have h1 := hn0to.2
          omega
      · -- the head is flushed: it begins at or past the cursor
        have hRdefE : flushLoop S q Labs (m0 :: T) κ [] =
            ((flushLoop S q Labs T m0.to' []).1,
              (if κ < m0.from' then slice q κ m0.from' ++ S else S) ++
                (flushLoop S q Labs T m0.to' []).2.1,
              (flushLoop S q Labs T m0.to' []).2.2) := by
          by_cases hjc : κ < m0.from'
          · rw [flushLoop, if_neg (show ¬ m0.from' ≥ Labs by omega),
              if_pos hjc,
              flushLoop_acc S q Labs T m0.to'
                ([] ++ slice q κ m0.from' ++ S),
              if_pos hjc, List.nil_append]
          · rw [flushLoop, if_neg (show ¬ m0.from' ≥ Labs by omega),
              if_neg hjc, if_pos (show κ = m0.from' by omega),
              flushLoop_acc S q Labs T m0.to' ([] ++ S),
              if_neg hjc, List.nil_append]
        obtain ⟨PT, hXT, hPT, hcurT, hleT, hretT, hloopT⟩ :=
          flush_tail S q Labs T m0.to' hsepT hwfT hcfT
        rw [hRdefE] at hcs hw ⊢
        dsimp only at hcs hw ⊢
        have hκR3 : κ < (flushLoop S q Labs T m0.to' []).1 := by omega
        have hR3q : (flushLoop S q Labs T m0.to' []).1 ≤ (q.length : Int) := by
          rcases hcurT with h1 | ⟨x, hx, h1⟩
          · omega
          · rw [h1]
            exact (hNto x (hTN x (by rw [hXT]; exact List.mem_append_left _ hx))).2
        have hcsκ : κ ≤ cstar := by rw [hcs]; split <;> omega
        have hR3cs : (flushLoop S q Labs T m0.to' []).1 ≤ cstar := by
          rw [hcs]; split <;> omega
        have hcsq : cstar ≤ (q.length : Int) := by rw [hcs]; split <;> omega
        have hLcs : Labs ≤ cstar := by rw [hcs]; split <;> omega
        rw [← hcs] at hretT hloopT
        have hkeepT : ∀ x ∈ (flushLoop S q Labs T m0.to' []).2.2,
            cstar < x.to' := by
          intro x hx
          have h1 := hretT x hx
          have h2 := hwfT x (by rw [hXT]; exact List.mem_append_right _ hx)
          omega
        refine ⟨⟨hcsκ, hcsq, by omega⟩, ?_, ?_, ?_, ?_⟩
        · -- rendering
          have hstopN : ∀ n ∈ m0 :: T, κ ≤ n.from' := by
            intro n hn
            rcases List.mem_cons.1 hn with h1 | h1
            · rw [h1]; omega
            · have := hTκ n h1; omega
          have hPcongr : flushLoop S q cstar Pre 0 [] =
              flushLoop S q κ Pre 0 [] :=
            flushLoop_limit_congr S q κ cstar Pre 0 []
              (fun d hd => ⟨hPreκ d hd, by have := hPreκ d hd; omega⟩)
          have hjc := flushLoop_junction S q cstar Pre m0 T
            (fun d hd => by have := hPreκ d hd; omega) (by omega)
            (by rw [hPcongr]; exact hcPN m0 hn0N)
          rw [hPcongr] at hjc
          rw [render_stopped S q κ Pre (m0 :: T) hPreκ hstopN,
            render, hjc, hloopT]
          have hEE :
              (flushLoop S q κ Pre 0 []).2.1 ++
                (if (flushLoop S q κ Pre 0 []).1 < m0.from' then
                  slice q (flushLoop S q κ Pre 0 []).1 m0.from' ++ S else S) =
              (if (flushLoop S q κ Pre 0 []).1 < κ then
                (flushLoop S q κ Pre 0 []).2.1 ++
                  slice q (flushLoop S q κ Pre 0 []).1 κ
              else (flushLoop S q κ Pre 0 []).2.1) ++
                (if κ < m0.from' then slice q κ m0.from' ++ S else S) := by
            have hcPm0 := hcPN m0 hn0N
            by_cases hA : (flushLoop S q κ Pre 0 []).1 < κ
            · rw [if_pos hA]
              by_cases hB : κ < m0.from'
              · rw [if_pos (by omega), if_pos hB,
                  ← slice_append q (b := κ) hcP0 (by omega) (by omega)]
                simp [List.append_assoc]
              · have hκm : κ = m0.from' := by omega
                rw [if_pos (by omega), if_neg hB, ← hκm]
                simp [List.append_assoc]
            · have hcPeq : (flushLoop S q κ Pre 0 []).1 = κ := by omega
              rw [if_neg hA]
              by_cases hB : κ < m0.from'
              · rw [if_pos (by rw [hcPeq]; exact hB), if_pos hB, hcPeq]
              · rw [if_neg (by rw [hcPeq]; exact hB), if_neg hB]
          rw [hEE, hw]
          by_cases hov : (flushLoop S q Labs T m0.to' []).1 < Labs
          · rw [if_pos (show (flushLoop S q Labs T m0.to' []).1 < cstar by
                rw [hcs, if_pos hov]; omega),
              if_pos hov, hcs, if_pos hov]
            simp [List.append_assoc]
          · rw [if_neg (show ¬ (flushLoop S q Labs T m0.to' []).1 < cstar by
                rw [hcs, if_neg hov]; omega),
              if_neg hov]
            simp [List.append_assoc]
        · have hfilter : (m0 :: T).filter (fun m => decide (cstar < m.to')) =
              (flushLoop S q Labs T m0.to' []).2.2 := by
            conv_lhs => rw [hXT]
            refine filter_retained cstar m0 PT _ (by omega)
              (fun x hx => by have := (hPT x hx).1; omega) hkeepT
          rw [hfilter]
          exact hdAgree_refl cstar _
        · intro hq
          rcases hrr : (flushLoop S q Labs T m0.to' []).2.2 with _ | ⟨h, t⟩
          · rfl
          · exfalso
            have h1 := hretT h (by rw [hrr]; exact List.mem_cons_self h t)
            have h2 : h ∈ T := by
              rw [hXT, hrr]
              exact List.mem_append_right _ (List.mem_cons_self h t)
            have h3 := (hNto h (hTN h h2)).2
            have h4 := hwfT h h2
            omega
        · intro _
          rcases hcurT with h1 | ⟨x, hx, h1⟩
          · exact ⟨m0, List.mem_cons_self m0 T, h1.symm, by omega⟩
          · refine ⟨x, List.mem_cons_of_mem m0 (by
              rw [hXT]; exact List.mem_append_left _ hx), h1.symm, ?_⟩
            exact (hPT x hx).2

theorem sub_sub (r : subrange) (x y : Int) : (r.sub x).sub y = r.sub (x + y) := by
  simp [subrange.sub]
  constructor <;> ring

theorem map_add_sub (k : Int) (l : List subrange) :
    (l.map (fun m => m.add k)).map (fun m => m.sub k) = l := by
  rw [List.map_map]
  have : ((fun m : subrange => m.sub k) ∘ fun m : subrange => m.add k) = id := by
    funext m
    exact add_sub m k
  rw [this, List.map_id]

theorem map_sub_add (k : Int) (l : List subrange) :
    (l.map (fun m => m.sub k)).map (fun m => m.add k) = l := by
  rw [List.map_map]
  have : ((fun m : subrange => m.add k) ∘ fun m : subrange => m.sub k) = id := by
    funext m
    exact sub_add m k
  rw [this, List.map_id]

/-- The simulation invariant tying a live redactor to the virtual
never-flushing machine: `p` is the whole processed stream, `O` the bytes the
sink has received, and `κN` the number of buffer positions already cut away.
The stored ranges, rebased to absolute coordinates, head-agree with the
virtual merged ranges that reach past the cut; the output is the virtual
rendering up to the cut; and every surviving partial match starts at or past
the cut unless a virtual range spans from its start across the cut. -/
def REL (S : List Byte) (index : Byte → List Needle) (r : Redactor)
    (p O : List Byte) : Prop :=
  ∃ κN : Nat,
    r.subst = S ∧
    r.needlesByFirstByte = index ∧
    r.buf.length + κN = p.length ∧
    r.buf = p.drop κN ∧
    r.partialMatches = Vpms index p ∧
    hdAgree (κN : Int)
      (r.completedMatches.map (fun m => m.add (κN : Int)))
      ((Vm index p).filter (fun g => decide ((κN : Int) < g.to'))) ∧
    O = VO S index p (κN : Int) ∧
    ∀ pm ∈ r.partialMatches,
      (κN : Int) ≤ (p.length : Int) - pm.matched ∨
        ∃ g ∈ Vm index p, g.from' ≤ (p.length : Int) - pm.matched ∧
          (κN : Int) ≤ g.to'

theorem rel_init (S : List Byte) (ns : List Needle) :
    REL S (Redactor.new S ns).needlesByFirstByte (Redactor.new S ns) [] [] := by
  refine ⟨0, rfl, rfl, rfl, rfl, rfl, ?_, ?_, ?_⟩
  · show hdAgree 0 ([].map _) _
    rw [List.map_nil]
    have hVm : Vm (Redactor.new S ns).needlesByFirstByte [] = [] := rfl
    rw [hVm]
    exact hdAgree_refl 0 []
  · show ([] : List Byte) = VO S (Redactor.new S ns).needlesByFirstByte [] 0
    rw [VO, render]
    have hVm : Vm (Redactor.new S ns).needlesByFirstByte [] = [] := rfl
    rw [hVm]
    rw [show flushLoop S [] 0 [] 0 [] = (0, [], []) from rfl]
    rw [if_neg (lt_irrefl (0 : Int))]
  · intro pm hpm
    exact absurd hpm (List.not_mem_nil pm)

theorem write_out (r : Redactor) (b : List Byte) (hb : b ≠ []) :
    (r.write b).2.1 =
      (({ r with
          buf := r.buf ++ b
          partialMatches :=
            (scan r.needlesByFirstByte b r.buf.length r.partialMatches
              r.completedMatches).1
          completedMatches :=
            mergeOverlaps
              (scan r.needlesByFirstByte b r.buf.length r.partialMatches
                r.completedMatches).2 } : Redactor).flushUpTo
        (flushLimit ((r.buf ++ b).length : Int)
          (scan r.needlesByFirstByte b r.buf.length r.partialMatches
            r.completedMatches).1)).2 := by
  rw [Redactor.write, if_neg (by simp [hb])]

/-- `flushUpTo` when the loop cursor stays below the limit. -/
theorem flushUpTo_under (r : Redactor) (limit : Int)
    (hg1 : limit ≠ 0) (hg2 : r.buf ≠ [])
    (hlt : (flushLoop r.subst r.buf limit r.completedMatches 0 []).1 < limit) :
    r.flushUpTo limit =
      if limit ≥ (r.buf.length : Int) then
        ({ r with buf := [], completedMatches := [] },
          (flushLoop r.subst r.buf limit r.completedMatches 0 []).2.1 ++
            slice r.buf (flushLoop r.subst r.buf limit r.completedMatches 0 []).1
              limit)
      else
        ({ r with
            buf := r.buf.drop limit.toNat
            completedMatches :=
              (flushLoop r.subst r.buf limit r.completedMatches 0 []).2.2.map
                (fun m => m.sub limit) },
          (flushLoop r.subst r.buf limit r.completedMatches 0 []).2.1 ++
            slice r.buf (flushLoop r.subst r.buf limit r.completedMatches 0 []).1
              limit) := by
  rw [Redactor.flushUpTo, if_neg (by
    rintro (h | h)
    · exact hg1 h
    · exact hg2 (by simpa using h))]
  dsimp only
  rw [if_pos hlt]

/-- `flushUpTo` when the loop cursor reaches or passes the limit. -/
theorem flushUpTo_over (r : Redactor) (limit : Int)
    (hg1 : limit ≠ 0) (hg2 : r.buf ≠ [])
    (hge : ¬ (flushLoop r.subst r.buf limit r.completedMatches 0 []).1 < limit) :
    r.flushUpTo limit =
      if (flushLoop r.subst r.buf limit r.completedMatches 0 []).1 ≥
          (r.buf.length : Int) then
        ({ r with buf := [], completedMatches := [] },
          (flushLoop r.subst r.buf limit r.completedMatches 0 []).2.1)
      else
        ({ r with
            buf := r.buf.drop
              (flushLoop r.subst r.buf limit r.completedMatches 0 []).1.toNat
            completedMatches :=
              (flushLoop r.subst r.buf limit r.completedMatches 0 []).2.2.map
                (fun m => m.sub
                  (flushLoop r.subst r.buf limit r.completedMatches 0 []).1) },
          (flushLoop r.subst r.buf limit r.completedMatches 0 []).2.1) := by
  rw [Redactor.flushUpTo, if_neg (by
    rintro (h | h)
    · exact hg1 h
    · exact hg2 (by simpa using h))]
  dsimp only
  rw [if_neg hge]

/-- The scanner equalities that link one `Write`'s scan to the virtual
machine: identical surviving matches, and new ranges that are the virtual
raw ranges rebased by the cut. -/
theorem scan_write_eqs (index : Byte → List Needle) (p b : List Byte)
    (κN : Nat) (r : Redactor)
    (hbuflen : r.buf.length + κN = p.length)
    (hpms : r.partialMatches = Vpms index p) :
    (scan index b r.buf.length r.partialMatches r.completedMatches).1 =
      Vpms index (p ++ b) ∧
    (scan index b r.buf.length r.partialMatches r.completedMatches).2 =
      r.completedMatches ++
        ((scan index b p.length (Vpms index p) []).2).map
          (fun m => m.sub (κN : Int)) ∧
    Vraw index (p ++ b) = Vraw index p ++
      (scan index b p.length (Vpms index p) []).2 := by
  have hVpmsapp : Vpms index (p ++ b) =
      (scan index b p.length (Vpms index p) []).1 := by
    rw [Vpms, scan_append index p b 0 [] [], Nat.zero_add,
      scan_acc index b p.length]
    rfl
  have hVrawapp : Vraw index (p ++ b) = Vraw index p ++
      (scan index b p.length (Vpms index p) []).2 := by
    rw [Vraw, scan_append index p b 0 [] [], Nat.zero_add,
      scan_acc index b p.length]
    rfl
  refine ⟨?_, ?_, hVrawapp⟩
  · rw [scan_acc index b r.buf.length, hpms, hVpmsapp]
    exact (scan_base index b r.buf.length p.length (Vpms index p)).1
  · rw [scan_acc index b r.buf.length, hpms]
    have h2 := (scan_base index b r.buf.length p.length (Vpms index p)).2
    rw [h2]
    have hf : (fun m : subrange =>
        m.add ((r.buf.length : Int) - (p.length : Int))) =
        fun m : subrange => m.sub (κN : Int) := by
      funext m
      rw [show (r.buf.length : Int) - (p.length : Int) = -(κN : Int) by
        omega]
      rw [add_eq_sub_neg m (-(κN : Int)), neg_neg]
    rw [hf]

/-- One `Write` preserves the simulation invariant. -/
theorem rel_write (S : List Byte) {index : Byte → List Needle}
    (hidx : WfIndex index) (r : Redactor) (p O b : List Byte)
    (hrel : REL S index r p O) :
    REL S index (r.write b).1 (p ++ b) (O ++ (r.write b).2.1) := by
  by_cases hb : b = []
  · subst hb
    rw [Redactor.write, if_pos (by simp)]
    dsimp only
    rw [List.append_nil, List.append_nil]
    exact hrel
  obtain ⟨κN, hsub, hidxeq, hbuflen, hbuf, hpms, hag, hO, he⟩ := hrel
  obtain ⟨hE1, hE2, hE3⟩ := scan_write_eqs index p b κN r hbuflen hpms
  have hκp : κN ≤ p.length := by omega
  have hκpI : (κN : Int) ≤ (p.length : Int) := by exact_mod_cast hκp
  have hVpmswf : WfPms (Vpms index p) :=
    scan_wf hidx p 0 [] [] (fun pm hpm => absurd hpm (List.not_mem_nil pm))
  obtain ⟨hWfacts, hWsort⟩ := scan_raw hidx b p.length (Vpms index p) hVpmswf
  obtain ⟨hWstart0, hpmsstart⟩ :=
    scan_start_inv hidx b p.length (Vpms index p) hVpmswf
  obtain ⟨hVraw1, hVrawsort⟩ := Vraw_facts hidx p
  obtain ⟨hPsep, hPsort, hPmem⟩ := Vm_facts hidx p
  have hsplit := sorted_filter_split (κN : Int) (Vm index p) hPsort
  have hVpmsapp : Vpms index (p ++ b) =
      (scan index b p.length (Vpms index p) []).1 := by
    rw [Vpms, scan_append index p b 0 [] [], Nat.zero_add,
      scan_acc index b p.length]
    rfl
  -- names for the four range lists
  set D := (Vm index p).filter (fun g => decide (g.to' ≤ (κN : Int))) with hDdef
  set R := (Vm index p).filter (fun g => decide ((κN : Int) < g.to')) with hRdef
  set W := (scan index b p.length (Vpms index p) []).2 with hWdef
  set SA := r.completedMatches.map (fun m => m.add (κN : Int)) with hSAdef
  have hDmem : ∀ m ∈ D, m.to' ≤ (κN : Int) := by
    intro m hm
    rw [hDdef] at hm
    have := (List.mem_filter.1 hm).2
    simpa using this
  have hRmem : ∀ m ∈ R, (κN : Int) < m.to' := by
    intro m hm
    rw [hRdef] at hm
    have := (List.mem_filter.1 hm).2
    simpa using this
  have hDRP : ∀ m ∈ D ++ R, m ∈ Vm index p := by
    intro m hm
    rw [← hsplit] at hm
    exact hm
  have hWwf : ∀ w ∈ W, w.from' < w.to' ∧ (p.length : Int) < w.to' := by
    intro x hx
    obtain ⟨h1, h2, _⟩ := hWfacts x hx
    exact ⟨h1, h2⟩
  have hVmW : Vm index (p ++ b) = mergeOverlaps (Vm index p ++ W) := by
    rw [Vm, hE3]
    refine mergeOverlaps_append (Vraw index p) W ?_ ?_
    · rw [List.pairwise_append]
      refine ⟨hVrawsort, hWsort, ?_⟩
      intro a ha x hx
      have h1 := (hVraw1 a ha).2.2.2
      have h2 := (hWfacts x hx).2.1
      omega
    · intro x hx
      rcases List.mem_append.1 hx with h1 | h1
      · exact (hVraw1 x h1).1
      · exact (hWfacts x h1).1
  have hVmsplit : Vm index (p ++ b) = mergeOverlaps ((D ++ R) ++ W) := by
    rw [hVmW, ← hsplit]
  have hdom : ∀ g ∈ Vm index p, ∃ g' ∈ Vm index (p ++ b),
      g'.from' ≤ g.from' ∧ g.to' ≤ g'.to' := by
    intro g hg
    have h1 := mergeOverlaps_dominates (Vm index p ++ W) g
      (List.mem_append_left _ hg)
    rw [← hVmW] at h1
    exact h1
  have hWstart : ∀ x ∈ W, (κN : Int) ≤ x.from' ∨
      ∃ g ∈ D ++ R, g.from' ≤ x.from' ∧ (κN : Int) ≤ g.to' := by
    intro x hx
    rcases hWstart0 x hx with h1 | ⟨pm, hpm, hfe⟩
    · left
      omega
    · rcases he pm (by rw [hpms]; exact hpm) with h2 | ⟨g, hg, hgf, hgt⟩
      · left
        omega
      · right
        refine ⟨g, ?_, by omega, hgt⟩
        rw [← hsplit]
        exact hg
  obtain ⟨Pre, N, hVmPN, hPreto, hNto, hagN, hstab⟩ :=
    vm_split S p b (κN : Int) D R W SA (Int.natCast_nonneg κN) hκpI
      (by rw [← hsplit]; exact hPsep)
      (fun m hm => hPmem m (hDRP m hm)) hDmem hRmem hWwf hWsort hWstart hag
  have hVm : Vm index (p ++ b) = Pre ++ N := by
    rw [hVmsplit]
    exact hVmPN
  have hstab' : VO S index (p ++ b) (κN : Int) = VO S index p (κN : Int) := by
    rw [VO, VO, hVmsplit, hsplit]
    exact hstab
  have hfilterN : (Vm index (p ++ b)).filter
      (fun g => decide ((κN : Int) < g.to')) = N := by
    rw [hVm, List.filter_append,
      List.filter_eq_nil_iff.2 (fun x hx => by
        simp
        have h1 := hPreto x hx
        omega),
      List.filter_eq_self.2 (fun x hx => by
        simp
        exact hNto x hx), List.nil_append]
  have hM1 : (mergeOverlaps
      (scan index b r.buf.length r.partialMatches r.completedMatches).2).map
        (fun m => m.add (κN : Int)) = mergeOverlaps (SA ++ W) := by
    rw [hE2, ← mergeOverlaps_map_add (κN : Int), List.map_append, map_sub_add,
      ← hSAdef]
  have hM1loc : (mergeOverlaps
      (scan index b r.buf.length r.partialMatches r.completedMatches).2) =
      (mergeOverlaps (SA ++ W)).map (fun m => m.sub (κN : Int)) := by
    rw [← hM1, map_add_sub]
  obtain ⟨hPNsep, hPNsort, hPNmem⟩ := Vm_facts hidx (p ++ b)
  rw [hVm] at hPNsep hPNmem
  have hNto2 : ∀ m ∈ N, (κN : Int) < m.to' ∧ m.to' ≤ ((p ++ b).length : Int) := by
    intro m hm
    exact ⟨hNto m hm, (hPNmem m (List.mem_append_right Pre hm)).2.2⟩
  have hMto : ∀ m ∈ mergeOverlaps (SA ++ W), (κN : Int) ≤ m.to' := by
    rcases hdAgree_cases hagN with ⟨hMn, _⟩ | ⟨s0, v0, T0, hMeq0, hNeq0, hto00, _⟩
    · rw [hMn]
      intro m hm
      simp at hm
    · rw [hMeq0]
      intro m hm
      rcases List.mem_cons.1 hm with h1 | h1
      · rw [h1, hto00]
        have := (hNto2 v0 (by rw [hNeq0]; exact List.mem_cons_self v0 T0)).1
        omega
      · have := (hNto2 m (by rw [hNeq0]; exact List.mem_cons_of_mem v0 h1)).1
        omega
  have hMsep : Sep (mergeOverlaps (SA ++ W)) := by
    have hSAfacts : SA.Pairwise (fun a b => a.to' ≤ b.to') ∧
        ∀ m ∈ SA, m.from' < m.to' ∧ m.to' ≤ (p.length : Int) := by
      rcases hdAgree_cases hag with ⟨hMn, _⟩ | ⟨s0, v0, T0, hMeq0, hNeq0, hto00, hfr00⟩
      · rw [hMn]
        exact ⟨List.Pairwise.nil, fun m hm => absurd hm (List.not_mem_nil m)⟩
      · have hRsort : R.Pairwise (fun a b => a.to' ≤ b.to') := by
          rw [hRdef]
          exact List.Pairwise.filter _ hPsort
        rw [hMeq0]
        rw [hNeq0] at hRsort
        constructor
        · rw [List.pairwise_cons] at hRsort ⊢
          refine ⟨fun x hx => ?_, hRsort.2⟩
          rw [hto00]
          exact hRsort.1 x hx
        · intro m hm
          have hv0R : v0 ∈ R := by rw [hNeq0]; exact List.mem_cons_self v0 T0
          have hv0P := hPmem v0 (hDRP v0 (List.mem_append_right D hv0R))
          have hv0κ := hRmem v0 hv0R
          rcases List.mem_cons.1 hm with h1 | h1
          · rw [h1]
            rcases hfr00 with h2 | ⟨h2, _⟩
            · rw [h2, hto00]
              exact ⟨hv0P.1, hv0P.2.2⟩
            · rw [hto00]
              exact ⟨by omega, hv0P.2.2⟩
          · have hmR : m ∈ R := by rw [hNeq0]; exact List.mem_cons_of_mem v0 h1
            have hmP := hPmem m (hDRP m (List.mem_append_right D hmR))
            exact ⟨hmP.1, hmP.2.2⟩
    have hsort2 : (SA ++ W).Pairwise (fun a b => a.to' ≤ b.to') := by
      rw [List.pairwise_append]
      refine ⟨hSAfacts.1, hWsort, ?_⟩
      intro a ha x hx
      have h1 := (hSAfacts.2 a ha).2
      have h2 := (hWfacts x hx).2.1
      omega
    have hwf2 : ∀ m ∈ SA ++ W, m.from' < m.to' := by
      intro m hm
      rcases List.mem_append.1 hm with h1 | h1
      · exact (hSAfacts.2 m h1).1
      · exact (hWfacts m h1).1
    exact (mergeOverlaps_main hsort2 hwf2).1
  -- the flush limit, local and absolute
  have hlenq : ((r.buf ++ b).length : Int) + (κN : Int) =
      ((p ++ b).length : Int) := by
    rw [List.length_append, List.length_append]
    push_cast
    omega
  have hLabsle : flushLimit ((r.buf ++ b).length : Int)
      (scan index b r.buf.length r.partialMatches r.completedMatches).1 +
        (κN : Int) ≤ ((p ++ b).length : Int) := by
    have h1 := flushLimit_foldl_le ((r.buf ++ b).length : Int)
      (scan index b r.buf.length r.partialMatches r.completedMatches).1
      ((r.buf ++ b).length : Int)
    rw [flushLimit] at *
    omega
  have hκq' : (κN : Int) ≤ ((p ++ b).length : Int) := by
    rw [List.length_append]
    push_cast
    omega
  have hbuf1 : r.buf ++ b = (p ++ b).drop κN := by
    rw [hbuf]
    exact (List.drop_append_of_le_length hκp).symm
  -- the flush loop, in absolute coordinates
  have hres : flushLoop S (r.buf ++ b)
      (flushLimit ((r.buf ++ b).length : Int)
        (scan index b r.buf.length r.partialMatches r.completedMatches).1)
      (mergeOverlaps
        (scan index b r.buf.length r.partialMatches r.completedMatches).2)
      0 [] =
      ((flushLoop S (p ++ b)
          (flushLimit ((r.buf ++ b).length : Int)
            (scan index b r.buf.length r.partialMatches
              r.completedMatches).1 + (κN : Int))
          (mergeOverlaps (SA ++ W)) (κN : Int) []).1 - (κN : Int),
        (flushLoop S (p ++ b)
          (flushLimit ((r.buf ++ b).length : Int)
            (scan index b r.buf.length r.partialMatches
              r.completedMatches).1 + (κN : Int))
          (mergeOverlaps (SA ++ W)) (κN : Int) []).2.1,
        ((flushLoop S (p ++ b)
          (flushLimit ((r.buf ++ b).length : Int)
            (scan index b r.buf.length r.partialMatches
              r.completedMatches).1 + (κN : Int))
          (mergeOverlaps (SA ++ W)) (κN : Int) []).2.2).map
            (fun m => m.sub (κN : Int))) := by
    generalize flushLimit ((r.buf ++ b).length : Int)
      (scan index b r.buf.length r.partialMatches r.completedMatches).1 = L
    rw [hbuf1, hM1loc]
    have h := flushLoop_shift S (p ++ b) κN L (mergeOverlaps (SA ++ W)) 0 []
      hMto (le_refl 0)
    rw [zero_add] at h
    exact h
  obtain ⟨⟨hcs1, hcs2, hcs3⟩, hrender, hagNew, hclear, hovershoot⟩ :=
    flush_effect S (p ++ b) (κN : Int)
      (flushLimit ((r.buf ++ b).length : Int)
        (scan index b r.buf.length r.partialMatches r.completedMatches).1 +
          (κN : Int))
      Pre N (mergeOverlaps (SA ++ W)) (Int.natCast_nonneg κN) hκq' hLabsle
      hPNsep (fun m hm => ⟨(hPNmem m hm).1, (hPNmem m hm).2.1⟩)
      hPreto hNto2 hagN hMsep _ _ rfl rfl
  -- short names for the limit, the absolute loop result, the cut and output
  set L := flushLimit ((r.buf ++ b).length : Int)
    (scan index b r.buf.length r.partialMatches r.completedMatches).1 with hLdef
  set Rabs := flushLoop S (p ++ b) (L + (κN : Int)) (mergeOverlaps (SA ++ W))
    (κN : Int) [] with hRabsdef
  set cstar := if Rabs.1 < L + (κN : Int) then L + (κN : Int) else Rabs.1
    with hcstardef
  set w := if Rabs.1 < L + (κN : Int) then
      Rabs.2.1 ++ slice (p ++ b) Rabs.1 (L + (κN : Int))
    else Rabs.2.1 with hwdef
  have hgenE : ∀ pm' ∈ (scan index b r.buf.length r.partialMatches
      r.completedMatches).1,
      (κN : Int) ≤ ((p ++ b).length : Int) - pm'.matched ∨
        ∃ g ∈ Vm index (p ++ b),
          g.from' ≤ ((p ++ b).length : Int) - pm'.matched ∧
            (κN : Int) ≤ g.to' := by
    intro pm' hpm'
    have hpm2 : pm' ∈ (scan index b p.length (Vpms index p) []).1 := by
      rw [← hVpmsapp, ← hE1]
      exact hpm'
    rcases hpmsstart pm' hpm2 with h1 | ⟨pm, hpmmem, hseq⟩
    · left
      rw [List.length_append]
      push_cast
      omega
    · rcases he pm (by rw [hpms]; exact hpmmem) with h3 | ⟨g, hg, hgf, hgt⟩
      · left
        rw [List.length_append]
        push_cast
        omega
      · obtain ⟨g', hg', h4, h5⟩ := hdom g hg
        right
        refine ⟨g', hg', ?_, by omega⟩
        rw [List.length_append]
        push_cast
        omega
  have hLstart : ∀ pm' ∈ (scan index b r.buf.length r.partialMatches
      r.completedMatches).1,
      L + (κN : Int) ≤ ((p ++ b).length : Int) - pm'.matched := by
    intro pm' hpm'
    have h1 := flushLimit_le_matched ((r.buf ++ b).length : Int)
      (scan index b r.buf.length r.partialMatches r.completedMatches).1 pm' hpm'
    rw [← hLdef] at h1
    omega
  have he' : ∀ pm' ∈ (scan index b r.buf.length r.partialMatches
      r.completedMatches).1,
      cstar ≤ ((p ++ b).length : Int) - pm'.matched ∨
        ∃ g ∈ Vm index (p ++ b),
          g.from' ≤ ((p ++ b).length : Int) - pm'.matched ∧ cstar ≤ g.to' := by
    intro pm' hpm'
    have hLs := hLstart pm' hpm'
    by_cases hcase : cstar ≤ ((p ++ b).length : Int) - pm'.matched
    · exact Or.inl hcase
    · have hcsR : cstar = Rabs.1 := by
        by_cases h1 : Rabs.1 < L + (κN : Int)
        · exfalso
          apply hcase
          rw [hcstardef, if_pos h1]
          exact hLs
        · rw [hcstardef, if_neg h1]
      rcases lt_or_eq_of_le hcs3 with hgt | heq
      · obtain ⟨m, hmM, hmto, hmfrom⟩ := hovershoot hgt
        right
        rcases hdAgree_cases hagN with ⟨hMn, _⟩ |
          ⟨s0, v0, T0, hMeq0, hNeq0, hto00, hfr00⟩
        · rw [hMn] at hmM
          exact absurd hmM (List.not_mem_nil m)
        · rw [hMeq0] at hmM
          rcases List.mem_cons.1 hmM with h2 | h2
          · have hv0f : v0.from' ≤ s0.from' := by
              rcases hfr00 with h3 | ⟨_, h4⟩
              · omega
              · exact h4
            rw [h2] at hmfrom hmto
            refine ⟨v0, ?_, by omega, ?_⟩
            · rw [hVm, hNeq0]
              exact List.mem_append_right Pre (List.mem_cons_self v0 T0)
            · omega
          · refine ⟨m, ?_, by omega, ?_⟩
            · rw [hVm, hNeq0]
              exact List.mem_append_right Pre (List.mem_cons_of_mem v0 h2)
            · omega
      · have hcκ : cstar = (κN : Int) := by
          rw [hcsR, ← heq]
        rw [hcκ]
        exact hgenE pm' hpm'
  have hVOc : VO S index (p ++ b) cstar =
      VO S index (p ++ b) (κN : Int) ++ w := by
    rw [VO, VO, hVm]
    exact hrender
  have hfilter2 : (Vm index (p ++ b)).filter
      (fun g => decide (cstar < g.to')) =
      N.filter (fun g => decide (cstar < g.to')) := by
    rw [hVm, List.filter_append, List.filter_eq_nil_iff.2 (fun x hx => by
      simp
      have h1 := hPreto x hx
      omega), List.nil_append]
  -- unfold one `write`
  have hws := write_state r b hb
  have hwo := write_out r b hb
  rw [hidxeq] at hws hwo
  rw [← hLdef] at hws hwo
  rw [hws, hwo]
  by_cases hL0 : L = 0
  · -- everything is retained: the state is the mid-state, no output
    rw [hL0, Redactor.flushUpTo, if_pos (Or.inl rfl)]
    dsimp only
    rw [List.append_nil]
    refine ⟨κN, ?_, ?_, ?_, ?_, ?_, ?_, ?_, ?_⟩
    · exact hsub
    · rfl
    · show (r.buf ++ b).length + κN = (p ++ b).length
      simp only [List.length_append]
      omega
    · exact hbuf1
    · exact hE1
    · show hdAgree (κN : Int)
        ((mergeOverlaps (scan index b r.buf.length r.partialMatches
          r.completedMatches).2).map (fun m => m.add (κN : Int)))
        ((Vm index (p ++ b)).filter (fun g => decide ((κN : Int) < g.to')))
      rw [hM1, hfilterN]
      exact hagN
    · show O = VO S index (p ++ b) (κN : Int)
      rw [hstab']
      exact hO
    · intro pm' hpm'
      exact hgenE pm' hpm'
  · -- the flush runs
    have hguard : ¬ (L = 0 ∨ (r.buf ++ b).isEmpty = true) := by
      rintro (h | h)
      · exact hL0 h
      · have h2 : r.buf ++ b = [] := by simpa using h
        rcases List.append_eq_nil.1 h2 with ⟨-, h3⟩
        exact hb h3
    rw [Redactor.flushUpTo]
    dsimp only
    rw [if_neg hguard, hsub, hres]
    dsimp only
    have hstep : (if Rabs.1 - (κN : Int) < L then
          (L, Rabs.2.1 ++ slice (r.buf ++ b) (Rabs.1 - (κN : Int)) L)
        else (Rabs.1 - (κN : Int), Rabs.2.1)) =
        (cstar - (κN : Int), w) := by
      by_cases hlt : Rabs.1 - (κN : Int) < L
      · have hltA : Rabs.1 < L + (κN : Int) := by omega
        have h0a : (0 : Int) ≤ Rabs.1 - (κN : Int) := by omega
        have h0b : (0 : Int) ≤ L := by omega
        have hsl : slice (r.buf ++ b) (Rabs.1 - (κN : Int)) L =
            slice (p ++ b) Rabs.1 (L + (κN : Int)) := by
          rw [hbuf1, slice_drop (p ++ b) κN h0a h0b,
            show Rabs.1 - (κN : Int) + (κN : Int) = Rabs.1 from by ring]
        rw [if_pos hlt, hcstardef, hwdef, if_pos hltA, if_pos hltA, hsl]
        simp only [Prod.mk.injEq]
        exact ⟨by ring, trivial⟩
      · have hltA : ¬ Rabs.1 < L + (κN : Int) := by omega
        rw [if_neg hlt, hcstardef, hwdef, if_neg hltA, if_neg hltA]
    rw [hstep]
    dsimp only
    by_cases hfull : cstar - (κN : Int) ≥ ((r.buf ++ b).length : Int)
    · -- the whole buffer is flushed
      rw [if_pos hfull]
      dsimp only
      have hcsfull : cstar = ((p ++ b).length : Int) := by omega
      have hrest : Rabs.2.2 = [] := hclear (le_of_eq hcsfull.symm)
      have hNfe : N.filter (fun g => decide (cstar < g.to')) = [] := by
        have h1 := hagNew
        rw [hrest] at h1
        rcases hdAgree_cases h1 with ⟨_, h2⟩ | ⟨s0, v0, T0, h2, _, _, _⟩
        · exact h2
        · exact absurd h2 (by simp)
      refine ⟨(p ++ b).length, ?_, ?_, ?_, ?_, ?_, ?_, ?_, ?_⟩
      · rfl
      · rfl
      · show ([] : List Byte).length + (p ++ b).length = (p ++ b).length
        simp
      · exact (List.drop_length _).symm
      · exact hE1
      · show hdAgree ((p ++ b).length : Int)
          (([] : List subrange).map
            (fun m => m.add ((p ++ b).length : Int)))
          ((Vm index (p ++ b)).filter
            (fun g => decide (((p ++ b).length : Int) < g.to')))
        rw [List.map_nil,
          show ((p ++ b).length : Int) = cstar from hcsfull.symm,
          hfilter2, hNfe]
        trivial
      · show O ++ w = VO S index (p ++ b) ((p ++ b).length : Int)
        rw [show ((p ++ b).length : Int) = cstar from hcsfull.symm, hVOc,
          hstab', ← hO]
      · intro pm' hpm'
        rcases he' pm' hpm' with h1 | ⟨g, hg, h2, h3⟩
        · left
          omega
        · right
          exact ⟨g, hg, h2, by omega⟩
    · -- part of the buffer is retained
      rw [if_neg hfull]
      dsimp only
      have hc0 : (0 : Int) ≤ cstar - (κN : Int) := by omega
      have hcast : ((κN + (cstar - (κN : Int)).toNat : Nat) : Int) = cstar := by
        push_cast [Int.toNat_of_nonneg hc0]
        ring
      have hfun : ∀ m : subrange,
          ((m.sub (κN : Int)).sub (cstar - (κN : Int))).add cstar = m := by
        intro m
        rw [sub_sub, show (κN : Int) + (cstar - (κN : Int)) = cstar from by
          ring, sub_add]
      have hmaps : ∀ l : List subrange,
          (((l.map (fun m => m.sub (κN : Int))).map
            (fun m => m.sub (cstar - (κN : Int)))).map
              (fun m => m.add cstar)) = l := by
        intro l
        induction l with
        | nil => rfl
        | cons x xs ih =>
          rw [List.map_cons, List.map_cons, List.map_cons, hfun x, ih]
      refine ⟨κN + (cstar - (κN : Int)).toNat, ?_, ?_, ?_, ?_, ?_, ?_, ?_, ?_⟩
      · rfl
      · rfl
      · show ((r.buf ++ b).drop (cstar - (κN : Int)).toNat).length +
          (κN + (cstar - (κN : Int)).toNat) = (p ++ b).length
        simp only [List.length_drop, List.length_append]
        push_cast [List.length_append] at hfull
        omega
      · show (r.buf ++ b).drop (cstar - (κN : Int)).toNat =
          (p ++ b).drop (κN + (cstar - (κN : Int)).toNat)
        rw [hbuf1, List.drop_drop]
      · exact hE1
      · show hdAgree ((κN + (cstar - (κN : Int)).toNat : Nat) : Int)
          (((Rabs.2.2.map (fun m => m.sub (κN : Int))).map
            (fun m => m.sub (cstar - (κN : Int)))).map
              (fun m => m.add ((κN + (cstar - (κN : Int)).toNat : Nat) : Int)))
          ((Vm index (p ++ b)).filter (fun g =>
            decide (((κN + (cstar - (κN : Int)).toNat : Nat) : Int) < g.to')))
        rw [hcast, hmaps Rabs.2.2, hfilter2]
        exact hagNew
      · show O ++ w =
          VO S index (p ++ b) ((κN + (cstar - (κN : Int)).toNat : Nat) : Int)
        rw [hcast, hVOc, hstab', ← hO]
      · intro pm' hpm'
        rcases he' pm' hpm' with h1 | ⟨g, hg, h2, h3⟩
        · left
          omega
        · right
          exact ⟨g, hg, h2, by omega⟩

/-- The terminal `Flush` completes the virtual output: after it the sink has
received exactly the fully-flushed rendering of the whole stream. -/
theorem rel_flush (S : List Byte) {index : Byte → List Needle}
    (hidx : WfIndex index) (r : Redactor) (p O : List Byte)
    (hrel : REL S index r p O) :
    O ++ (r.flush).2 = VO S index p (p.length : Int) := by
  obtain ⟨κN, hsub, hidxeq, hbuflen, hbuf, hpms, hag, hO, he⟩ := hrel
  by_cases hbe : r.buf = []
  · have hκ : κN = p.length := by
      rw [hbe] at hbuflen
      simpa using hbuflen
    rw [Redactor.flush]
    dsimp only
    rw [Redactor.flushUpTo]
    dsimp only
    rw [if_pos (Or.inr (by simp [hbe]))]
    dsimp only
    rw [List.append_nil, hO, hκ]
  · obtain ⟨hPsep, hPsort, hPmem⟩ := Vm_facts hidx p
    have hsplit := sorted_filter_split (κN : Int) (Vm index p) hPsort
    set D := (Vm index p).filter (fun g => decide (g.to' ≤ (κN : Int))) with hDdef
    set R := (Vm index p).filter (fun g => decide ((κN : Int) < g.to')) with hRdef
    set SA := r.completedMatches.map (fun m => m.add (κN : Int)) with hSAdef
    have hκp : κN ≤ p.length := by omega
    have hDmem : ∀ m ∈ D, m.to' ≤ (κN : Int) := by
      intro m hm
      rw [hDdef] at hm
      have := (List.mem_filter.1 hm).2
      simpa using this
    have hRmem : ∀ m ∈ R, (κN : Int) < m.to' ∧ m.to' ≤ (p.length : Int) := by
      intro m hm
      have h2 : m ∈ Vm index p := by
        rw [hRdef] at hm
        exact (List.mem_filter.1 hm).1
      constructor
      · rw [hRdef] at hm
        have := (List.mem_filter.1 hm).2
        simpa using this
      · exact (hPmem m h2).2.2
    have hsepDR : Sep (D ++ R) := by
      rw [← hsplit]
      exact hPsep
    have hRsep : Sep R := (List.pairwise_append.1 hsepDR).2.1
    have hMsep : Sep SA := by
      rcases hdAgree_cases hag with ⟨hMn, _⟩ |
        ⟨s0, v0, T0, hMeq0, hNeq0, hto00, hfr00⟩
      · rw [hMn]
        exact List.Pairwise.nil
      · rw [hMeq0]
        have h1 : Sep (v0 :: T0) := by
          rw [← hNeq0]
          exact hRsep
        obtain ⟨ha, hb⟩ := List.pairwise_cons.1 h1
        refine List.pairwise_cons.2 ⟨fun x hx => ?_, hb⟩
        have h2 := ha x hx
        omega
    have hMto : ∀ m ∈ SA, (κN : Int) ≤ m.to' := by
      rcases hdAgree_cases hag with ⟨hMn, _⟩ |
        ⟨s0, v0, T0, hMeq0, hNeq0, hto00, _⟩
      · rw [hMn]
        intro m hm
        simp at hm
      · rw [hMeq0]
        intro m hm
        rcases List.mem_cons.1 hm with h1 | h1
        · rw [h1, hto00]
          have := (hRmem v0 (by rw [hNeq0]; exact List.mem_cons_self v0 T0)).1
          omega
        · have := (hRmem m (by rw [hNeq0]; exact List.mem_cons_of_mem v0 h1)).1
          omega
    have hlen : (r.buf.length : Int) + (κN : Int) = (p.length : Int) := by
      push_cast
      omega
    have hres : flushLoop S r.buf (r.buf.length : Int) r.completedMatches 0 [] =
        ((flushLoop S p (p.length : Int) SA (κN : Int) []).1 - (κN : Int),
         (flushLoop S p (p.length : Int) SA (κN : Int) []).2.1,
         ((flushLoop S p (p.length : Int) SA (κN : Int) []).2.2).map
           (fun m => m.sub (κN : Int))) := by
      have h := flushLoop_shift S p κN (r.buf.length : Int) SA 0 [] hMto
        (le_refl 0)
      rw [zero_add] at h
      have hSAback : SA.map (fun m => m.sub (κN : Int)) = r.completedMatches := by
        rw [hSAdef, map_add_sub]
      rw [hSAback, ← hbuf, hlen] at h
      exact h
    obtain ⟨⟨hcs1, hcs2, hcs3⟩, hrender, hagNew, hclear, hovershoot⟩ :=
      flush_effect S p (κN : Int) (p.length : Int) D R SA
        (Int.natCast_nonneg κN) (by exact_mod_cast hκp) (le_refl _)
        hsepDR
        (fun m hm => by
          have h2 : m ∈ Vm index p := by
            rw [← hsplit] at hm
            exact hm
          exact ⟨(hPmem m h2).1, (hPmem m h2).2.1⟩)
        hDmem hRmem hag hMsep _ _ rfl rfl
    set Rabs := flushLoop S p (p.length : Int) SA (κN : Int) [] with hRabsdef
    set cstar := if Rabs.1 < (p.length : Int) then (p.length : Int) else Rabs.1
      with hcstardef
    set w := if Rabs.1 < (p.length : Int) then
        Rabs.2.1 ++ slice p Rabs.1 (p.length : Int)
      else Rabs.2.1 with hwdef
    have hcsfix : cstar = (p.length : Int) := by
      by_cases h1 : Rabs.1 < (p.length : Int)
      · rw [hcstardef, if_pos h1]
      · have h2 : cstar = Rabs.1 := by rw [hcstardef, if_neg h1]
        omega
    have hVOc : VO S index p cstar = VO S index p (κN : Int) ++ w := by
      rw [VO, VO, hsplit]
      exact hrender
    have hg0 : ¬ ((r.buf.length : Int) = 0 ∨ r.buf.isEmpty = true) := by
      rintro (h | h)
      · have h2 : r.buf.length = 0 := by exact_mod_cast h
        exact hbe (List.length_eq_zero.1 h2)
      · exact hbe (by simpa using h)
    rw [Redactor.flush]
    dsimp only
    rw [Redactor.flushUpTo]
    dsimp only
    rw [if_neg hg0, hsub, hres]
    dsimp only
    have hstep : (if Rabs.1 - (κN : Int) < (r.buf.length : Int) then
          ((r.buf.length : Int),
            Rabs.2.1 ++ slice r.buf (Rabs.1 - (κN : Int)) (r.buf.length : Int))
        else (Rabs.1 - (κN : Int), Rabs.2.1)) = (cstar - (κN : Int), w) := by
      by_cases hlt : Rabs.1 - (κN : Int) < (r.buf.length : Int)
      · have hltA : Rabs.1 < (p.length : Int) := by omega
        have h0a : (0 : Int) ≤ Rabs.1 - (κN : Int) := by omega
        have h0b : (0 : Int) ≤ (r.buf.length : Int) := Int.natCast_nonneg _
        have hsl : slice r.buf (Rabs.1 - (κN : Int)) (r.buf.length : Int) =
            slice p Rabs.1 (p.length : Int) := by
          have h1 := slice_drop p κN h0a h0b
          rw [← hbuf] at h1
          rw [h1, show Rabs.1 - (κN : Int) + (κN : Int) = Rabs.1 from by ring,
            hlen]
        rw [if_pos hlt, hcstardef, hwdef, if_pos hltA, if_pos hltA, hsl]
        simp only [Prod.mk.injEq]
        exact ⟨by omega, trivial⟩
      · have hltA : ¬ Rabs.1 < (p.length : Int) := by omega
        rw [if_neg hlt, hcstardef, hwdef, if_neg hltA, if_neg hltA]
    rw [hstep]
    dsimp only
    rw [if_pos (show cstar - (κN : Int) ≥ (r.buf.length : Int) from by omega)]
    dsimp only
    rw [show (p.length : Int) = cstar from hcsfix.symm, hVOc, ← hO]

/-- A run of `Write` calls preserves the simulation invariant. -/
theorem rel_runWrites (S : List Byte) {index : Byte → List Needle}
    (hidx : WfIndex index) :
    ∀ (chunks : List (List Byte)) (r : Redactor) (p O : List Byte),
      REL S index r p O →
      REL S index (runWrites r chunks).1 (p ++ chunks.flatten)
        (O ++ (runWrites r chunks).2) := by
  intro chunks
  induction chunks with
  | nil =>
    intro r p O hrel
    show REL S index r (p ++ ([] : List (List Byte)).flatten) (O ++ [])
    simpa using hrel
  | cons c cs ih =>
    intro r p O hrel
    have h1 := rel_write S hidx r p O c hrel
    have h2 := ih (r.write c).1 (p ++ c) (O ++ (r.write c).2.1) h1
    show REL S index (runWrites (r.write c).1 cs).1
      (p ++ (c :: cs).flatten)
      (O ++ ((r.write c).2.1 ++ (runWrites (r.write c).1 cs).2))
    rw [List.flatten_cons, ← List.append_assoc, ← List.append_assoc]
    exact h2

/-- The full pipeline (writes then terminal flush) computes the virtual
output of the concatenated stream. -/
theorem runAll_eq (S : List Byte) (ns : List Needle)
    (chunks : List (List Byte)) :
    runAll (Redactor.new S ns) chunks =
      VO S (Redactor.new S ns).needlesByFirstByte chunks.flatten
        (chunks.flatten.length : Int) := by
  have hidx : WfIndex (Redactor.new S ns).needlesByFirstByte := new_wfIndex S ns
  have h1 := rel_runWrites S hidx chunks (Redactor.new S ns) [] []
    (rel_init S ns)
  simp only [List.nil_append] at h1
  have h2 := rel_flush S hidx (runWrites (Redactor.new S ns) chunks).1
    chunks.flatten (runWrites (Redactor.new S ns) chunks).2 h1
  show (runWrites (Redactor.new S ns) chunks).2 ++
    ((runWrites (Redactor.new S ns) chunks).1.flush).2 = _
  exact h2

/-- **C2**: for every byte stream and every way of splitting it into
non-empty chunks, feeding the chunks through successive `Write` calls and a
terminal `Flush` delivers the same sink output as feeding the whole stream
in one `Write` call followed by `Flush` (the sink never errs). -/
theorem C2_boundary_independence (S : List Byte) (ns : List Needle)
    (chunks : List (List Byte)) (hne : ∀ c ∈ chunks, c ≠ []) :
    runAll (Redactor.new S ns) chunks =
      runAll (Redactor.new S ns) [chunks.flatten] := by
  rw [runAll_eq, runAll_eq]
  simp only [List.flatten_cons, List.flatten_nil, List.append_nil]

theorem C2_witness :
    (∀ c ∈ [[1, 2], [3]], c ≠ ([] : List Byte)) ∧
      runAll (Redactor.new [9] [[1, 2, 3]]) [[1, 2], [3]] =
        runAll (Redactor.new [9] [[1, 2, 3]]) [[[1, 2], [3]].flatten] :=
  ⟨by decide, C2_boundary_independence [9] [[1, 2, 3]] [[1, 2], [3]]
    (by decide)⟩

/-! ### Occurrence positions, scanner completeness, and the no-leak bound -/

theorem getD_drop (l : List Byte) (a k : Nat) :
    (l.drop a).getD k 0 = l.getD (a + k) 0 := by
  by_cases h : k < (l.drop a).length
  · have h2 : a + k < l.length := by
      rw [List.length_drop] at h
      omega
    rw [List.getD_eq_getElem _ _ h, List.getD_eq_getElem _ _ h2,
      List.getElem_drop]
  · have h3 : l.length - a ≤ k := by
      rw [List.length_drop] at h
      omega
    rw [List.getD_eq_default _ _ (by rw [List.length_drop]; omega),
      List.getD_eq_default _ _ (by omega)]

/-- A contiguous occurrence is an occurrence at some position. -/
theorem infix_pos {n z : List Byte} :
    n <:+: z ↔ ∃ a : Nat, a + n.length ≤ z.length ∧ n <+: z.drop a := by
  constructor
  · rintro ⟨s, t, rfl⟩
    refine ⟨s.length, by simp, ?_⟩
    rw [List.append_assoc, List.drop_left]
    exact ⟨t, rfl⟩
  · rintro ⟨a, hlen, t, ht⟩
    exact ⟨z.take a, t, by rw [List.append_assoc, ht, List.take_append_drop]⟩

theorem prefix_split_left {n X Y : List Byte} (a : Nat)
    (h : n <+: (X ++ Y).drop a) (hlen : a + n.length ≤ X.length) :
    n <+: X.drop a := by
  have h1 : n = ((X ++ Y).drop a).take n.length := List.prefix_iff_eq_take.1 h
  rw [List.drop_append_eq_append_drop,
    List.take_append_of_le_length (by rw [List.length_drop]; omega)] at h1
  exact List.prefix_iff_eq_take.2 h1

theorem drop_shift_right {X Y : List Byte} (a : Nat) (h : X.length ≤ a) :
    (X ++ Y).drop a = Y.drop (a - X.length) := by
  rw [List.drop_append_eq_append_drop, List.drop_eq_nil_of_le h,
    List.nil_append]

/-- An occurrence that is not inside the left part and not inside the right
part must overlap the middle marker, so one of its bytes is a marker byte. -/
theorem straddle_clash {n X Ss R : List Byte} (hn : n ≠ []) (hS : Ss ≠ [])
    (hdisj : ∀ c ∈ n, c ∉ Ss) (a : Nat)
    (hpre : n <+: (X ++ (Ss ++ R)).drop a)
    (h1 : ¬ (a + n.length ≤ X.length))
    (h2 : ¬ (X.length + Ss.length ≤ a)) : False := by
  obtain ⟨t, ht⟩ := hpre
  have hnlen : 0 < n.length := List.length_pos.2 hn
  have hslen : 0 < Ss.length := List.length_pos.2 hS
  set j := max a X.length with hj
  have hja : a ≤ j := le_max_left _ _
  have hjX : X.length ≤ j := le_max_right _ _
  have hjlt : j - a < n.length := by omega
  have hjS : j - X.length < Ss.length := by omega
  have hb1 : (X ++ (Ss ++ R)).getD j 0 = n.getD (j - a) 0 := by
    have e1 : ((X ++ (Ss ++ R)).drop a).getD (j - a) 0 =
        (X ++ (Ss ++ R)).getD (a + (j - a)) 0 := getD_drop _ a (j - a)
    rw [show a + (j - a) = j from by omega] at e1
    rw [← e1, ← ht, List.getD_append _ _ _ _ hjlt]
  have hb2 : (X ++ (Ss ++ R)).getD j 0 = Ss.getD (j - X.length) 0 := by
    rw [List.getD_append_right _ _ _ _ hjX, List.getD_append _ _ _ _ hjS]
  have hmn : n.getD (j - a) 0 ∈ n := by
    rw [List.getD_eq_getElem _ _ hjlt]
    exact List.getElem_mem hjlt
  have hmS : Ss.getD (j - X.length) 0 ∈ Ss := by
    rw [List.getD_eq_getElem _ _ hjS]
    exact List.getElem_mem hjS
  refine hdisj _ hmn ?_
  rw [hb1.symm.trans hb2]
  exact hmS

/-- `starts` records every needle of the bucket: a one-byte needle completes
on the spot, a longer one enters as a partial match with one byte matched. -/
theorem starts_mem (i : Nat) (n : Needle) :
    ∀ bucket : List Needle, n ∈ bucket →
      (n.length = 1 →
        (⟨(i : Int), (i : Int) + 1⟩ : subrange) ∈ (starts i bucket).2) ∧
      (n.length ≠ 1 →
        (⟨n, 1⟩ : partialMatch) ∈ (starts i bucket).1) := by
  intro bucket
  induction bucket with
  | nil =>
    intro hmem
    simp at hmem
  | cons x rest ih =>
    intro hmem
    rcases List.mem_cons.1 hmem with h1 | h1
    · subst h1
      constructor
      · intro hl
        simp only [starts, if_pos hl]
        exact List.mem_cons_self _ _
      · intro hl
        simp only [starts, if_neg hl]
        exact List.mem_cons_self _ _
    · obtain ⟨ih1, ih2⟩ := ih h1
      constructor
      · intro hl
        simp only [starts]
        split
        · exact List.mem_cons_of_mem _ (ih1 hl)
        · exact ih1 hl
      · intro hl
        simp only [starts]
        split
        · exact ih2 hl
        · exact List.mem_cons_of_mem _ (ih2 hl)

/-- Tracking through a longer byte list: a surviving partial match whose
remaining needle bytes arrive next completes, whatever follows them. -/
theorem scan_track_prefix (index : Byte → List Needle)
    (pm : partialMatch) (rest : List Byte) (i : Nat)
    (pms : List partialMatch) (comp : List subrange)
    (hmem : pm ∈ pms) (hlt : pm.matched < pm.needle.length) :
    (⟨(i : Int) - pm.matched,
      (i : Int) - pm.matched + pm.needle.length⟩ : subrange) ∈
      (scan index (pm.needle.drop pm.matched ++ rest) i pms comp).2 := by
  rw [scan_append]
  exact scan_mem_comp index rest _ _ _ _
    (scan_track index _ i pms comp pm rfl hmem hlt)

/-- Scanner completeness: every occurrence of an indexed needle inside the
scanned bytes is recorded as a completed range. -/
theorem scan_complete {index : Byte → List Needle} (n : Needle) (hn : n ≠ []) :
    ∀ (b : List Byte) (i : Nat) (pms : List partialMatch)
      (comp : List subrange) (a : Nat),
      n ∈ index (n.getD 0 0) →
      n <+: b.drop a → a + n.length ≤ b.length →
      (⟨(i : Int) + a, (i : Int) + a + n.length⟩ : subrange) ∈
        (scan index b i pms comp).2 := by
  intro b i pms comp a hidxmem hpre hlen
  obtain ⟨t, ht⟩ := hpre
  obtain ⟨nh, nt, hneq⟩ := List.exists_cons_of_ne_nil hn
  have hta : (b.take a).length = a := by
    rw [List.length_take]
    have := List.length_pos.2 hn
    omega
  rw [← List.take_append_drop a b, scan_append, hta, ← ht, hneq,
    List.cons_append, scan, ← hneq]
  have hnh0 : n.getD 0 0 = nh := by
    rw [hneq, List.getD_cons_zero]
  rw [hnh0] at hidxmem
  by_cases hl1 : n.length = 1
  · have hnt : nt = [] := by
      rw [hneq] at hl1
      simp at hl1
      exact hl1
    have hst := (starts_mem (i + a) n (index nh) hidxmem).1 hl1
    have hre : (⟨(i : Int) + a, (i : Int) + a + n.length⟩ : subrange) =
        ⟨((i + a : Nat) : Int), ((i + a : Nat) : Int) + 1⟩ := by
      rw [hl1]
      congr 1 <;> push_cast <;> ring
    rw [hre]
    exact scan_mem_comp index (nt ++ t) _ _ _ _
      (List.mem_append_right _ hst)
  · have hpm2 : (⟨n, 1⟩ : partialMatch) ∈
        ((advance nh (i + a) (scan index (List.take a b) i pms comp).1).1 ++
          (starts (i + a) (index nh)).1) :=
      List.mem_append_right _ ((starts_mem (i + a) n (index nh) hidxmem).2 hl1)
    have hlt1 : (⟨n, 1⟩ : partialMatch).matched <
        (⟨n, 1⟩ : partialMatch).needle.length := by
      show 1 < n.length
      have := List.length_pos.2 hn
      omega
    have htrack := scan_track_prefix index ⟨n, 1⟩ t (i + a + 1)
      ((advance nh (i + a) (scan index (List.take a b) i pms comp).1).1 ++
        (starts (i + a) (index nh)).1)
      ((scan index (List.take a b) i pms comp).2 ++
        (advance nh (i + a) (scan index (List.take a b) i pms comp).1).2 ++
        (starts (i + a) (index nh)).2)
      hpm2 hlt1
    have hdrop1 : (⟨n, 1⟩ : partialMatch).needle.drop
        (⟨n, 1⟩ : partialMatch).matched = nt := by
      show n.drop 1 = nt
      rw [hneq]
      rfl
    rw [hdrop1] at htrack
    have hre : (⟨(i : Int) + a, (i : Int) + a + n.length⟩ : subrange) =
        ⟨((i + a + 1 : Nat) : Int) - (⟨n, 1⟩ : partialMatch).matched,
          ((i + a + 1 : Nat) : Int) - (⟨n, 1⟩ : partialMatch).matched +
            (⟨n, 1⟩ : partialMatch).needle.length⟩ := by
      show (⟨(i : Int) + a, (i : Int) + a + n.length⟩ : subrange) =
        ⟨((i + a + 1 : Nat) : Int) - ((1 : Nat) : Int),
          ((i + a + 1 : Nat) : Int) - ((1 : Nat) : Int) + n.length⟩
      congr 1 <;> push_cast <;> ring
    rw [hre]
    exact htrack

/-- Every occurrence of a registered non-empty needle in the stream is
covered by a single merged range. -/
theorem Vm_covers (S : List Byte) (ns : List Needle) (p n : List Byte)
    (hmem : n ∈ ns) (hn : n ≠ []) :
    ∀ a : Nat, n <+: p.drop a →
      ∃ g ∈ Vm (Redactor.new S ns).needlesByFirstByte p,
        g.from' ≤ (a : Int) ∧ (a : Int) + n.length ≤ g.to' := by
  intro a hpre
  have hidxmem : n ∈ (Redactor.new S ns).needlesByFirstByte (n.getD 0 0) := by
    show n ∈ ns.filter (fun s => s.head? = some (n.getD 0 0))
    rw [List.mem_filter]
    refine ⟨hmem, ?_⟩
    obtain ⟨nh, nt, hneq⟩ := List.exists_cons_of_ne_nil hn
    rw [hneq]
    simp
  have hlen : a + n.length ≤ p.length := by
    have h1 := hpre.length_le
    rw [List.length_drop] at h1
    have := List.length_pos.2 hn
    omega
  have hsc := scan_complete n hn p 0 [] [] a hidxmem hpre hlen
  have hvr : (⟨(a : Int), (a : Int) + n.length⟩ : subrange) ∈
      Vraw (Redactor.new S ns).needlesByFirstByte p := by
    have hre : (⟨(a : Int), (a : Int) + n.length⟩ : subrange) =
        ⟨((0 : Nat) : Int) + a, ((0 : Nat) : Int) + a + n.length⟩ := by
      congr 1 <;> push_cast <;> ring
    rw [hre]
    exact hsc
  obtain ⟨g, hg, h1, h2⟩ := mergeOverlaps_dominates _ _ hvr
  exact ⟨g, hg, h1, h2⟩

/-- One full-flush step: when the cursor sits at or before the next range's
start and the limit is the whole buffer, the loop emits the pass-through
slice and the marker and continues past the range. -/
theorem flushLoop_full_step (S p : List Byte) (m : subrange)
    (tail : List subrange) (c : Int) (h1 : c ≤ m.from')
    (h2 : m.from' < (p.length : Int)) :
    (flushLoop S p (p.length : Int) (m :: tail) c []).1 =
      (flushLoop S p (p.length : Int) tail m.to' []).1 ∧
    (flushLoop S p (p.length : Int) (m :: tail) c []).2.1 =
      slice p c m.from' ++ S ++
        (flushLoop S p (p.length : Int) tail m.to' []).2.1 := by
  rw [flushLoop, if_neg (by omega)]
  by_cases hlt : c < m.from'
  · rw [if_pos hlt,
      flushLoop_acc S p (p.length : Int) tail m.to'
        ([] ++ slice p c m.from' ++ S)]
    exact ⟨rfl, by simp [List.append_assoc]⟩
  · have heq : c = m.from' := by omega
    rw [if_neg hlt, if_pos heq,
      flushLoop_acc S p (p.length : Int) tail m.to' ([] ++ S)]
    refine ⟨rfl, ?_⟩
    have hsl : slice p c m.from' = [] := slice_nil_of_le (by omega)
    rw [hsl]

/-- The no-leak induction: rendering the remaining ranges from cursor `c`
never lets an occurrence of `n` through, given that every stream occurrence
of `n` from `c` onward is fully covered by a remaining range and `n` shares
no byte with the marker. -/
theorem flushLoop_noleak (S p n : List Byte) (hS : S ≠ []) (hn : n ≠ [])
    (hdisj : ∀ c ∈ n, c ∉ S) :
    ∀ (ms : List subrange) (c : Int),
      0 ≤ c →
      Sep ms →
      (∀ m ∈ ms, c ≤ m.from' ∧ m.from' < m.to' ∧ m.to' ≤ (p.length : Int)) →
      (∀ a : Nat, n <+: p.drop a → c ≤ (a : Int) →
        ∃ g ∈ ms, g.from' ≤ (a : Int) ∧ (a : Int) + n.length ≤ g.to') →
      ¬ n <:+: ((flushLoop S p (p.length : Int) ms c []).2.1 ++
        (if (flushLoop S p (p.length : Int) ms c []).1 < (p.length : Int)
         then slice p (flushLoop S p (p.length : Int) ms c []).1
           (p.length : Int)
         else [])) := by
  have hnlen : 0 < n.length := List.length_pos.2 hn
  intro ms
  induction ms with
  | nil =>
    intro c hc0 _ _ hcov hleak
    rw [show flushLoop S p (p.length : Int) [] c [] = (c, [], []) from rfl]
      at hleak
    dsimp only at hleak
    by_cases hcl : c < (p.length : Int)
    · rw [if_pos hcl, List.nil_append] at hleak
      obtain ⟨a0, hlen0, hpre0⟩ := infix_pos.1 hleak
      have hsliceeq : slice p c (p.length : Int) = p.drop c.toNat := by
        rw [slice, Int.toNat_natCast, List.take_length]
      rw [hsliceeq] at hlen0 hpre0
      rw [List.drop_drop] at hpre0
      obtain ⟨g, hg, -, -⟩ := hcov (c.toNat + a0) hpre0 (by push_cast; omega)
      exact absurd hg (List.not_mem_nil g)
    · rw [if_neg hcl, List.append_nil] at hleak
      exact hn (List.eq_nil_of_infix_nil hleak)
  | cons m tail ih =>
    intro c hc0 hsep hwf hcov hleak
    obtain ⟨hcf, hft, htp⟩ := hwf m (List.mem_cons_self m tail)
    obtain ⟨hm_t, hsep'⟩ := List.pairwise_cons.1 hsep
    obtain ⟨hcur, hout⟩ := flushLoop_full_step S p m tail c hcf (by omega)
    rw [hcur, hout, List.append_assoc, List.append_assoc] at hleak
    obtain ⟨a0, hlen0, hpre0⟩ := infix_pos.1 hleak
    have hslen : (slice p c m.from').length = m.from'.toNat - c.toNat := by
      rw [slice, List.length_drop, List.length_take]
      omega
    by_cases hcase1 : a0 + n.length ≤ (slice p c m.from').length
    · -- inside the pass-through slice: the occurrence starts below the next
      -- range, contradicting coverage
      have hplt : n <+: (slice p c m.from').drop a0 :=
        prefix_split_left a0 hpre0 hcase1
      have h1 : (slice p c m.from').drop a0 =
          (p.drop (c.toNat + a0)).take (m.from'.toNat - (c.toNat + a0)) := by
        rw [slice, List.drop_drop, List.drop_take]
      have hp2 : n <+: p.drop (c.toNat + a0) := by
        rw [h1] at hplt
        exact hplt.trans (List.take_prefix _ _)
      obtain ⟨g, hg, hgf, hgt⟩ := hcov (c.toNat + a0) hp2 (by push_cast; omega)
      rcases List.mem_cons.1 hg with h2 | h2
      · rw [h2] at hgf
        rw [hslen] at hcase1
        have hc2 : ((c.toNat + a0 : Nat) : Int) + n.length ≤ m.from' := by
          push_cast
          omega
        push_cast at hgf
        omega
      · have hsep2 := hm_t g h2
        rw [hslen] at hcase1
        have hc2 : ((c.toNat + a0 : Nat) : Int) + n.length ≤ m.from' := by
          push_cast
          omega
        push_cast at hgf
        omega
    · by_cases hcase2 : (slice p c m.from').length + S.length ≤ a0
      · -- inside the continuation: apply the induction hypothesis
        refine ih m.to' (by omega) hsep'
          (fun g hg => ⟨hm_t g hg, (hwf g (List.mem_cons_of_mem m hg)).2⟩)
          (fun a hpa hca => ?_) ?_
        · obtain ⟨g, hg, hgf, hgt⟩ := hcov a hpa (by omega)
          rcases List.mem_cons.1 hg with h2 | h2
          · exfalso
            rw [h2] at hgt
            omega
          · exact ⟨g, h2, hgf, hgt⟩
        · apply infix_pos.2
          refine ⟨a0 - (slice p c m.from').length - S.length, ?_, ?_⟩
          · simp only [List.length_append] at hlen0 ⊢
            omega
          · rw [drop_shift_right a0 (by omega),
              drop_shift_right _ (by omega)] at hpre0
            rw [show a0 - (slice p c m.from').length - S.length =
              a0 - (slice p c m.from').length - S.length from rfl]
            exact hpre0
      · exact straddle_clash hn hS hdisj a0 hpre0 hcase1 hcase2

/-- `render` written with the trailing slice pulled out of the conditional. -/
theorem render_split (S q : List Byte) (V : List subrange) (x : Int) :
    render S q V x = (flushLoop S q x V 0 []).2.1 ++
      (if (flushLoop S q x V 0 []).1 < x
       then slice q (flushLoop S q x V 0 []).1 x
       else []) := by
  rw [render]
  by_cases h : (flushLoop S q x V 0 []).1 < x
  · rw [if_pos h, if_pos h]
  · rw [if_neg h, if_neg h, List.append_nil]

/-- **C1** corrected: the no-leak property holds for every needle that
shares no byte with the substitution marker (and a non-empty marker). -/
theorem C1_no_leak (S : List Byte) (ns : List Needle)
    (chunks : List (List Byte)) (n : List Byte)
    (hmem : n ∈ ns) (hn : n ≠ []) (hS : S ≠ [])
    (hdisj : ∀ c ∈ n, c ∉ S) :
    ¬ n <:+: runAll (Redactor.new S ns) chunks := by
  rw [runAll_eq]
  have hidx : WfIndex (Redactor.new S ns).needlesByFirstByte :=
    new_wfIndex S ns
  obtain ⟨hsep, hsort, hmemv⟩ := Vm_facts hidx chunks.flatten
  rw [VO, render_split]
  exact flushLoop_noleak S chunks.flatten n hS hn hdisj
    (Vm (Redactor.new S ns).needlesByFirstByte chunks.flatten) 0 le_rfl hsep
    (fun m hm => ⟨(hmemv m hm).2.1, (hmemv m hm).1, (hmemv m hm).2.2⟩)
    (fun a hpa _ => Vm_covers S ns chunks.flatten n hmem hn a hpa)

theorem C1_witness :
    ([9] ∈ [[9]] ∧ [9] ≠ ([] : List Byte) ∧ [5] ≠ ([] : List Byte) ∧
      (∀ c ∈ [9], c ∉ ([5] : List Byte))) ∧
      ¬ [9] <:+: runAll (Redactor.new [5] [[9]]) [[3, 9, 4]] :=
  ⟨by decide, C1_no_leak [5] [[9]] [[3, 9, 4]] [9] (by decide) (by decide)
    (by decide) (by decide)⟩

/-- **C1** counterexample: with substitution marker `[1, 9, 1]` and the
needle `[9]`, writing `[5, 9, 5]` and flushing hands the sink
`[5, 1, 9, 1, 5]`, in which the needle occurs contiguously — inside the
substitution marker itself. -/
theorem C1_counterexample :
    [9] ∈ [[9]] ∧
      [9] <:+: runAll (Redactor.new [1, 9, 1] [[9]]) [[5, 9, 5]] := by
  decide
end Redact
